import Mathlib

/-!
# WebService: timers, buffer and log file

A shallow embedding of `ywl::net::TimerManager` (src/WebServer/Timer.cpp), of
`Buffer::readFd` (src/WebServer/Buffer.cpp) and of `LogFile::append_unlocked`
(src/WebServer/base/LogFile.cpp), and a verification of their operations.

* A `Timer*` is an address (`TimerPtr`); the Timer objects live in an explicit `Heap`,
  a finite list of cells (an address without a cell is not allocated).
* `std::set<T>` is a strictly ascending `List T`; `insert`, `erase(key)` and the two
  ranges cut by `lower_bound` are the list functions of section `StdSet`, `find` is
  list membership and `begin` is the head of the list.
* `timerfd_settime` calls, `Timer::run` calls and the conditions of the `assert`s are
  recorded in ghost fields of the state.
* The callbacks run on the loop thread, where `addTimer` and `cancel` execute at once;
  what a callback does to the manager is a list of `Action`s.
* `readv` is a parameter of `readFd`: a function from the iovec lengths offered to
  the return value, `errno` and the bytes transferred.
* The `FILE*` of a LogFile is the list of the calls made on it.
-/

namespace ywl.net

/-! ## Data model -/

/-- Modelled from the spec: base/Timestamp.h is not among the sources. A Timestamp is
a number of microseconds since the epoch ("microsecond precision"), compared as an
integer. -/
abbrev Timestamp := Int

/-- Modelled from the spec: base/Timestamp.h is not among the sources. The value of a
default-constructed Timestamp (`Timestamp nextExpired;` in `reset`): zero microseconds. -/
def Timestamp.default : Timestamp := 0

/-- Modelled from the spec: base/Timestamp.h is not among the sources.
`Timestamp::valid()`: a positive number of microseconds; the default-constructed
Timestamp is not valid, which is what leaves the descriptor unprogrammed in `reset`. -/
def Timestamp.valid (t : Timestamp) : Bool := decide (0 < t)

/-- A `Timer*`: the address of a Timer object. -/
abbrev TimerPtr := Nat

/-- The address `UINTPTR_MAX` used by the sentinel of `getExpired`, on a 64-bit target. -/
def UINTPTR_MAX : Nat := 2 ^ 64 - 1

/-- Modelled from the spec: Timer.h is not among the sources. A Timer holds its
expiration, its repeat interval (here in microseconds, the unit of Timestamp; 0 =
one-shot) and the sequence number it got at construction. Its callback is not a field:
what the callback does is given to `handleRead` as a list of actions. -/
structure Timer where
  expiration : Timestamp
  interval : Int
  sequence : Int
deriving DecidableEq, Repr

/-- Modelled from the spec: Timer.h is not among the sources. `Timer::repeat()`:
"repeat interval (0 = one-shot, >0 = repeating)". -/
def Timer.repeat_ (t : Timer) : Bool := decide (0 < t.interval)

/-- Modelled from the spec: Timer.h is not among the sources. `Timer::restart(now)`:
"compute a new expiration = now + interval". -/
def Timer.restart (t : Timer) (now : Timestamp) : Timer :=
  { t with expiration := now + t.interval }

/-- The Timer objects that are allocated, by address: a finite list of cells, the
cell of an address in front of the list being the current one. -/
structure Heap where
  cells : List (TimerPtr × Timer)
deriving DecidableEq, Repr

/-- The object at an address, if one is allocated there. -/
def Heap.read (h : Heap) (p : TimerPtr) : Option Timer :=
  (h.cells.find? (fun c => decide (c.1 = p))).map (fun c => c.2)

/-- The heap without the object at `p` (`delete`). -/
def Heap.free (h : Heap) (p : TimerPtr) : Heap :=
  ⟨h.cells.filter (fun c => decide (c.1 ≠ p))⟩

/-- The heap with the object `t` at `p` (`new`, or a write through the pointer). -/
def Heap.write (h : Heap) (p : TimerPtr) (t : Timer) : Heap :=
  ⟨(p, t) :: (h.free p).cells⟩

/-- The type `TimerManager::Entry`, a `std::pair<Timestamp, Timer*>`. -/
structure Entry where
  first : Timestamp
  second : TimerPtr
deriving DecidableEq, Repr

/-- The type `TimerManager::ActiveTimer`, a `std::pair<Timer*, int64_t>`. -/
structure ActiveTimer where
  first : TimerPtr
  second : Int
deriving DecidableEq, Repr

/-- The cancellation handle `TimerId(timer, sequence)`. -/
structure TimerId where
  timer_ : TimerPtr
  sequence_ : Int
deriving DecidableEq, Repr

/-- The key of an Entry in the lexicographic order of `std::pair`. -/
def Entry.key (e : Entry) : Timestamp ×ₗ TimerPtr := toLex (e.first, e.second)

/-- The key of an ActiveTimer in the lexicographic order of `std::pair`. -/
def ActiveTimer.key (a : ActiveTimer) : TimerPtr ×ₗ Int := toLex (a.first, a.second)

/-- The order `operator<` of `std::pair<Timestamp, Timer*>`. -/
instance : LinearOrder Entry :=
  LinearOrder.lift' Entry.key (by
    intro a b h
    cases a; cases b
    simp [Entry.key] at h
    simp [h])

/-- The order `operator<` of `std::pair<Timer*, int64_t>`. -/
instance : LinearOrder ActiveTimer :=
  LinearOrder.lift' ActiveTimer.key (by
    intro a b h
    cases a; cases b
    simp [ActiveTimer.key] at h
    simp [h])

/-! ## `std::set` as a strictly ascending list -/

namespace StdSet

variable {α : Type} [LinearOrder α]

/-- The call `std::set::insert(x)`: the new set and whether `x` was new. -/
def insert (x : α) (l : List α) : List α × Bool :=
  if x ∈ l then (l, false) else (l.orderedInsert (· ≤ ·) x, true)

/-- The call `std::set::erase(key)`: the new set and the number of elements removed. -/
def erase (x : α) (l : List α) : List α × Nat :=
  (l.filter (fun y => decide (y ≠ x)), l.count x)

/-- The range `[begin, lower_bound(k))`: the elements in front of the first one that
is not less than `k`. -/
def beforeLowerBound (k : α) (l : List α) : List α :=
  l.takeWhile (fun y => decide (y < k))

/-- The range `[lower_bound(k), end)`. -/
def fromLowerBound (k : α) (l : List α) : List α :=
  l.dropWhile (fun y => decide (y < k))

end StdSet

/-! ## TimerManager -/

/-- The state of a TimerManager, with the heap of Timer objects it points into. -/
structure TimerManager where
  /-- the Timer objects, by address -/
  heap : Heap
  /-- the counter `Timer::s_numCreated_` -/
  numCreated : Int
  /-- the set `timers_` -/
  timers : List Entry
  /-- the set `activeTimers_` -/
  activeTimers : List ActiveTimer
  /-- the flag `callingExpiredTimers_` -/
  callingExpiredTimers : Bool
  /-- the set `cancelingTimers_` -/
  cancelingTimers : List ActiveTimer
  /-- ghost: the expirations passed to `resetTimerfd`, oldest first -/
  timerfdLog : List Timestamp
  /-- ghost: the timers whose `run()` was called, oldest first -/
  runLog : List TimerPtr
  /-- ghost: no `assert` condition has been false so far -/
  assertOk : Bool
deriving DecidableEq, Repr

/-- What a callback may do to the manager from the loop thread. -/
inductive Action where
  | cancel (timerId : TimerId)
  | addTimer (when : Timestamp) (interval : Int)
deriving DecidableEq, Repr

namespace TimerManager

/-- The manager after construction: no timers. -/
def init : TimerManager :=
  { heap := ⟨[]⟩, numCreated := 0, timers := [], activeTimers := [],
    callingExpiredTimers := false, cancelingTimers := [], timerfdLog := [],
    runLog := [], assertOk := true }

/-- Reading through a `Timer*`. Reading a deleted Timer is undefined in the source;
the model then yields a zero Timer. -/
def deref (s : TimerManager) (p : TimerPtr) : Timer :=
  (s.heap.read p).getD ⟨0, 0, 0⟩

/-- The state after a write through the pointer `p`. -/
def write (s : TimerManager) (p : TimerPtr) (t : Timer) : TimerManager :=
  { s with heap := s.heap.write p t }

/-- The state after `delete p`. -/
def free (s : TimerManager) (p : TimerPtr) : TimerManager :=
  { s with heap := s.heap.free p }

/-- An `assert(c)`: records whether the condition held. -/
def check (s : TimerManager) (c : Bool) : TimerManager :=
  { s with assertOk := s.assertOk && c }

/-- The condition `timers_.size() == activeTimers_.size()`. -/
def sizesAgree (s : TimerManager) : Bool :=
  s.timers.length == s.activeTimers.length

/-- The function `detail::resetTimerfd(timerfd_, expiration)`: one `timerfd_settime`
call for this expiration. -/
def resetTimerfd (expiration : Timestamp) (s : TimerManager) : TimerManager :=
  { s with timerfdLog := s.timerfdLog ++ [expiration] }

/-- The method `TimerManager::insert(timer)` (Timer.cpp 187-210). -/
def insert (timer : TimerPtr) (s : TimerManager) : Bool × TimerManager :=
  let s0 := s.check s.sizesAgree
  let when := (s0.deref timer).expiration
  let earlistChanged : Bool :=
    match s0.timers.head? with
    | none => true
    | some it => decide (when < it.first)
  let result := StdSet.insert (⟨when, timer⟩ : Entry) s0.timers
  let s1 := ({ s0 with timers := result.1 }).check result.2
  let activeresult :=
    StdSet.insert (⟨timer, (s1.deref timer).sequence⟩ : ActiveTimer) s1.activeTimers
  let s2 := ({ s1 with activeTimers := activeresult.1 }).check activeresult.2
  (earlistChanged, s2.check s2.sizesAgree)

/-- The method `TimerManager::addTimerInLoop(timer)` (Timer.cpp 123-131). -/
def addTimerInLoop (timer : TimerPtr) (s : TimerManager) : TimerManager :=
  let r := insert timer s
  if r.1 then resetTimerfd (r.2.deref timer).expiration r.2 else r.2

/-- The method `TimerManager::cancelInLoop(timerId)` (Timer.cpp 139-158). -/
def cancelInLoop (timerId : TimerId) (s : TimerManager) : TimerManager :=
  let s0 := s.check s.sizesAgree
  let timer : ActiveTimer := ⟨timerId.timer_, timerId.sequence_⟩
  let s1 :=
    if timer ∈ s0.activeTimers then
      let r := StdSet.erase (⟨(s0.deref timer.first).expiration, timer.first⟩ : Entry) s0.timers
      let s' := ({ s0 with timers := r.1 }).check (r.2 == 1)
      let s2 := s'.free timer.first
      { s2 with activeTimers := (StdSet.erase timer s2.activeTimers).1 }
    else if s0.callingExpiredTimers then
      { s0 with cancelingTimers := (StdSet.insert timer s0.cancelingTimers).1 }
    else s0
  s1.check s1.sizesAgree

/-- One turn of the second loop of `getExpired` (Timer.cpp 227-231). -/
def getExpiredStep (st : TimerManager) (it : Entry) : TimerManager :=
  let timer : ActiveTimer := ⟨it.second, (st.deref it.second).sequence⟩
  let r := StdSet.erase timer st.activeTimers
  ({ st with activeTimers := r.1 }).check (r.2 == 1)

/-- The method `TimerManager::getExpired(now)` (Timer.cpp 212-233): the expired
entries in set order, and the state without them. -/
def getExpired (now : Timestamp) (s : TimerManager) : List Entry × TimerManager :=
  let s0 := s.check s.sizesAgree
  let sentry : Entry := ⟨now, UINTPTR_MAX⟩
  let expired := StdSet.beforeLowerBound sentry s0.timers
  let rest := StdSet.fromLowerBound sentry s0.timers
  let s1 := s0.check (match rest.head? with
    | none => true
    | some e => decide (now < e.first))
  let s2 := { s1 with timers := rest }
  (expired, expired.foldl getExpiredStep s2)

/-- One turn of the loop of `reset` (Timer.cpp 165-173). -/
def resetStep (now : Timestamp) (st : TimerManager) (it : Entry) : TimerManager :=
  let timer : ActiveTimer := ⟨it.second, (st.deref it.second).sequence⟩
  if (st.deref it.second).repeat_ && !decide (timer ∈ st.cancelingTimers) then
    (insert it.second (st.write it.second ((st.deref it.second).restart now))).2
  else
    st.free it.second

/-- The loop of `reset` (Timer.cpp 163-174). -/
def resetLoop (expired : List Entry) (now : Timestamp) (s : TimerManager) : TimerManager :=
  expired.foldl (resetStep now) s

/-- The Timestamp `nextExpired` of `reset` (Timer.cpp 162, 176-179). -/
def nextExpired (s : TimerManager) : Timestamp :=
  match s.timers.head? with
  | some e => (s.deref e.second).expiration
  | none => Timestamp.default

/-- The method `TimerManager::reset(expired, now)` (Timer.cpp 160-185). -/
def reset (expired : List Entry) (now : Timestamp) (s : TimerManager) : TimerManager :=
  let s1 := resetLoop expired now s
  if Timestamp.valid (nextExpired s1) then resetTimerfd (nextExpired s1) s1 else s1

/-- The method `TimerManager::addTimer(cb, when, interval)` called on the loop thread
(Timer.cpp 113-121): `new Timer` at the address the allocator gives, with the next
sequence number, then `addTimerInLoop` at once. -/
def addTimer (alloc : Heap → TimerPtr) (when : Timestamp)
    (interval : Int) (s : TimerManager) : TimerId × TimerManager :=
  let timer := alloc s.heap
  let sequence := s.numCreated + 1
  let s1 := ({ s with numCreated := sequence }).write timer ⟨when, interval, sequence⟩
  (⟨timer, sequence⟩, addTimerInLoop timer s1)

/-- The method `TimerManager::cancel(timerId)` called on the loop thread
(Timer.cpp 133-137): `cancelInLoop` at once. -/
def cancel (timerId : TimerId) (s : TimerManager) : TimerManager :=
  cancelInLoop timerId s

/-- One action of a callback. -/
def exec (alloc : Heap → TimerPtr) (s : TimerManager) :
    Action → TimerManager
  | .cancel timerId => cancel timerId s
  | .addTimer when interval => (addTimer alloc when interval s).2

/-- The call `it->second->run()` (Timer.cpp 107): the callback of this timer runs. -/
def run (alloc : Heap → TimerPtr) (cb : TimerPtr → List Action)
    (st : TimerManager) (it : Entry) : TimerManager :=
  (cb it.second).foldl (exec alloc) { st with runLog := st.runLog ++ [it.second] }

/-- The state of `handleRead` after the loop over the callbacks (Timer.cpp 101-109). -/
def runExpired (alloc : Heap → TimerPtr) (cb : TimerPtr → List Action)
    (now : Timestamp) (s : TimerManager) : TimerManager :=
  let r := getExpired now s
  let s1 := { r.2 with callingExpiredTimers := true, cancelingTimers := [] }
  let s2 := r.1.foldl (run alloc cb) s1
  { s2 with callingExpiredTimers := false }

/-- The method `TimerManager::handleRead()` (Timer.cpp 95-111), a firing pass: `now`
is what `Timestamp::now()` gave, `cb p` is what the callback of the timer at `p` does. -/
def handleRead (alloc : Heap → TimerPtr) (cb : TimerPtr → List Action)
    (now : Timestamp) (s : TimerManager) : TimerManager :=
  reset (getExpired now s).1 now (runExpired alloc cb now s)

/-! ## State predicates -/

/-- The three sets are `std::set`s: strictly ascending, hence without duplicates. -/
def WellFormed (s : TimerManager) : Prop :=
  s.timers.Sorted (· < ·) ∧ s.activeTimers.Sorted (· < ·) ∧
    s.cancelingTimers.Sorted (· < ·)

/-- Index consistency: the two indices have the same size, every entry of `timers_`
is `(t.expiration, t)` for an allocated timer `t` whose `(t, t.sequence)` is in
`activeTimers_`, and every entry of `activeTimers_` is `(t, t.sequence)` for an
allocated timer `t` whose `(t.expiration, t)` is in `timers_`. -/
def Consistent (s : TimerManager) : Prop :=
  s.timers.length = s.activeTimers.length ∧
  (∀ e ∈ s.timers, ∃ t, s.heap.read e.second = some t ∧ e.first = t.expiration ∧
    (⟨e.second, t.sequence⟩ : ActiveTimer) ∈ s.activeTimers) ∧
  (∀ a ∈ s.activeTimers, ∃ t, s.heap.read a.first = some t ∧ a.second = t.sequence ∧
    (⟨t.expiration, a.first⟩ : Entry) ∈ s.timers)

/-- Every `Timer*` in `timers_` is the address of a Timer object, so it is below
`UINTPTR_MAX`, the address of the sentinel of `getExpired`. -/
def ValidPtrs (s : TimerManager) : Prop :=
  ∀ e ∈ s.timers, e.second < UINTPTR_MAX

/-- The timer at `p` is in neither index. -/
def Absent (s : TimerManager) (p : TimerPtr) : Prop :=
  (∀ e ∈ s.timers, e.second ≠ p) ∧ (∀ a ∈ s.activeTimers, a.first ≠ p)

/-- The timer `t` at `p` is in both indices under its keys. -/
def Present (s : TimerManager) (p : TimerPtr) (t : Timer) : Prop :=
  s.heap.read p = some t ∧ (⟨t.expiration, p⟩ : Entry) ∈ s.timers ∧
    (⟨p, t.sequence⟩ : ActiveTimer) ∈ s.activeTimers

/-- The states `s` and `s'` agree on everything that is about an address other than `p`. -/
def SameExcept (p : TimerPtr) (s s' : TimerManager) : Prop :=
  (∀ e : Entry, e.second ≠ p → (e ∈ s'.timers ↔ e ∈ s.timers)) ∧
  (∀ a : ActiveTimer, a.first ≠ p → (a ∈ s'.activeTimers ↔ a ∈ s.activeTimers)) ∧
  (∀ q, q ≠ p → s'.heap.read q = s.heap.read q)

/-- The states `s` and `s'` agree on everything that is about the address `q`. -/
def SameAt (q : TimerPtr) (s s' : TimerManager) : Prop :=
  (∀ e : Entry, e.second = q → (e ∈ s'.timers ↔ e ∈ s.timers)) ∧
  (∀ a : ActiveTimer, a.first = q → (a ∈ s'.activeTimers ↔ a ∈ s.activeTimers)) ∧
  s'.heap.read q = s.heap.read q

/-- What holds while the callbacks of a pass run: the indices are consistent, and the
expired timers `E` are still allocated with the contents they had in `H`, and are in
neither index. -/
def PassInv (E : List Entry) (H : Heap) (s : TimerManager) : Prop :=
  WellFormed s ∧ Consistent s ∧
    ∀ it ∈ E, s.heap.read it.second = H.read it.second ∧ H.read it.second ≠ none ∧
      Absent s it.second

end TimerManager

/-- The contract of `operator new`: the address returned holds no object yet. -/
def AllocFresh (alloc : Heap → TimerPtr) : Prop :=
  ∀ h : Heap, h.read (alloc h) = none

/-! ## Decision procedures and concrete states -/

namespace TimerManager

instance (s : TimerManager) : Decidable (WellFormed s) := by
  unfold WellFormed
  infer_instance

instance (s : TimerManager) : Decidable (ValidPtrs s) := by
  unfold ValidPtrs
  infer_instance

instance (s : TimerManager) (p : TimerPtr) : Decidable (Absent s p) := by
  unfold Absent
  infer_instance

instance (s : TimerManager) (p : TimerPtr) (t : Timer) : Decidable (Present s p t) := by
  unfold Present
  infer_instance

/-- The entry `e` of `timers_` is the key of an allocated timer that is in
`activeTimers_`. -/
def entryOk (s : TimerManager) (e : Entry) : Bool :=
  match s.heap.read e.second with
  | some t =>
    decide (e.first = t.expiration) &&
      decide ((⟨e.second, t.sequence⟩ : ActiveTimer) ∈ s.activeTimers)
  | none => false

/-- The entry `a` of `activeTimers_` is the key of an allocated timer that is in
`timers_`. -/
def activeOk (s : TimerManager) (a : ActiveTimer) : Bool :=
  match s.heap.read a.first with
  | some t =>
    decide (a.second = t.sequence) && decide ((⟨t.expiration, a.first⟩ : Entry) ∈ s.timers)
  | none => false

/-- A check of `Consistent` that can be evaluated. -/
def consistentCheck (s : TimerManager) : Bool :=
  decide (s.timers.length = s.activeTimers.length) && s.timers.all (entryOk s) &&
    s.activeTimers.all (activeOk s)

/-- Three timers in the indices: a one-shot due at 500, one repeating every 250 due at
700, a one-shot due at 2000; and a fourth Timer, due at 900, that is constructed but
not inserted yet. -/
def exampleState : TimerManager :=
  { heap := ⟨[(1, ⟨500, 0, 1⟩), (2, ⟨700, 250, 2⟩), (3, ⟨2000, 0, 3⟩), (4, ⟨900, 0, 4⟩)]⟩,
    numCreated := 4,
    timers := [⟨500, 1⟩, ⟨700, 2⟩, ⟨2000, 3⟩],
    activeTimers := [⟨1, 1⟩, ⟨2, 2⟩, ⟨3, 3⟩],
    callingExpiredTimers := false, cancelingTimers := [], timerfdLog := [500],
    runLog := [], assertOk := true }

end TimerManager

/-- An allocator: the address above the highest one in use. -/
def bumpAlloc (h : Heap) : TimerPtr :=
  (h.cells.map (fun c => c.1)).foldr max 0 + 1

/-- No callback does anything to the manager. -/
def quietCallbacks : TimerPtr → List Action := fun _ => []

/-- The callback of the timer at address 2 cancels its own TimerId. -/
def selfCancelCallbacks : TimerPtr → List Action :=
  fun p => if p = 2 then [Action.cancel ⟨2, 2⟩] else []

/-- The callback of the timer at address 1 cancels the timer at address 2 through a
handle with an old sequence number. -/
def staleCancelCallbacks : TimerPtr → List Action :=
  fun p => if p = 1 then [Action.cancel ⟨2, 1⟩] else []

/-- The callback of the timer at address 1 adds a one-shot timer whose expiration is the
default (not valid) Timestamp. -/
def addInvalidCallbacks : TimerPtr → List Action :=
  fun p => if p = 1 then [Action.addTimer Timestamp.default 0] else []

/-- The callback of the timer at address 1 cancels the timer at address 2. -/
def siblingCancelCallbacks : TimerPtr → List Action :=
  fun p => if p = 1 then [Action.cancel ⟨2, 2⟩] else []

/-! ## Buffer (src/WebServer/Buffer.cpp) -/

/-- A byte (`char`). -/
abbrev Byte := UInt8

/-- Modelled from the spec: Buffer.h is not among the sources. "A contiguous byte
storage region, a read index, a write index"; the member `capacity_` is the length of
the storage. -/
structure Buffer where
  storage : List Byte
  read_index : Nat
  write_index : Nat
deriving DecidableEq, Repr

namespace Buffer

/-- The constant `Buffer::kCheapPrependSize` (Buffer.cpp 9). -/
def kCheapPrependSize : Nat := 8

/-- The constant `Buffer::kInitialSize` (Buffer.cpp 10). -/
def kInitialSize : Nat := 1024

/-- The size `sizeof extrabuf` of the transient region of `readFd` (Buffer.cpp 14). -/
def extrabufSize : Nat := 65536

/-- The member `capacity_`. -/
def capacity (b : Buffer) : Nat := b.storage.length

/-- Modelled from the spec: Buffer.h is not among the sources.
"readable = write_index − read_index". -/
def readableBytes (b : Buffer) : Nat := b.write_index - b.read_index

/-- Modelled from the spec: Buffer.h is not among the sources.
"writable = capacity − write_index". -/
def writeableBytes (b : Buffer) : Nat := b.capacity - b.write_index

/-- Modelled from the spec: Buffer.h is not among the sources.
"prependable = read_index". -/
def prependableBytes (b : Buffer) : Nat := b.read_index

/-- The bytes in `[read_index, write_index)`: the valid unread data. -/
def readable (b : Buffer) : List Byte :=
  (b.storage.drop b.read_index).take (b.write_index - b.read_index)

/-- A copy of `data` into a storage at offset `i` (`memcpy`, `memmove`, or the kernel
filling an iovec): the bytes outside `[i, i + data.length)` stay. -/
def writeAt (s : List Byte) (i : Nat) (data : List Byte) : List Byte :=
  s.take i ++ data ++ s.drop (i + data.length)

/-- The buffer after construction: the reserve of `kCheapPrependSize` bytes and
`kInitialSize` writable bytes. -/
def init : Buffer :=
  { storage := List.replicate (kCheapPrependSize + kInitialSize) 0,
    read_index := kCheapPrependSize, write_index := kCheapPrependSize }

/-- Modelled from the spec: Buffer.h is not among the sources. The room `append` makes
when "writableBytes < len": "reclaim prepend space by shifting readable bytes to the
front if writableBytes + prependableBytes − reserve ≥ len, else grow storage to at
least write_index + len". The front is the reserve offset, where the indices of an
empty buffer are. -/
def makeSpace (b : Buffer) (len : Nat) : Buffer :=
  if len + kCheapPrependSize ≤ b.writeableBytes + b.prependableBytes then
    { storage := writeAt b.storage kCheapPrependSize b.readable,
      read_index := kCheapPrependSize,
      write_index := kCheapPrependSize + b.readableBytes }
  else
    { b with storage := b.storage ++ List.replicate (b.write_index + len - b.capacity) 0 }

/-- The bytes `data` copied to the write index, and the write index advanced over them. -/
def copyIn (b : Buffer) (data : List Byte) : Buffer :=
  { b with storage := writeAt b.storage b.write_index data,
           write_index := b.write_index + data.length }

/-- Modelled from the spec: Buffer.h is not among the sources. `append(data, len)`:
make room if "writableBytes < len", "then copy bytes and advance write index". -/
def append (b : Buffer) (data : List Byte) : Buffer :=
  (if b.writeableBytes < data.length then b.makeSpace data.length else b).copyIn data

/-- What one `::readv` call did: its return value, the value of `errno` after it, and
the bytes it put into the iovecs, in order. -/
structure ReadvOutcome where
  n : Int
  errno : Int
  data : List Byte
deriving DecidableEq, Repr

/-- The result of `readFd`: the value returned, `*savedErrno`, and the buffer. -/
structure ReadFdResult where
  ret : Int
  savedErrno : Int
  buffer : Buffer
deriving DecidableEq, Repr

/-- The lengths of the iovecs `readFd` passes to `::readv` (Buffer.cpp 15-23): the
writable tail and `extrabuf`, or the writable tail alone. -/
def iovecs (b : Buffer) : List Nat :=
  let writable := b.writeableBytes
  let vec : List Nat := [writable, extrabufSize]
  let iovcnt := if writable < extrabufSize then 2 else 1
  vec.take iovcnt

/-- The method `Buffer::readFd(fd, savedErrno)` (Buffer.cpp 12-36). The descriptor is
the function `readv`, from the lengths of the iovecs passed to what the call does. -/
def readFd (readv : List Nat → ReadvOutcome) (b : Buffer) (savedErrno : Int) :
    ReadFdResult :=
  let writable := b.writeableBytes
  let r := readv b.iovecs
  -- the kernel has filled vec[0], the writable tail, and then vec[1], extrabuf
  let b0 := { b with storage := writeAt b.storage b.write_index (r.data.take writable) }
  let extrabuf := (r.data.drop writable ++ List.replicate extrabufSize 0).take extrabufSize
  if r.n < 0 then
    ⟨r.n, r.errno, b0⟩
  else if r.n.toNat ≤ writable then
    ⟨r.n, savedErrno, { b0 with write_index := b0.write_index + r.n.toNat }⟩
  else
    ⟨r.n, savedErrno,
      ({ b0 with write_index := b0.capacity }).append (extrabuf.take (r.n.toNat - writable))⟩

/-- The indices are in order: `read_index ≤ write_index ≤ capacity`. -/
def WellFormed (b : Buffer) : Prop :=
  b.read_index ≤ b.write_index ∧ b.write_index ≤ b.capacity

instance (b : Buffer) : Decidable (WellFormed b) := by
  unfold WellFormed
  infer_instance

/-- The contract of `::readv`: it fails with a negative value and transfers nothing,
or it returns the number of bytes it transferred, which is at most the total length of
the iovecs. -/
def ReadvOk (readv : List Nat → ReadvOutcome) : Prop :=
  ∀ iov, ((readv iov).n < 0 ∧ (readv iov).data = []) ∨
    ((readv iov).n = (readv iov).data.length ∧ (readv iov).data.length ≤ iov.sum)

/-- A socket with the bytes `avail` ready: one `readv` takes as many as fit. -/
def socketReadv (avail : List Byte) : List Nat → ReadvOutcome :=
  fun iov => ⟨(avail.take iov.sum).length, 0, avail.take iov.sum⟩

/-- A descriptor on which `readv` fails with `errno`. -/
def failingReadv (errno : Int) : List Nat → ReadvOutcome :=
  fun _ => ⟨-1, errno, []⟩

/-- A small buffer of capacity 14: readable bytes `[2, 3]` at offset 9, three
writable bytes. -/
def smallBuffer : Buffer :=
  { storage := [0, 0, 0, 0, 0, 0, 0, 0, 1, 2, 3, 0, 0, 0], read_index := 9,
    write_index := 11 }

end Buffer

/-! ## howMuchTimeFromNow (src/WebServer/Timer.cpp 26-38) -/

/-- A value of type `int64_t`: the integer `x` wrapped to 64 bits, two's complement. -/
def wrapInt64 (x : Int) : Int := (x + 2 ^ 63) % 2 ^ 64 - 2 ^ 63

/-- A value of type `int`: the integer `x` wrapped to 32 bits, two's complement. -/
def wrapInt32 (x : Int) : Int := (x + 2 ^ 31) % 2 ^ 32 - 2 ^ 31

/-- Modelled from the spec: base/Timestamp.h is not among the sources. The constant
`Timestamp::KMicroSecondsPerSecond`, the number of microseconds in a second. -/
def KMicroSecondsPerSecond : Int := 1000 * 1000

/-- A `struct timespec`. -/
structure Timespec where
  tv_sec : Int
  tv_nsec : Int
deriving DecidableEq, Repr

/-- The function `detail::howMuchTimeFromNow(when)` (Timer.cpp 26-38); `now` is what
`Timestamp::now()` gives. The division and the remainder are those of C++, which
truncate. -/
def howMuchTimeFromNow (when now : Timestamp) : Timespec :=
  let microseconds := wrapInt64 (when - now)
  let microseconds := if microseconds < 100 then 100 else microseconds
  { tv_sec := microseconds.tdiv KMicroSecondsPerSecond,
    tv_nsec := wrapInt64 (microseconds.tmod KMicroSecondsPerSecond * 1000) }

/-- A `struct itimerspec`. -/
structure Itimerspec where
  it_interval : Timespec
  it_value : Timespec
deriving DecidableEq, Repr

/-- The value `newValue` that `detail::resetTimerfd` passes to `timerfd_settime`
(Timer.cpp 56-61): zeroed, then `it_value` set. -/
def resetTimerfdValue (expiration now : Timestamp) : Itimerspec :=
  { it_interval := ⟨0, 0⟩, it_value := howMuchTimeFromNow expiration now }

/-! ## LogFile (src/WebServer/base/LogFile.cpp) -/

/-- A call on the `AppendFile` behind a LogFile. -/
inductive FileEvent where
  | append (logline : List Byte)
  | flush
deriving DecidableEq, Repr

/-- The state of a LogFile: `flushEveryN_`, `count_`, and the calls made on `file_` so
far, oldest first. -/
structure LogFile where
  flushEveryN : Int
  count : Int
  file : List FileEvent
deriving DecidableEq, Repr

namespace LogFile

/-- The constructor `LogFile::LogFile(basename, flushEveryN)` (LogFile.cpp 10-17). -/
def create (flushEveryN : Int) : LogFile :=
  { flushEveryN := flushEveryN, count := 0, file := [] }

/-- The method `LogFile::append_unlocked(logline, len)` (LogFile.cpp 31-40). -/
def append_unlocked (s : LogFile) (logline : List Byte) : LogFile :=
  let s1 := { s with file := s.file ++ [FileEvent.append logline] }
  let s2 := { s1 with count := wrapInt32 (s1.count + 1) }
  if s2.count ≥ s2.flushEveryN then
    { s2 with count := 0, file := s2.file ++ [FileEvent.flush] }
  else s2

/-- The flush-every-N policy in words: the calls on the file for the log lines
`lines`, of which `k` went before: each line is appended once, and the file is flushed
right after the appends whose number, `k + 1` for the first line, is a multiple of `N`. -/
def flushEveryNPolicy (N : Int) : Nat → List (List Byte) → List FileEvent
  | _, [] => []
  | k, logline :: rest =>
    (if ((k : Int) + 1) % N = 0 then [FileEvent.append logline, FileEvent.flush]
      else [FileEvent.append logline]) ++ flushEveryNPolicy N (k + 1) rest

/-- The log lines appended to the file, in order. -/
def appended : List FileEvent → List (List Byte)
  | [] => []
  | FileEvent.append logline :: rest => logline :: appended rest
  | FileEvent.flush :: rest => appended rest

end LogFile

/-! ## The timer descriptor -/

/-- The length of a `struct timespec` in microseconds. -/
def Timespec.microseconds (t : Timespec) : Int :=
  t.tv_sec * 1000000 + t.tv_nsec / 1000

/-- An armed timer descriptor: the last call `resetTimerfd(timerfd, expiration)`
(Timer.cpp 53-65) was made when `Timestamp::now()` was `clock`. -/
structure Armed where
  expiration : Timestamp
  clock : Timestamp
deriving DecidableEq, Repr

/-- The time at which an armed descriptor expires. `resetTimerfd` calls
`timerfd_settime` with flags 0: `it_value`, which is `howMuchTimeFromNow(expiration)`,
is a delay relative to the time of the call. -/
def Armed.deadline (a : Armed) : Timestamp :=
  a.clock + (resetTimerfdValue a.expiration a.clock).it_value.microseconds

/-- A TimerManager with its kernel timer descriptor. `armed = some a`: the descriptor
was last programmed by the `resetTimerfd` call `a`, and has not started a firing pass
since. -/
structure Reactor where
  manager : TimerManager
  armed : Option Armed

/-- An operation on the loop thread between two quiescent points. `clock` is what
`Timestamp::now()` gives in the last `resetTimerfd` call of the operation, if it makes
one; `now` is what it gives at the start of `handleRead`. -/
inductive Op where
  | addTimer (when : Timestamp) (interval : Int) (clock : Timestamp)
  | cancel (timerId : TimerId)
  | pass (cb : TimerPtr → List Action) (now : Timestamp) (clock : Timestamp)

namespace Reactor

/-- The descriptor after an operation that took the manager from `before` to `after`:
programmed by the last `resetTimerfd` call of the operation, if there was one. -/
def programmed (before after : TimerManager) (clock : Timestamp) (armed : Option Armed) :
    Option Armed :=
  match (after.timerfdLog.drop before.timerfdLog.length).getLast? with
  | some d => some ⟨d, clock⟩
  | none => armed

/-- The reactor after construction. -/
def init : Reactor := { manager := TimerManager.init, armed := none }

/-- One operation. A firing pass is started by the descriptor, which has expired and is
no longer armed when `handleRead` runs (its `it_interval` is zero). `cancelInLoop`
makes no `resetTimerfd` call, so no clock is read. -/
def step (alloc : Heap → TimerPtr) (r : Reactor) : Op → Reactor
  | Op.addTimer when interval clock =>
    let m := (TimerManager.addTimer alloc when interval r.manager).2
    { manager := m, armed := programmed r.manager m clock r.armed }
  | Op.cancel timerId =>
    let m := TimerManager.cancelInLoop timerId r.manager
    { manager := m, armed := programmed r.manager m 0 r.armed }
  | Op.pass cb now clock =>
    let m := TimerManager.handleRead alloc cb now r.manager
    { manager := m, armed := programmed r.manager m clock none }

/-- Every timer an action adds has a valid (positive) expiration. -/
def ActionValid : Action → Prop
  | Action.addTimer when _ => 0 < when
  | Action.cancel _ => True

/-- Every timer an operation adds has a valid (positive) expiration. -/
def OpValid : Op → Prop
  | Op.addTimer when _ _ => 0 < when
  | Op.cancel _ => True
  | Op.pass cb _ _ => ∀ p, ∀ act ∈ cb p, ActionValid act

/-- Every timer in `timers_` has a valid (positive) expiration. -/
def AllValid (m : TimerManager) : Prop :=
  ∀ e ∈ m.timers, 0 < e.first

/-- The descriptor-deadline property: if `timers_` is not empty, the descriptor is
armed, and the time at which it expires is no later than any expiration in `timers_`. -/
def DeadlineOk (r : Reactor) : Prop :=
  r.manager.timers ≠ [] →
    ∃ a, r.armed = some a ∧ ∀ e ∈ r.manager.timers, a.deadline ≤ e.first

/-- The property of the requests: if `timers_` is not empty, the descriptor is armed,
and the expiration last handed to `resetTimerfd` is no later than any expiration in
`timers_`. -/
def RequestOk (r : Reactor) : Prop :=
  r.manager.timers ≠ [] →
    ∃ a, r.armed = some a ∧ ∀ e ∈ r.manager.timers, a.expiration ≤ e.first

instance (r : Reactor) : Decidable (DeadlineOk r) := by
  unfold DeadlineOk
  cases h : r.armed with
  | none =>
    by_cases ht : r.manager.timers = []
    · exact isTrue (fun hne => absurd ht hne)
    · exact isFalse (fun hd => by
        obtain ⟨d, hd', _⟩ := hd ht
        cases hd')
  | some d =>
    by_cases hall : ∀ e ∈ r.manager.timers, d.deadline ≤ e.first
    · exact isTrue (fun _ => ⟨d, rfl, hall⟩)
    · by_cases ht : r.manager.timers = []
      · exact isTrue (fun hne => absurd ht hne)
      · exact isFalse (fun hd => by
          obtain ⟨d', hd', hall'⟩ := hd ht
          cases hd'
          exact hall hall')

end Reactor

/-- Four operations from the start: a one-shot timer due at 500 added at time 100, a
repeating timer due at 300 added at time 110, the cancel of the second, and a pass
that starts at 350 and programs the descriptor at 352. -/
def exampleOps : List Op :=
  [Op.addTimer 500 0 100, Op.addTimer 300 100 110, Op.cancel ⟨2, 2⟩,
    Op.pass quietCallbacks 350 352]

/-- One operation from the start: at time 1000, a one-shot timer due at 1050, which is
50 microseconds ahead. -/
def nearOps : List Op := [Op.addTimer 1050 0 1000]

/-! ## Lemmas on `std::set` -/

namespace StdSet

variable {α : Type} [LinearOrder α]

theorem mem_insert (x y : α) (l : List α) : y ∈ (insert x l).1 ↔ y = x ∨ y ∈ l := by
  unfold insert
  split
  · rename_i h
    constructor
    · intro hy; exact Or.inr hy
    · rintro (rfl | hy)
      · exact h
      · exact hy
  · simp [List.mem_orderedInsert]

theorem insert_new (x : α) (l : List α) : (insert x l).2 = true ↔ x ∉ l := by
  unfold insert
  split <;> simp_all

theorem length_insert (x : α) (l : List α) (h : x ∉ l) :
    (insert x l).1.length = l.length + 1 := by
  simp [insert, h, List.orderedInsert_length]

theorem insert_of_mem (x : α) (l : List α) (h : x ∈ l) : (insert x l).1 = l := by
  simp [insert, h]

theorem sorted_insert (x : α) (l : List α) (h : l.Sorted (· < ·)) :
    (insert x l).1.Sorted (· < ·) := by
  unfold insert
  split
  · exact h
  · rename_i hx
    have h1 : (l.orderedInsert (· ≤ ·) x).Sorted (· ≤ ·) := h.le_of_lt.orderedInsert x l
    have h2 : (l.orderedInsert (· ≤ ·) x).Nodup :=
      (List.perm_orderedInsert (· ≤ ·) x l).nodup_iff.mpr (List.nodup_cons.mpr ⟨hx, h.nodup⟩)
    exact h1.lt_of_le h2

theorem mem_erase (x y : α) (l : List α) : y ∈ (erase x l).1 ↔ y ∈ l ∧ y ≠ x := by
  simp [erase, List.mem_filter]

theorem sorted_erase (x : α) (l : List α) (h : l.Sorted (· < ·)) :
    (erase x l).1.Sorted (· < ·) := h.filter _

theorem erase_count (x : α) (l : List α) (h : l.Sorted (· < ·)) (hx : x ∈ l) :
    (erase x l).2 = 1 := List.count_eq_one_of_mem h.nodup hx

theorem erase_of_not_mem (x : α) (l : List α) (hx : x ∉ l) : erase x l = (l, 0) := by
  simp only [erase, Prod.mk.injEq]
  refine ⟨?_, List.count_eq_zero_of_not_mem hx⟩
  rw [List.filter_eq_self]
  intro a ha
  simp only [ne_eq, decide_eq_true_eq]
  rintro rfl
  exact hx ha

theorem length_erase (x : α) (l : List α) (h : l.Sorted (· < ·)) (hx : x ∈ l) :
    (erase x l).1.length + 1 = l.length := by
  have h1 : (erase x l).1 = l.erase x := by
    rw [h.nodup.erase_eq_filter]
    simp only [erase]
    congr 1
    funext y
    by_cases hy : y = x <;> simp [bne, hy]
  rw [h1, List.length_erase_of_mem hx]
  have : 0 < l.length := List.length_pos_of_mem hx
  omega

theorem mem_beforeLowerBound (k y : α) (l : List α) (h : l.Sorted (· < ·)) :
    y ∈ beforeLowerBound k l ↔ y ∈ l ∧ y < k := by
  induction l with
  | nil => simp [beforeLowerBound]
  | cons a l ih =>
    have hs := List.sorted_cons.mp h
    have ih := ih hs.2
    unfold beforeLowerBound at ih ⊢
    by_cases hak : a < k
    · rw [List.takeWhile_cons_of_pos (by simpa using hak)]
      simp only [List.mem_cons, ih]
      constructor
      · rintro (rfl | h1)
        · exact ⟨Or.inl rfl, hak⟩
        · exact ⟨Or.inr h1.1, h1.2⟩
      · rintro ⟨rfl | h1, h2⟩
        · exact Or.inl rfl
        · exact Or.inr ⟨h1, h2⟩
    · rw [List.takeWhile_cons_of_neg (by simpa using hak)]
      simp only [List.not_mem_nil, List.mem_cons, false_iff, not_and]
      rintro (rfl | h1) h2
      · exact hak h2
      · exact hak (lt_trans (hs.1 y h1) h2)

theorem mem_fromLowerBound (k y : α) (l : List α) (h : l.Sorted (· < ·)) :
    y ∈ fromLowerBound k l ↔ y ∈ l ∧ ¬ y < k := by
  induction l with
  | nil => simp [fromLowerBound]
  | cons a l ih =>
    have hs := List.sorted_cons.mp h
    have ih := ih hs.2
    unfold fromLowerBound at ih ⊢
    by_cases hak : a < k
    · rw [List.dropWhile_cons_of_pos (by simpa using hak)]
      simp only [List.mem_cons, ih]
      constructor
      · rintro ⟨h1, h2⟩
        exact ⟨Or.inr h1, h2⟩
      · rintro ⟨rfl | h1, h2⟩
        · exact absurd hak h2
        · exact ⟨h1, h2⟩
    · rw [List.dropWhile_cons_of_neg (by simpa using hak)]
      simp only [List.mem_cons]
      constructor
      · rintro (rfl | h1)
        · exact ⟨Or.inl rfl, hak⟩
        · exact ⟨Or.inr h1, fun h2 => hak (lt_trans (hs.1 y h1) h2)⟩
      · rintro ⟨h1, _⟩
        exact h1

theorem before_append_from (k : α) (l : List α) :
    beforeLowerBound k l ++ fromLowerBound k l = l := List.takeWhile_append_dropWhile _ l

theorem sorted_beforeLowerBound (k : α) (l : List α) (h : l.Sorted (· < ·)) :
    (beforeLowerBound k l).Sorted (· < ·) := h.sublist (List.takeWhile_sublist _)

theorem sorted_fromLowerBound (k : α) (l : List α) (h : l.Sorted (· < ·)) :
    (fromLowerBound k l).Sorted (· < ·) := h.sublist (List.dropWhile_sublist _)

end StdSet

/-! ## Lemmas on the heap and the orders -/

theorem Entry.lt_iff (a b : Entry) :
    a < b ↔ a.first < b.first ∨ (a.first = b.first ∧ a.second < b.second) := by
  show a.key < b.key ↔ _
  simp [Entry.key, Prod.Lex.lt_iff]

theorem Heap.read_free_same (h : Heap) (p : TimerPtr) : (h.free p).read p = none := by
  obtain ⟨cells⟩ := h
  simp only [Heap.read, Heap.free, Option.map_eq_none', List.find?_eq_none]
  intro c hc
  simp only [List.mem_filter] at hc
  simpa using hc.2

theorem Heap.read_free_ne (h : Heap) (p q : TimerPtr) (hq : q ≠ p) :
    (h.free p).read q = h.read q := by
  obtain ⟨cells⟩ := h
  simp only [Heap.read, Heap.free]
  congr 1
  induction cells with
  | nil => rfl
  | cons c cs ih =>
    by_cases hc : c.1 = p
    · have hcq : ¬ c.1 = q := fun h1 => hq (h1 ▸ hc)
      rw [List.filter_cons_of_neg (by simpa using hc),
        List.find?_cons_of_neg _ (by simpa using hcq), ih]
    · rw [List.filter_cons_of_pos (by simpa using hc)]
      by_cases hcq : c.1 = q
      · rw [List.find?_cons_of_pos _ (by simpa using hcq),
          List.find?_cons_of_pos _ (by simpa using hcq)]
      · rw [List.find?_cons_of_neg _ (by simpa using hcq),
          List.find?_cons_of_neg _ (by simpa using hcq), ih]

theorem Heap.read_write_same (h : Heap) (p : TimerPtr) (t : Timer) :
    (h.write p t).read p = some t := by
  simp [Heap.read, Heap.write]

theorem Heap.read_write_ne (h : Heap) (p q : TimerPtr) (t : Timer) (hq : q ≠ p) :
    (h.write p t).read q = h.read q := by
  have h1 : (h.write p t).read q = (h.free p).read q := by
    simp [Heap.read, Heap.write, List.find?_cons, Ne.symm hq]
  rw [h1, Heap.read_free_ne h p q hq]

/-! ## The index operations, field by field -/

namespace TimerManager

theorem deref_of_read {s : TimerManager} {p : TimerPtr} {t : Timer}
    (h : s.heap.read p = some t) : s.deref p = t := by
  simp [deref, h]

theorem Consistent.entry_eq {s : TimerManager} (hc : Consistent s) {e : Entry}
    (he : e ∈ s.timers) {t : Timer} (ht : s.heap.read e.second = some t) :
    e = ⟨t.expiration, e.second⟩ := by
  obtain ⟨t', h1, h2, _⟩ := hc.2.1 e he
  rw [ht] at h1
  cases h1
  cases e
  simp_all

theorem Consistent.active_eq {s : TimerManager} (hc : Consistent s) {a : ActiveTimer}
    (ha : a ∈ s.activeTimers) {t : Timer} (ht : s.heap.read a.first = some t) :
    a = ⟨a.first, t.sequence⟩ := by
  obtain ⟨t', h1, h2, _⟩ := hc.2.2 a ha
  rw [ht] at h1
  cases h1
  cases a
  simp_all

/-- Two nodup indices that correspond entry by entry have the same size. -/
theorem size_of_corr (s : TimerManager) (h1 : s.timers.Nodup) (h2 : s.activeTimers.Nodup)
    (c1 : ∀ e ∈ s.timers, ∃ t, s.heap.read e.second = some t ∧ e.first = t.expiration ∧
      (⟨e.second, t.sequence⟩ : ActiveTimer) ∈ s.activeTimers)
    (c2 : ∀ a ∈ s.activeTimers, ∃ t, s.heap.read a.first = some t ∧ a.second = t.sequence ∧
      (⟨t.expiration, a.first⟩ : Entry) ∈ s.timers) :
    s.timers.length = s.activeTimers.length := by
  let f : Entry → ActiveTimer := fun e => ⟨e.second, (s.deref e.second).sequence⟩
  have hinj : ∀ x ∈ s.timers, ∀ y ∈ s.timers, f x = f y → x = y := by
    intro x hx y hy hxy
    have hp : x.second = y.second := congrArg ActiveTimer.first hxy
    obtain ⟨t, r1, e1, _⟩ := c1 x hx
    obtain ⟨t', r2, e2, _⟩ := c1 y hy
    rw [hp, r2] at r1
    cases r1
    cases x
    cases y
    simp_all
  have hnd : (s.timers.map f).Nodup := h1.map_on hinj
  have hperm : List.Perm (s.timers.map f) s.activeTimers :=
    (List.perm_ext_iff_of_nodup hnd h2).mpr (by
      intro a
      simp only [List.mem_map]
      constructor
      · rintro ⟨e, he, rfl⟩
        obtain ⟨t, r1, _, m⟩ := c1 e he
        simpa [f, deref, r1] using m
      · intro ha
        obtain ⟨t, r1, e1, m⟩ := c2 a ha
        refine ⟨⟨t.expiration, a.first⟩, m, ?_⟩
        cases a
        simp_all [f, deref])
  rw [← hperm.length_eq, List.length_map]

/-- Consistency from well-formedness and the two correspondences. -/
theorem Consistent.of_corr {s : TimerManager} (hwf : WellFormed s)
    (c1 : ∀ e ∈ s.timers, ∃ t, s.heap.read e.second = some t ∧ e.first = t.expiration ∧
      (⟨e.second, t.sequence⟩ : ActiveTimer) ∈ s.activeTimers)
    (c2 : ∀ a ∈ s.activeTimers, ∃ t, s.heap.read a.first = some t ∧ a.second = t.sequence ∧
      (⟨t.expiration, a.first⟩ : Entry) ∈ s.timers) : Consistent s :=
  ⟨size_of_corr s hwf.1.nodup hwf.2.1.nodup c1 c2, c1, c2⟩

theorem Consistent.absent_active {s : TimerManager} (hc : Consistent s) {p : TimerPtr}
    (h : ∀ e ∈ s.timers, e.second ≠ p) : ∀ a ∈ s.activeTimers, a.first ≠ p := by
  intro a ha hp
  obtain ⟨t, _, _, m⟩ := hc.2.2 a ha
  exact h _ m hp

theorem Consistent.absent_of_not_live {s : TimerManager} (hc : Consistent s) {p : TimerPtr}
    (h : s.heap.read p = none) : Absent s p := by
  refine ⟨fun e he hp => ?_, fun a ha hp => ?_⟩
  · obtain ⟨t, r, _⟩ := hc.2.1 e he
    rw [hp, h] at r
    cases r
  · obtain ⟨t, r, _⟩ := hc.2.2 a ha
    rw [hp, h] at r
    cases r

/-! ### insert -/

theorem insert_timers (p : TimerPtr) (s : TimerManager) :
    (insert p s).2.timers
      = (StdSet.insert (⟨(s.deref p).expiration, p⟩ : Entry) s.timers).1 := rfl

theorem insert_activeTimers (p : TimerPtr) (s : TimerManager) :
    (insert p s).2.activeTimers
      = (StdSet.insert (⟨p, (s.deref p).sequence⟩ : ActiveTimer) s.activeTimers).1 := rfl

theorem insert_heap (p : TimerPtr) (s : TimerManager) : (insert p s).2.heap = s.heap := rfl

theorem insert_cancelingTimers (p : TimerPtr) (s : TimerManager) :
    (insert p s).2.cancelingTimers = s.cancelingTimers := rfl

theorem insert_calling (p : TimerPtr) (s : TimerManager) :
    (insert p s).2.callingExpiredTimers = s.callingExpiredTimers := rfl

theorem insert_timerfdLog (p : TimerPtr) (s : TimerManager) :
    (insert p s).2.timerfdLog = s.timerfdLog := rfl

theorem insert_runLog (p : TimerPtr) (s : TimerManager) :
    (insert p s).2.runLog = s.runLog := rfl

theorem insert_wellFormed (p : TimerPtr) (s : TimerManager) (hwf : WellFormed s) :
    WellFormed (insert p s).2 :=
  ⟨StdSet.sorted_insert _ _ hwf.1, StdSet.sorted_insert _ _ hwf.2.1, hwf.2.2⟩

theorem insert_sameExcept (p : TimerPtr) (s : TimerManager) :
    SameExcept p s (insert p s).2 := by
  refine ⟨fun e he => ?_, fun a ha => ?_, fun q _ => rfl⟩
  · rw [insert_timers, StdSet.mem_insert]
    constructor
    · rintro (rfl | h)
      · exact absurd rfl he
      · exact h
    · exact Or.inr
  · rw [insert_activeTimers, StdSet.mem_insert]
    constructor
    · rintro (rfl | h)
      · exact absurd rfl ha
      · exact h
    · exact Or.inr

theorem insert_present (p : TimerPtr) (s : TimerManager) (t : Timer)
    (ht : s.heap.read p = some t) : Present (insert p s).2 p t := by
  refine ⟨ht, ?_, ?_⟩
  · rw [insert_timers, StdSet.mem_insert, deref_of_read ht]
    exact Or.inl rfl
  · rw [insert_activeTimers, StdSet.mem_insert, deref_of_read ht]
    exact Or.inl rfl

theorem insert_consistent (p : TimerPtr) (s : TimerManager) (t : Timer)
    (hwf : WellFormed s) (hc : Consistent s) (ht : s.heap.read p = some t) :
    Consistent (insert p s).2 := by
  apply Consistent.of_corr (insert_wellFormed p s hwf)
  · intro e he
    rw [insert_timers, StdSet.mem_insert, deref_of_read ht] at he
    rcases he with rfl | he
    · exact ⟨t, ht, rfl, (insert_present p s t ht).2.2⟩
    · obtain ⟨t', r, e1, m⟩ := hc.2.1 e he
      refine ⟨t', r, e1, ?_⟩
      rw [insert_activeTimers, StdSet.mem_insert]
      exact Or.inr m
  · intro a ha
    rw [insert_activeTimers, StdSet.mem_insert, deref_of_read ht] at ha
    rcases ha with rfl | ha
    · exact ⟨t, ht, rfl, (insert_present p s t ht).2.1⟩
    · obtain ⟨t', r, e1, m⟩ := hc.2.2 a ha
      refine ⟨t', r, e1, ?_⟩
      rw [insert_timers, StdSet.mem_insert]
      exact Or.inr m

end TimerManager

namespace TimerManager

/-! ### cancelInLoop -/

theorem cancelInLoop_found (timerId : TimerId) (s : TimerManager)
    (h : (⟨timerId.timer_, timerId.sequence_⟩ : ActiveTimer) ∈ s.activeTimers) :
    (cancelInLoop timerId s).timers
        = (StdSet.erase (⟨(s.deref timerId.timer_).expiration, timerId.timer_⟩ : Entry)
            s.timers).1 ∧
      (cancelInLoop timerId s).activeTimers
        = (StdSet.erase (⟨timerId.timer_, timerId.sequence_⟩ : ActiveTimer)
            s.activeTimers).1 ∧
      (cancelInLoop timerId s).heap = s.heap.free timerId.timer_ ∧
      (cancelInLoop timerId s).cancelingTimers = s.cancelingTimers := by
  have h' : (⟨timerId.timer_, timerId.sequence_⟩ : ActiveTimer)
      ∈ (s.check s.sizesAgree).activeTimers := h
  simp only [cancelInLoop, h', if_true]
  exact ⟨rfl, rfl, rfl, rfl⟩

theorem cancelInLoop_not_found (timerId : TimerId) (s : TimerManager)
    (h : (⟨timerId.timer_, timerId.sequence_⟩ : ActiveTimer) ∉ s.activeTimers) :
    (cancelInLoop timerId s).timers = s.timers ∧
      (cancelInLoop timerId s).activeTimers = s.activeTimers ∧
      (cancelInLoop timerId s).heap = s.heap ∧
      (cancelInLoop timerId s).cancelingTimers
        = (if s.callingExpiredTimers
            then (StdSet.insert (⟨timerId.timer_, timerId.sequence_⟩ : ActiveTimer)
              s.cancelingTimers).1
            else s.cancelingTimers) := by
  have h' : (⟨timerId.timer_, timerId.sequence_⟩ : ActiveTimer)
      ∉ (s.check s.sizesAgree).activeTimers := h
  simp only [cancelInLoop, h', if_false]
  cases hcall : s.callingExpiredTimers
  · have : (s.check s.sizesAgree).callingExpiredTimers = false := hcall
    simp only [this]
    exact ⟨rfl, rfl, rfl, rfl⟩
  · have : (s.check s.sizesAgree).callingExpiredTimers = true := hcall
    simp only [this, if_true]
    exact ⟨rfl, rfl, rfl, rfl⟩

theorem cancelInLoop_calling (timerId : TimerId) (s : TimerManager) :
    (cancelInLoop timerId s).callingExpiredTimers = s.callingExpiredTimers := by
  unfold cancelInLoop
  simp only
  split
  · rfl
  · split <;> rfl

theorem cancelInLoop_timerfdLog (timerId : TimerId) (s : TimerManager) :
    (cancelInLoop timerId s).timerfdLog = s.timerfdLog := by
  unfold cancelInLoop
  simp only
  split
  · rfl
  · split <;> rfl

theorem cancelInLoop_runLog (timerId : TimerId) (s : TimerManager) :
    (cancelInLoop timerId s).runLog = s.runLog := by
  unfold cancelInLoop
  simp only
  split
  · rfl
  · split <;> rfl

theorem cancelInLoop_wellFormed (timerId : TimerId) (s : TimerManager)
    (hwf : WellFormed s) : WellFormed (cancelInLoop timerId s) := by
  by_cases h : (⟨timerId.timer_, timerId.sequence_⟩ : ActiveTimer) ∈ s.activeTimers
  · obtain ⟨h1, h2, _, h4⟩ := cancelInLoop_found timerId s h
    refine ⟨?_, ?_, ?_⟩
    · rw [h1]; exact StdSet.sorted_erase _ _ hwf.1
    · rw [h2]; exact StdSet.sorted_erase _ _ hwf.2.1
    · rw [h4]; exact hwf.2.2
  · obtain ⟨h1, h2, _, h4⟩ := cancelInLoop_not_found timerId s h
    refine ⟨?_, ?_, ?_⟩
    · rw [h1]; exact hwf.1
    · rw [h2]; exact hwf.2.1
    · rw [h4]
      split
      · exact StdSet.sorted_insert _ _ hwf.2.2
      · exact hwf.2.2

theorem cancelInLoop_sameExcept (timerId : TimerId) (s : TimerManager) :
    SameExcept timerId.timer_ s (cancelInLoop timerId s) := by
  by_cases h : (⟨timerId.timer_, timerId.sequence_⟩ : ActiveTimer) ∈ s.activeTimers
  · obtain ⟨h1, h2, h3, _⟩ := cancelInLoop_found timerId s h
    refine ⟨fun e he => ?_, fun a ha => ?_, fun q hq => ?_⟩
    · rw [h1, StdSet.mem_erase]
      constructor
      · exact fun h => h.1
      · exact fun h => ⟨h, fun h' => he (h' ▸ rfl)⟩
    · rw [h2, StdSet.mem_erase]
      constructor
      · exact fun h => h.1
      · exact fun h => ⟨h, fun h' => ha (h' ▸ rfl)⟩
    · rw [h3, Heap.read_free_ne _ _ _ hq]
  · obtain ⟨h1, h2, h3, _⟩ := cancelInLoop_not_found timerId s h
    refine ⟨fun e _ => by rw [h1], fun a _ => by rw [h2], fun q _ => by rw [h3]⟩

/-- A found cancel leaves the timer at that address in neither index. -/
theorem cancelInLoop_found_absent (timerId : TimerId) (s : TimerManager)
    (hc : Consistent s)
    (h : (⟨timerId.timer_, timerId.sequence_⟩ : ActiveTimer) ∈ s.activeTimers) :
    Absent (cancelInLoop timerId s) timerId.timer_ := by
  obtain ⟨h1, h2, _, _⟩ := cancelInLoop_found timerId s h
  obtain ⟨t, r, e1, m⟩ := hc.2.2 _ h
  simp only at r e1 m
  refine ⟨fun e he hp => ?_, fun a ha hp => ?_⟩
  · rw [h1, StdSet.mem_erase, deref_of_read r] at he
    have := hc.entry_eq he.1 (hp ▸ r)
    exact he.2 (by rw [this, hp])
  · rw [h2, StdSet.mem_erase] at ha
    have := hc.active_eq ha.1 (hp ▸ r)
    exact ha.2 (by rw [this, hp, e1])

/-- Consistency carries over to a state that differs only at an address that is in
neither index afterwards. -/
theorem Consistent.of_sameExcept_absent {s s' : TimerManager} {p : TimerPtr}
    (hc : Consistent s) (hwf : WellFormed s') (hse : SameExcept p s s')
    (hab : Absent s' p) : Consistent s' := by
  apply Consistent.of_corr hwf
  · intro e he
    have hp : e.second ≠ p := hab.1 e he
    obtain ⟨t, r, e1, m⟩ := hc.2.1 e ((hse.1 e hp).mp he)
    exact ⟨t, by rw [hse.2.2 _ hp]; exact r, e1, (hse.2.1 _ hp).mpr m⟩
  · intro a ha
    have hp : a.first ≠ p := hab.2 a ha
    obtain ⟨t, r, e1, m⟩ := hc.2.2 a ((hse.2.1 a hp).mp ha)
    exact ⟨t, by rw [hse.2.2 _ hp]; exact r, e1, (hse.1 _ hp).mpr m⟩

/-- Consistency carries over to a state that differs only at an address whose timer
is in both indices afterwards, and only there. -/
theorem Consistent.of_sameExcept_present {s s' : TimerManager} {p : TimerPtr} {t : Timer}
    (hc : Consistent s) (hwf : WellFormed s') (hse : SameExcept p s s')
    (hpr : Present s' p t)
    (h1 : ∀ e ∈ s'.timers, e.second = p → e = ⟨t.expiration, p⟩)
    (h2 : ∀ a ∈ s'.activeTimers, a.first = p → a = ⟨p, t.sequence⟩) : Consistent s' := by
  apply Consistent.of_corr hwf
  · intro e he
    by_cases hp : e.second = p
    · have := h1 e he hp
      subst this
      exact ⟨t, hpr.1, rfl, hpr.2.2⟩
    · obtain ⟨t', r, e1, m⟩ := hc.2.1 e ((hse.1 e hp).mp he)
      exact ⟨t', by rw [hse.2.2 _ hp]; exact r, e1, (hse.2.1 _ hp).mpr m⟩
  · intro a ha
    by_cases hp : a.first = p
    · have := h2 a ha hp
      subst this
      exact ⟨t, hpr.1, rfl, hpr.2.1⟩
    · obtain ⟨t', r, e1, m⟩ := hc.2.2 a ((hse.2.1 a hp).mp ha)
      exact ⟨t', by rw [hse.2.2 _ hp]; exact r, e1, (hse.1 _ hp).mpr m⟩

theorem cancelInLoop_consistent (timerId : TimerId) (s : TimerManager)
    (hwf : WellFormed s) (hc : Consistent s) : Consistent (cancelInLoop timerId s) := by
  by_cases h : (⟨timerId.timer_, timerId.sequence_⟩ : ActiveTimer) ∈ s.activeTimers
  · exact hc.of_sameExcept_absent (cancelInLoop_wellFormed timerId s hwf)
      (cancelInLoop_sameExcept timerId s) (cancelInLoop_found_absent timerId s hc h)
  · obtain ⟨h1, h2, h3, _⟩ := cancelInLoop_not_found timerId s h
    unfold Consistent
    rw [h1, h2, h3]
    exact hc

end TimerManager

namespace TimerManager

/-! ### getExpired -/

theorem foldl_getExpiredStep (E : List Entry) (st : TimerManager) :
    (E.foldl getExpiredStep st).timers = st.timers ∧
    (E.foldl getExpiredStep st).heap = st.heap ∧
    (E.foldl getExpiredStep st).callingExpiredTimers = st.callingExpiredTimers ∧
    (E.foldl getExpiredStep st).cancelingTimers = st.cancelingTimers ∧
    (E.foldl getExpiredStep st).timerfdLog = st.timerfdLog ∧
    (E.foldl getExpiredStep st).runLog = st.runLog ∧
    (E.foldl getExpiredStep st).numCreated = st.numCreated ∧
    (st.activeTimers.Sorted (· < ·) →
      (E.foldl getExpiredStep st).activeTimers.Sorted (· < ·)) ∧
    (∀ a : ActiveTimer, a ∈ (E.foldl getExpiredStep st).activeTimers ↔
      a ∈ st.activeTimers ∧
        ∀ it ∈ E, a ≠ (⟨it.second, (st.deref it.second).sequence⟩ : ActiveTimer)) := by
  induction E generalizing st with
  | nil => simp
  | cons it E ih =>
    obtain ⟨h1, h2, h3, h4, h5, h6, h7, h8, h9⟩ := ih (getExpiredStep st it)
    rw [List.foldl_cons]
    refine ⟨h1, h2, h3, h4, h5, h6, h7, ?_, ?_⟩
    · intro hs
      exact h8 (StdSet.sorted_erase _ _ hs)
    · intro a
      rw [h9]
      have hd : ∀ q, (getExpiredStep st it).deref q = st.deref q := fun q => rfl
      have hm : a ∈ (getExpiredStep st it).activeTimers ↔
          a ∈ st.activeTimers ∧
            a ≠ (⟨it.second, (st.deref it.second).sequence⟩ : ActiveTimer) :=
        StdSet.mem_erase _ _ _
      rw [hm]
      simp only [hd, List.mem_cons, forall_eq_or_imp]
      tauto

theorem getExpired_fst (now : Timestamp) (s : TimerManager) :
    (getExpired now s).1 = StdSet.beforeLowerBound (⟨now, UINTPTR_MAX⟩ : Entry) s.timers := rfl

theorem getExpired_timers (now : Timestamp) (s : TimerManager) :
    (getExpired now s).2.timers
      = StdSet.fromLowerBound (⟨now, UINTPTR_MAX⟩ : Entry) s.timers :=
  (foldl_getExpiredStep _ _).1

theorem getExpired_heap (now : Timestamp) (s : TimerManager) :
    (getExpired now s).2.heap = s.heap :=
  (foldl_getExpiredStep _ _).2.1

theorem getExpired_calling (now : Timestamp) (s : TimerManager) :
    (getExpired now s).2.callingExpiredTimers = s.callingExpiredTimers :=
  (foldl_getExpiredStep _ _).2.2.1

theorem getExpired_cancelingTimers (now : Timestamp) (s : TimerManager) :
    (getExpired now s).2.cancelingTimers = s.cancelingTimers :=
  (foldl_getExpiredStep _ _).2.2.2.1

theorem getExpired_timerfdLog (now : Timestamp) (s : TimerManager) :
    (getExpired now s).2.timerfdLog = s.timerfdLog :=
  (foldl_getExpiredStep _ _).2.2.2.2.1

theorem getExpired_runLog (now : Timestamp) (s : TimerManager) :
    (getExpired now s).2.runLog = s.runLog :=
  (foldl_getExpiredStep _ _).2.2.2.2.2.1

theorem mem_getExpired_activeTimers (now : Timestamp) (s : TimerManager) (a : ActiveTimer) :
    a ∈ (getExpired now s).2.activeTimers ↔
      a ∈ s.activeTimers ∧ ∀ it ∈ (getExpired now s).1,
        a ≠ (⟨it.second, (s.deref it.second).sequence⟩ : ActiveTimer) :=
  (foldl_getExpiredStep _ _).2.2.2.2.2.2.2.2 a

theorem getExpired_wellFormed (now : Timestamp) (s : TimerManager) (hwf : WellFormed s) :
    WellFormed (getExpired now s).2 := by
  refine ⟨?_, ?_, ?_⟩
  · rw [getExpired_timers]
    exact StdSet.sorted_fromLowerBound _ _ hwf.1
  · exact (foldl_getExpiredStep _ _).2.2.2.2.2.2.2.1 hwf.2.1
  · rw [getExpired_cancelingTimers]
    exact hwf.2.2

/-- The expired entries and the remaining ones are the two parts of `timers_`. -/
theorem getExpired_split (now : Timestamp) (s : TimerManager) :
    (getExpired now s).1 ++ (getExpired now s).2.timers = s.timers := by
  rw [getExpired_fst, getExpired_timers]
  exact StdSet.before_append_from _ _

theorem mem_timers_of_mem_getExpired {now : Timestamp} {s : TimerManager} {e : Entry}
    (h : e ∈ (getExpired now s).1) : e ∈ s.timers := by
  rw [← getExpired_split now s]
  exact List.mem_append_left _ h

theorem mem_timers_of_mem_rest {now : Timestamp} {s : TimerManager} {e : Entry}
    (h : e ∈ (getExpired now s).2.timers) : e ∈ s.timers := by
  rw [← getExpired_split now s]
  exact List.mem_append_right _ h

/-- No address is both among the expired entries and among the remaining ones. -/
theorem getExpired_disjoint (now : Timestamp) (s : TimerManager) (hwf : WellFormed s)
    (hc : Consistent s) {e e' : Entry} (he : e ∈ (getExpired now s).1)
    (he' : e' ∈ (getExpired now s).2.timers) : e.second ≠ e'.second := by
  intro hp
  have hnd : ((getExpired now s).1 ++ (getExpired now s).2.timers).Nodup := by
    rw [getExpired_split]
    exact hwf.1.nodup
  have hdis := (List.nodup_append.mp hnd).2.2
  obtain ⟨t, r, _⟩ := hc.2.1 e (mem_timers_of_mem_getExpired he)
  have h1 := hc.entry_eq (mem_timers_of_mem_getExpired he) r
  have h2 := hc.entry_eq (mem_timers_of_mem_rest he') (hp ▸ r)
  have : e = e' := by rw [h1, h2, hp]
  exact hdis he (this ▸ he')

/-- The expired timers are in neither index after `getExpired`. -/
theorem getExpired_absent (now : Timestamp) (s : TimerManager) (hwf : WellFormed s)
    (hc : Consistent s) {e : Entry} (he : e ∈ (getExpired now s).1) :
    Absent (getExpired now s).2 e.second := by
  refine ⟨fun e' he' hp => getExpired_disjoint now s hwf hc he he' hp.symm,
    fun a ha hp => ?_⟩
  rw [mem_getExpired_activeTimers] at ha
  obtain ⟨t, r, _⟩ := hc.2.1 e (mem_timers_of_mem_getExpired he)
  have h1 := hc.active_eq ha.1 (hp ▸ r)
  apply ha.2 e he
  rw [h1, hp, deref_of_read r]

theorem getExpired_consistent (now : Timestamp) (s : TimerManager) (hwf : WellFormed s)
    (hc : Consistent s) : Consistent (getExpired now s).2 := by
  apply Consistent.of_corr (getExpired_wellFormed now s hwf)
  · intro e he
    obtain ⟨t, r, e1, m⟩ := hc.2.1 e (mem_timers_of_mem_rest he)
    refine ⟨t, by rw [getExpired_heap]; exact r, e1, ?_⟩
    rw [mem_getExpired_activeTimers]
    refine ⟨m, fun it hit heq => ?_⟩
    have hp : e.second = it.second := congrArg ActiveTimer.first heq
    exact getExpired_disjoint now s hwf hc hit he hp.symm
  · intro a ha
    have ha' := (mem_getExpired_activeTimers now s a).mp ha
    obtain ⟨t, r, e1, m⟩ := hc.2.2 a ha'.1
    refine ⟨t, by rw [getExpired_heap]; exact r, e1, ?_⟩
    rw [← getExpired_split now s] at m
    rcases List.mem_append.mp m with m | m
    · exfalso
      apply ha'.2 _ m
      cases a
      simp_all [deref]
    · exact m

end TimerManager

namespace TimerManager

/-! ### Frames -/

theorem SameExcept.sameAt {p q : TimerPtr} {s s' : TimerManager} (h : SameExcept p s s')
    (hq : q ≠ p) : SameAt q s s' :=
  ⟨fun e he => h.1 e (he ▸ hq), fun a ha => h.2.1 a (ha ▸ hq), h.2.2 q hq⟩

theorem SameAt.refl (q : TimerPtr) (s : TimerManager) : SameAt q s s :=
  ⟨fun _ _ => Iff.rfl, fun _ _ => Iff.rfl, rfl⟩

theorem SameAt.trans {q : TimerPtr} {s s1 s2 : TimerManager} (h : SameAt q s s1)
    (h' : SameAt q s1 s2) : SameAt q s s2 :=
  ⟨fun e he => (h'.1 e he).trans (h.1 e he), fun a ha => (h'.2.1 a ha).trans (h.2.1 a ha),
    h'.2.2.trans h.2.2⟩

theorem SameAt.absent {q : TimerPtr} {s s' : TimerManager} (h : SameAt q s s')
    (ha : Absent s q) : Absent s' q :=
  ⟨fun e he hp => ha.1 e ((h.1 e hp).mp he) hp, fun a hm hp => ha.2 a ((h.2.1 a hp).mp hm) hp⟩

theorem SameAt.present {q : TimerPtr} {s s' : TimerManager} {t : Timer} (h : SameAt q s s')
    (hp : Present s q t) : Present s' q t :=
  ⟨h.2.2.trans hp.1, (h.1 _ rfl).mpr hp.2.1, (h.2.1 _ rfl).mpr hp.2.2⟩

theorem sameExcept_write (p : TimerPtr) (t : Timer) (s : TimerManager) :
    SameExcept p s (s.write p t) :=
  ⟨fun _ _ => Iff.rfl, fun _ _ => Iff.rfl, fun _ hq => Heap.read_write_ne _ _ _ _ hq⟩

theorem sameExcept_free (p : TimerPtr) (s : TimerManager) : SameExcept p s (s.free p) :=
  ⟨fun _ _ => Iff.rfl, fun _ _ => Iff.rfl, fun _ hq => Heap.read_free_ne _ _ _ hq⟩

theorem SameExcept.compose {p : TimerPtr} {s s1 s2 : TimerManager} (h : SameExcept p s s1)
    (h' : SameExcept p s1 s2) : SameExcept p s s2 :=
  ⟨fun e he => (h'.1 e he).trans (h.1 e he), fun a ha => (h'.2.1 a ha).trans (h.2.1 a ha),
    fun q hq => (h'.2.2 q hq).trans (h.2.2 q hq)⟩

/-! ### addTimerInLoop and addTimer -/

theorem addTimerInLoop_timers (p : TimerPtr) (s : TimerManager) :
    (addTimerInLoop p s).timers = (insert p s).2.timers := by
  unfold addTimerInLoop
  simp only
  split <;> rfl

theorem addTimerInLoop_activeTimers (p : TimerPtr) (s : TimerManager) :
    (addTimerInLoop p s).activeTimers = (insert p s).2.activeTimers := by
  unfold addTimerInLoop
  simp only
  split <;> rfl

theorem addTimerInLoop_heap (p : TimerPtr) (s : TimerManager) :
    (addTimerInLoop p s).heap = s.heap := by
  unfold addTimerInLoop
  simp only
  split <;> rfl

theorem addTimerInLoop_cancelingTimers (p : TimerPtr) (s : TimerManager) :
    (addTimerInLoop p s).cancelingTimers = s.cancelingTimers := by
  unfold addTimerInLoop
  simp only
  split <;> rfl

theorem addTimerInLoop_calling (p : TimerPtr) (s : TimerManager) :
    (addTimerInLoop p s).callingExpiredTimers = s.callingExpiredTimers := by
  unfold addTimerInLoop
  simp only
  split <;> rfl

theorem addTimerInLoop_runLog (p : TimerPtr) (s : TimerManager) :
    (addTimerInLoop p s).runLog = s.runLog := by
  unfold addTimerInLoop
  simp only
  split <;> rfl

theorem addTimerInLoop_sameExcept (p : TimerPtr) (s : TimerManager) :
    SameExcept p s (addTimerInLoop p s) := by
  have h := insert_sameExcept p s
  unfold SameExcept
  rw [addTimerInLoop_timers, addTimerInLoop_activeTimers, addTimerInLoop_heap]
  exact h

theorem addTimerInLoop_wellFormed (p : TimerPtr) (s : TimerManager) (hwf : WellFormed s) :
    WellFormed (addTimerInLoop p s) := by
  have h := insert_wellFormed p s hwf
  unfold WellFormed
  rw [addTimerInLoop_timers, addTimerInLoop_activeTimers, addTimerInLoop_cancelingTimers]
  exact h

theorem addTimerInLoop_consistent (p : TimerPtr) (s : TimerManager) (t : Timer)
    (hwf : WellFormed s) (hc : Consistent s) (ht : s.heap.read p = some t) :
    Consistent (addTimerInLoop p s) := by
  have h := insert_consistent p s t hwf hc ht
  unfold Consistent
  rw [addTimerInLoop_timers, addTimerInLoop_activeTimers, addTimerInLoop_heap]
  exact h

theorem addTimerInLoop_present (p : TimerPtr) (s : TimerManager) (t : Timer)
    (ht : s.heap.read p = some t) : Present (addTimerInLoop p s) p t := by
  have h := insert_present p s t ht
  unfold Present
  rw [addTimerInLoop_timers, addTimerInLoop_activeTimers, addTimerInLoop_heap]
  exact h

/-- A write at an address that is in neither index keeps the indices consistent. -/
theorem write_consistent (p : TimerPtr) (t : Timer) (s : TimerManager) (hwf : WellFormed s)
    (hc : Consistent s) (hab : Absent s p) : Consistent (s.write p t) :=
  hc.of_sameExcept_absent hwf (sameExcept_write p t s) hab

/-- A delete at an address that is in neither index keeps the indices consistent. -/
theorem free_consistent (p : TimerPtr) (s : TimerManager) (hwf : WellFormed s)
    (hc : Consistent s) (hab : Absent s p) : Consistent (s.free p) :=
  hc.of_sameExcept_absent hwf (sameExcept_free p s) hab

/-! ### The callbacks -/

theorem exec_calling (alloc : Heap → TimerPtr) (s : TimerManager) (act : Action) :
    (exec alloc s act).callingExpiredTimers = s.callingExpiredTimers := by
  cases act with
  | cancel timerId => exact cancelInLoop_calling timerId s
  | addTimer w i => exact addTimerInLoop_calling _ _

theorem exec_runLog (alloc : Heap → TimerPtr) (s : TimerManager) (act : Action) :
    (exec alloc s act).runLog = s.runLog := by
  cases act with
  | cancel timerId => exact cancelInLoop_runLog timerId s
  | addTimer w i => exact addTimerInLoop_runLog _ _

theorem exec_passInv (alloc : Heap → TimerPtr) (hal : AllocFresh alloc) (E : List Entry)
    (H : Heap) (s : TimerManager) (act : Action) (h : PassInv E H s) :
    PassInv E H (exec alloc s act) := by
  obtain ⟨hwf, hc, hE⟩ := h
  cases act with
  | cancel timerId =>
    refine ⟨cancelInLoop_wellFormed timerId s hwf, cancelInLoop_consistent timerId s hwf hc,
      fun it hit => ?_⟩
    obtain ⟨h1, h2, h3⟩ := hE it hit
    by_cases hf : (⟨timerId.timer_, timerId.sequence_⟩ : ActiveTimer) ∈ s.activeTimers
    · have hne : it.second ≠ timerId.timer_ := fun heq => h3.2 _ hf heq.symm
      have hsa := (cancelInLoop_sameExcept timerId s).sameAt hne
      exact ⟨hsa.2.2.trans h1, h2, hsa.absent h3⟩
    · obtain ⟨e1, e2, e3, _⟩ := cancelInLoop_not_found timerId s hf
      refine ⟨?_, h2, ?_⟩
      · show (cancelInLoop timerId s).heap.read it.second = _
        rw [e3]; exact h1
      · show Absent (cancelInLoop timerId s) it.second
        unfold Absent
        rw [e1, e2]; exact h3
  | addTimer w i =>
    have hfresh : s.heap.read (alloc s.heap) = none := hal s.heap
    have hab : Absent s (alloc s.heap) := hc.absent_of_not_live hfresh
    let s1 : TimerManager :=
      ({ s with numCreated := s.numCreated + 1 }).write (alloc s.heap)
        ⟨w, i, s.numCreated + 1⟩
    have hwf1 : WellFormed s1 := hwf
    have hc1 : Consistent s1 :=
      write_consistent (alloc s.heap) _ { s with numCreated := s.numCreated + 1 } hwf hc hab
    have hr1 : s1.heap.read (alloc s.heap) = some ⟨w, i, s.numCreated + 1⟩ :=
      Heap.read_write_same _ _ _
    have hse1 : SameExcept (alloc s.heap) s s1 :=
      sameExcept_write (alloc s.heap) _ { s with numCreated := s.numCreated + 1 }
    have hse : SameExcept (alloc s.heap) s (addTimerInLoop (alloc s.heap) s1) :=
      hse1.compose (addTimerInLoop_sameExcept _ _)
    refine ⟨addTimerInLoop_wellFormed _ _ hwf1, addTimerInLoop_consistent _ _ _ hwf1 hc1 hr1,
      fun it hit => ?_⟩
    obtain ⟨h1, h2, h3⟩ := hE it hit
    have hne : it.second ≠ alloc s.heap := by
      intro heq
      apply h2
      rw [← h1, heq]
      exact hfresh
    have hsa := hse.sameAt hne
    exact ⟨hsa.2.2.trans h1, h2, hsa.absent h3⟩

end TimerManager

namespace TimerManager

/-! ### What the callbacks do to `cancelingTimers_` -/

theorem exec_canceling_mono (alloc : Heap → TimerPtr) (s : TimerManager) (act : Action)
    (a : ActiveTimer) (h : a ∈ s.cancelingTimers) :
    a ∈ (exec alloc s act).cancelingTimers := by
  cases act with
  | cancel timerId =>
    show a ∈ (cancelInLoop timerId s).cancelingTimers
    by_cases hf : (⟨timerId.timer_, timerId.sequence_⟩ : ActiveTimer) ∈ s.activeTimers
    · rw [(cancelInLoop_found timerId s hf).2.2.2]; exact h
    · rw [(cancelInLoop_not_found timerId s hf).2.2.2]
      split
      · exact (StdSet.mem_insert _ _ _).mpr (Or.inr h)
      · exact h
  | addTimer w i =>
    show a ∈ (addTimerInLoop _ _).cancelingTimers
    rw [addTimerInLoop_cancelingTimers]; exact h

theorem exec_canceling_sub (alloc : Heap → TimerPtr) (s : TimerManager) (act : Action)
    (a : ActiveTimer) (h : a ∈ (exec alloc s act).cancelingTimers) :
    a ∈ s.cancelingTimers ∨ act = Action.cancel ⟨a.first, a.second⟩ := by
  cases act with
  | cancel timerId =>
    have h' : a ∈ (cancelInLoop timerId s).cancelingTimers := h
    by_cases hf : (⟨timerId.timer_, timerId.sequence_⟩ : ActiveTimer) ∈ s.activeTimers
    · rw [(cancelInLoop_found timerId s hf).2.2.2] at h'; exact Or.inl h'
    · rw [(cancelInLoop_not_found timerId s hf).2.2.2] at h'
      split at h'
      · rcases (StdSet.mem_insert _ _ _).mp h' with rfl | hm
        · exact Or.inr rfl
        · exact Or.inl hm
      · exact Or.inl h'
  | addTimer w i =>
    have h' : a ∈ (addTimerInLoop _ _).cancelingTimers := h
    rw [addTimerInLoop_cancelingTimers] at h'
    exact Or.inl h'

/-- During a pass, a cancel for a timer that is in neither index is recorded. -/
theorem exec_cancel_recorded (alloc : Heap → TimerPtr) (s : TimerManager) (timerId : TimerId)
    (hcall : s.callingExpiredTimers = true) (hab : Absent s timerId.timer_) :
    (⟨timerId.timer_, timerId.sequence_⟩ : ActiveTimer)
      ∈ (exec alloc s (Action.cancel timerId)).cancelingTimers := by
  show _ ∈ (cancelInLoop timerId s).cancelingTimers
  have hf : (⟨timerId.timer_, timerId.sequence_⟩ : ActiveTimer) ∉ s.activeTimers :=
    fun hm => hab.2 _ hm rfl
  rw [(cancelInLoop_not_found timerId s hf).2.2.2, hcall]
  exact (StdSet.mem_insert _ _ _).mpr (Or.inl rfl)

/-- The actions of one callback, run in order. -/
theorem foldl_exec_spec (alloc : Heap → TimerPtr) (hal : AllocFresh alloc) (E : List Entry)
    (H : Heap) (acts : List Action) (s : TimerManager) (h : PassInv E H s) :
    PassInv E H (acts.foldl (exec alloc) s) ∧
    (acts.foldl (exec alloc) s).callingExpiredTimers = s.callingExpiredTimers ∧
    (acts.foldl (exec alloc) s).runLog = s.runLog ∧
    (∀ a ∈ s.cancelingTimers, a ∈ (acts.foldl (exec alloc) s).cancelingTimers) ∧
    (∀ a ∈ (acts.foldl (exec alloc) s).cancelingTimers,
      a ∈ s.cancelingTimers ∨ Action.cancel ⟨a.first, a.second⟩ ∈ acts) ∧
    (s.callingExpiredTimers = true → ∀ it ∈ E, ∀ sq : Int,
      Action.cancel ⟨it.second, sq⟩ ∈ acts →
      (⟨it.second, sq⟩ : ActiveTimer) ∈ (acts.foldl (exec alloc) s).cancelingTimers) := by
  induction acts generalizing s with
  | nil =>
    refine ⟨h, rfl, rfl, fun a ha => ha, fun a ha => Or.inl ha, ?_⟩
    intro _ it _ sq hm
    simp at hm
  | cons act acts ih =>
    obtain ⟨i1, i2, i3, i4, i5, i6⟩ := ih (exec alloc s act) (exec_passInv alloc hal E H s act h)
    rw [List.foldl_cons]
    refine ⟨i1, i2.trans (exec_calling alloc s act), i3.trans (exec_runLog alloc s act),
      fun a ha => i4 a (exec_canceling_mono alloc s act a ha), fun a ha => ?_, ?_⟩
    · rcases i5 a ha with h1 | h1
      · rcases exec_canceling_sub alloc s act a h1 with h2 | h2
        · exact Or.inl h2
        · exact Or.inr (h2 ▸ List.mem_cons_self _ _)
      · exact Or.inr (List.mem_cons_of_mem _ h1)
    · intro hcall it hit sq hm
      rcases List.mem_cons.mp hm with h1 | h1
      · apply i4
        rw [← h1]
        exact exec_cancel_recorded alloc s ⟨it.second, sq⟩ hcall (h.2.2 it hit).2.2
      · exact i6 ((exec_calling alloc s act).trans hcall) it hit sq h1

/-- The callbacks of the entries `L`, run in order. -/
theorem foldl_run_spec (alloc : Heap → TimerPtr) (hal : AllocFresh alloc)
    (cb : TimerPtr → List Action) (E : List Entry) (H : Heap) (L : List Entry)
    (s : TimerManager) (h : PassInv E H s) :
    PassInv E H (L.foldl (run alloc cb) s) ∧
    (L.foldl (run alloc cb) s).callingExpiredTimers = s.callingExpiredTimers ∧
    (L.foldl (run alloc cb) s).runLog = s.runLog ++ L.map (fun it => it.second) ∧
    (∀ a ∈ s.cancelingTimers, a ∈ (L.foldl (run alloc cb) s).cancelingTimers) ∧
    (∀ a ∈ (L.foldl (run alloc cb) s).cancelingTimers,
      a ∈ s.cancelingTimers ∨ ∃ it ∈ L, Action.cancel ⟨a.first, a.second⟩ ∈ cb it.second) ∧
    (s.callingExpiredTimers = true → ∀ it ∈ E, ∀ sq : Int,
      (∃ it' ∈ L, Action.cancel ⟨it.second, sq⟩ ∈ cb it'.second) →
      (⟨it.second, sq⟩ : ActiveTimer) ∈ (L.foldl (run alloc cb) s).cancelingTimers) := by
  induction L generalizing s with
  | nil =>
    refine ⟨h, rfl, by simp, fun a ha => ha, fun a ha => Or.inl ha, ?_⟩
    rintro _ it _ sq ⟨it', hm, _⟩
    simp at hm
  | cons x L ih =>
    have h0 : PassInv E H { s with runLog := s.runLog ++ [x.second] } := h
    obtain ⟨r1, r2, r3, r4, r5, r6⟩ := foldl_exec_spec alloc hal E H (cb x.second) _ h0
    obtain ⟨i1, i2, i3, i4, i5, i6⟩ := ih (run alloc cb s x) r1
    have hcall : (run alloc cb s x).callingExpiredTimers = s.callingExpiredTimers := r2
    rw [List.foldl_cons]
    refine ⟨i1, i2.trans hcall, ?_, fun a ha => i4 a (r4 a ha), fun a ha => ?_, ?_⟩
    · rw [i3]
      have : (run alloc cb s x).runLog = s.runLog ++ [x.second] := r3
      rw [this]
      simp
    · rcases i5 a ha with h1 | ⟨it, hit, h1⟩
      · rcases r5 a h1 with h2 | h2
        · exact Or.inl h2
        · exact Or.inr ⟨x, List.mem_cons_self _ _, h2⟩
      · exact Or.inr ⟨it, List.mem_cons_of_mem _ hit, h1⟩
    · rintro hc it hit sq ⟨it', hm, hact⟩
      rcases List.mem_cons.mp hm with h1 | h1
      · apply i4
        subst h1
        exact r6 hc it hit sq hact
      · exact i6 (hcall.trans hc) it hit sq ⟨it', h1, hact⟩

end TimerManager

namespace TimerManager

/-! ### reset -/

theorem resetStep_spec (now : Timestamp) (st : TimerManager) (it : Entry) (t : Timer)
    (hwf : WellFormed st) (hc : Consistent st) (hr : st.heap.read it.second = some t)
    (hab : Absent st it.second) :
    WellFormed (resetStep now st it) ∧ Consistent (resetStep now st it) ∧
    SameExcept it.second st (resetStep now st it) ∧
    (resetStep now st it).cancelingTimers = st.cancelingTimers ∧
    (resetStep now st it).timerfdLog = st.timerfdLog ∧
    (resetStep now st it).runLog = st.runLog ∧
    ((t.repeat_ = true ∧ (⟨it.second, t.sequence⟩ : ActiveTimer) ∉ st.cancelingTimers) →
      Present (resetStep now st it) it.second (t.restart now)) ∧
    (¬ (t.repeat_ = true ∧ (⟨it.second, t.sequence⟩ : ActiveTimer) ∉ st.cancelingTimers) →
      Absent (resetStep now st it) it.second ∧
        (resetStep now st it).heap.read it.second = none) := by
  by_cases hcond : t.repeat_ = true ∧ (⟨it.second, t.sequence⟩ : ActiveTimer) ∉ st.cancelingTimers
  · have hstep : resetStep now st it
        = (insert it.second (st.write it.second (t.restart now))).2 := by
      simp [resetStep, deref_of_read hr, hcond.1, hcond.2]
    rw [hstep]
    have hwf1 : WellFormed (st.write it.second (t.restart now)) := hwf
    have hr1 : (st.write it.second (t.restart now)).heap.read it.second
        = some (t.restart now) := Heap.read_write_same _ _ _
    refine ⟨insert_wellFormed _ _ hwf1,
      insert_consistent _ _ _ hwf1 (write_consistent _ _ _ hwf hc hab) hr1,
      (sameExcept_write _ _ _).compose (insert_sameExcept _ _), rfl, rfl, rfl,
      fun _ => insert_present _ _ _ hr1, fun hn => absurd hcond hn⟩
  · have hstep : resetStep now st it = st.free it.second := by
      simp only [resetStep, deref_of_read hr]
      rw [if_neg]
      simp only [Bool.and_eq_true, Bool.not_eq_true', decide_eq_false_iff_not]
      exact hcond
    rw [hstep]
    refine ⟨hwf, free_consistent _ _ hwf hc hab, sameExcept_free _ _, rfl, rfl, rfl,
      fun h => absurd h hcond, fun _ => ⟨hab, Heap.read_free_same _ _⟩⟩

/-- The reschedule loop over distinct timers that are allocated and in neither index. -/
theorem resetLoop_spec (now : Timestamp) (H : Heap) (L : List Entry) (st : TimerManager)
    (hwf : WellFormed st) (hc : Consistent st)
    (hnd : (L.map (fun it => it.second)).Nodup)
    (hL : ∀ it ∈ L, st.heap.read it.second = H.read it.second ∧ H.read it.second ≠ none ∧
      Absent st it.second) :
    WellFormed (resetLoop L now st) ∧ Consistent (resetLoop L now st) ∧
    (resetLoop L now st).cancelingTimers = st.cancelingTimers ∧
    (resetLoop L now st).timerfdLog = st.timerfdLog ∧
    (resetLoop L now st).runLog = st.runLog ∧
    (∀ q, (∀ it ∈ L, it.second ≠ q) → SameAt q st (resetLoop L now st)) ∧
    (∀ it ∈ L, ∀ t, H.read it.second = some t →
      ((t.repeat_ = true ∧ (⟨it.second, t.sequence⟩ : ActiveTimer) ∉ st.cancelingTimers) →
        Present (resetLoop L now st) it.second (t.restart now)) ∧
      (¬ (t.repeat_ = true ∧ (⟨it.second, t.sequence⟩ : ActiveTimer) ∉ st.cancelingTimers) →
        Absent (resetLoop L now st) it.second ∧
          (resetLoop L now st).heap.read it.second = none)) := by
  induction L generalizing st with
  | nil =>
    exact ⟨hwf, hc, rfl, rfl, rfl, fun q _ => SameAt.refl q st, fun it hit => by simp at hit⟩
  | cons x L ih =>
    obtain ⟨hx1, hx2, hx3⟩ := hL x (List.mem_cons_self _ _)
    obtain ⟨tx, htx⟩ : ∃ t, H.read x.second = some t := Option.ne_none_iff_exists'.mp hx2
    have hrx : st.heap.read x.second = some tx := hx1.trans htx
    obtain ⟨s1, s2, s3, s4, s5, s6, s7, s8⟩ := resetStep_spec now st x tx hwf hc hrx hx3
    have hnd' := List.nodup_cons.mp (by simpa using hnd : (x.second :: L.map (fun it => it.second)).Nodup)
    have hne : ∀ it ∈ L, it.second ≠ x.second := by
      intro it hit heq
      exact hnd'.1 (heq ▸ List.mem_map_of_mem (fun it => it.second) hit)
    have hL' : ∀ it ∈ L, (resetStep now st x).heap.read it.second = H.read it.second ∧
        H.read it.second ≠ none ∧ Absent (resetStep now st x) it.second := by
      intro it hit
      obtain ⟨h1, h2, h3⟩ := hL it (List.mem_cons_of_mem _ hit)
      have hsa := s3.sameAt (hne it hit)
      exact ⟨hsa.2.2.trans h1, h2, hsa.absent h3⟩
    obtain ⟨i1, i2, i3, i4, i5, i6, i7⟩ := ih (resetStep now st x) s1 s2 hnd'.2 hL'
    have hloop : resetLoop (x :: L) now st = resetLoop L now (resetStep now st x) := rfl
    rw [hloop]
    refine ⟨i1, i2, i3.trans s4, i4.trans s5, i5.trans s6, fun q hq => ?_, fun it hit t ht => ?_⟩
    · exact (s3.sameAt (hq x (List.mem_cons_self _ _)).symm).trans
        (i6 q (fun it hit => hq it (List.mem_cons_of_mem _ hit)))
    · rcases List.mem_cons.mp hit with rfl | hit'
      · have hsa := i6 it.second hne
        rw [htx] at ht
        cases ht
        exact ⟨fun hcond => hsa.present (s7 hcond),
          fun hcond => ⟨hsa.absent (s8 hcond).1, hsa.2.2.trans (s8 hcond).2⟩⟩
      · have := i7 it hit' t ht
        rw [s4] at this
        exact this

theorem reset_timers (E : List Entry) (now : Timestamp) (s : TimerManager) :
    (reset E now s).timers = (resetLoop E now s).timers := by
  unfold reset
  simp only
  split <;> rfl

theorem reset_activeTimers (E : List Entry) (now : Timestamp) (s : TimerManager) :
    (reset E now s).activeTimers = (resetLoop E now s).activeTimers := by
  unfold reset
  simp only
  split <;> rfl

theorem reset_heap (E : List Entry) (now : Timestamp) (s : TimerManager) :
    (reset E now s).heap = (resetLoop E now s).heap := by
  unfold reset
  simp only
  split <;> rfl

theorem reset_cancelingTimers (E : List Entry) (now : Timestamp) (s : TimerManager) :
    (reset E now s).cancelingTimers = (resetLoop E now s).cancelingTimers := by
  unfold reset
  simp only
  split <;> rfl

theorem reset_runLog (E : List Entry) (now : Timestamp) (s : TimerManager) :
    (reset E now s).runLog = (resetLoop E now s).runLog := by
  unfold reset
  simp only
  split <;> rfl

end TimerManager

namespace TimerManager

/-! ### The firing pass -/

theorem reset_cases (E : List Entry) (now : Timestamp) (s : TimerManager) :
    reset E now s = resetLoop E now s ∨
      ∃ x, reset E now s = resetTimerfd x (resetLoop E now s) := by
  unfold reset
  simp only
  split
  · exact Or.inr ⟨_, rfl⟩
  · exact Or.inl rfl

/-- The expired entries point to distinct timers. -/
theorem getExpired_nodup (now : Timestamp) (s : TimerManager) (hwf : WellFormed s)
    (hc : Consistent s) : ((getExpired now s).1.map (fun it => it.second)).Nodup := by
  have hsub : (getExpired now s).1.Sublist s.timers := by
    rw [getExpired_fst]
    exact List.takeWhile_sublist _
  have hnd : (getExpired now s).1.Nodup := hwf.1.nodup.sublist hsub
  apply hnd.map_on
  intro x hx y hy hxy
  have hx' := hsub.subset hx
  have hy' := hsub.subset hy
  obtain ⟨t, r, _⟩ := hc.2.1 x hx'
  have h1 := hc.entry_eq hx' r
  have h2 := hc.entry_eq hy' (hxy ▸ r)
  rw [h1, h2, hxy]

/-- The state in which the callbacks start satisfies the invariant of the pass. -/
theorem passInv_start (now : Timestamp) (s : TimerManager) (hwf : WellFormed s)
    (hc : Consistent s) :
    PassInv (getExpired now s).1 s.heap
      { (getExpired now s).2 with callingExpiredTimers := true, cancelingTimers := [] } := by
  have hwf' := getExpired_wellFormed now s hwf
  refine ⟨⟨hwf'.1, hwf'.2.1, List.sorted_nil⟩, getExpired_consistent now s hwf hc,
    fun it hit => ⟨?_, ?_, getExpired_absent now s hwf hc hit⟩⟩
  · show (getExpired now s).2.heap.read it.second = _
    rw [getExpired_heap]
  · obtain ⟨t, r, _⟩ := hc.2.1 it (mem_timers_of_mem_getExpired hit)
    rw [r]
    exact Option.some_ne_none t

/-- What a firing pass does, for a well-formed consistent state. -/
theorem handleRead_spec (alloc : Heap → TimerPtr) (hal : AllocFresh alloc)
    (cb : TimerPtr → List Action) (now : Timestamp) (s : TimerManager)
    (hwf : WellFormed s) (hc : Consistent s) :
    WellFormed (handleRead alloc cb now s) ∧ Consistent (handleRead alloc cb now s) ∧
    (handleRead alloc cb now s).runLog
      = s.runLog ++ (getExpired now s).1.map (fun it => it.second) ∧
    (∀ a ∈ (runExpired alloc cb now s).cancelingTimers,
      ∃ it ∈ (getExpired now s).1, Action.cancel ⟨a.first, a.second⟩ ∈ cb it.second) ∧
    (∀ it ∈ (getExpired now s).1, ∀ sq : Int,
      (∃ it' ∈ (getExpired now s).1, Action.cancel ⟨it.second, sq⟩ ∈ cb it'.second) →
      (⟨it.second, sq⟩ : ActiveTimer) ∈ (runExpired alloc cb now s).cancelingTimers) ∧
    (∀ q, (∀ it ∈ (getExpired now s).1, it.second ≠ q) →
      SameAt q (runExpired alloc cb now s) (handleRead alloc cb now s)) ∧
    (∀ it ∈ (getExpired now s).1, ∀ t, s.heap.read it.second = some t →
      ((t.repeat_ = true ∧ (⟨it.second, t.sequence⟩ : ActiveTimer)
          ∉ (runExpired alloc cb now s).cancelingTimers) →
        Present (handleRead alloc cb now s) it.second (t.restart now)) ∧
      (¬ (t.repeat_ = true ∧ (⟨it.second, t.sequence⟩ : ActiveTimer)
          ∉ (runExpired alloc cb now s).cancelingTimers) →
        Absent (handleRead alloc cb now s) it.second ∧
          (handleRead alloc cb now s).heap.read it.second = none)) := by
  obtain ⟨p1, p2, p3, _, p5, p6⟩ := foldl_run_spec alloc hal cb (getExpired now s).1 s.heap
    (getExpired now s).1 _ (passInv_start now s hwf hc)
  have hwf2 : WellFormed (runExpired alloc cb now s) := p1.1
  have hc2 : Consistent (runExpired alloc cb now s) := p1.2.1
  have hE2 : ∀ it ∈ (getExpired now s).1,
      (runExpired alloc cb now s).heap.read it.second = s.heap.read it.second ∧
      s.heap.read it.second ≠ none ∧ Absent (runExpired alloc cb now s) it.second := p1.2.2
  have hlog2 : (runExpired alloc cb now s).runLog
      = s.runLog ++ (getExpired now s).1.map (fun it => it.second) := by
    have : (runExpired alloc cb now s).runLog = _ := p3
    rw [this]
    show (getExpired now s).2.runLog ++ _ = _
    rw [getExpired_runLog]
  obtain ⟨l1, l2, l3, _, l5, l6, l7⟩ := resetLoop_spec now s.heap (getExpired now s).1
    (runExpired alloc cb now s) hwf2 hc2 (getExpired_nodup now s hwf hc) hE2
  have hcanc : ∀ a ∈ (runExpired alloc cb now s).cancelingTimers,
      ∃ it ∈ (getExpired now s).1, Action.cancel ⟨a.first, a.second⟩ ∈ cb it.second := by
    intro a ha
    rcases p5 a ha with h1 | h1
    · simp at h1
    · exact h1
  have hrec : ∀ it ∈ (getExpired now s).1, ∀ sq : Int,
      (∃ it' ∈ (getExpired now s).1, Action.cancel ⟨it.second, sq⟩ ∈ cb it'.second) →
      (⟨it.second, sq⟩ : ActiveTimer) ∈ (runExpired alloc cb now s).cancelingTimers :=
    fun it hit sq h => p6 rfl it hit sq h
  have key : ∀ S : TimerManager,
      (S = resetLoop (getExpired now s).1 now (runExpired alloc cb now s) ∨
        ∃ x, S = resetTimerfd x
          (resetLoop (getExpired now s).1 now (runExpired alloc cb now s))) →
      WellFormed S ∧ Consistent S ∧
      S.runLog = s.runLog ++ (getExpired now s).1.map (fun it => it.second) ∧
      (∀ q, (∀ it ∈ (getExpired now s).1, it.second ≠ q) →
        SameAt q (runExpired alloc cb now s) S) ∧
      (∀ it ∈ (getExpired now s).1, ∀ t, s.heap.read it.second = some t →
        ((t.repeat_ = true ∧ (⟨it.second, t.sequence⟩ : ActiveTimer)
            ∉ (runExpired alloc cb now s).cancelingTimers) →
          Present S it.second (t.restart now)) ∧
        (¬ (t.repeat_ = true ∧ (⟨it.second, t.sequence⟩ : ActiveTimer)
            ∉ (runExpired alloc cb now s).cancelingTimers) →
          Absent S it.second ∧ S.heap.read it.second = none)) := by
    rintro S (rfl | ⟨x, rfl⟩)
    · exact ⟨l1, l2, l5.trans hlog2, l6, l7⟩
    · exact ⟨l1, l2, l5.trans hlog2, l6, l7⟩
  obtain ⟨k1, k2, k3, k4, k5⟩ := key (handleRead alloc cb now s) (reset_cases _ _ _)
  exact ⟨k1, k2, k3, hcanc, hrec, k4, k5⟩

end TimerManager

/-! ## The concrete states are well-formed -/

theorem TimerManager.consistent_of_check (s : TimerManager)
    (h : TimerManager.consistentCheck s = true) : TimerManager.Consistent s := by
  simp only [TimerManager.consistentCheck, Bool.and_eq_true, decide_eq_true_eq,
    List.all_eq_true] at h
  obtain ⟨⟨h1, h2⟩, h3⟩ := h
  refine ⟨h1, fun e he => ?_, fun a ha => ?_⟩
  · have := h2 e he
    unfold TimerManager.entryOk at this
    split at this
    · rename_i t ht
      simp only [Bool.and_eq_true, decide_eq_true_eq] at this
      exact ⟨t, ht, this.1, this.2⟩
    · cases this
  · have := h3 a ha
    unfold TimerManager.activeOk at this
    split at this
    · rename_i t ht
      simp only [Bool.and_eq_true, decide_eq_true_eq] at this
      exact ⟨t, ht, this.1, this.2⟩
    · cases this

theorem bumpAlloc_fresh : AllocFresh bumpAlloc := by
  intro h
  obtain ⟨cells⟩ := h
  have hle : ∀ c ∈ cells, c.1 ≤ (cells.map (fun c => c.1)).foldr max 0 := by
    intro c hc
    induction cells with
    | nil => simp at hc
    | cons d ds ih =>
      simp only [List.map_cons, List.foldr_cons]
      rcases List.mem_cons.mp hc with rfl | hc'
      · exact le_max_left _ _
      · exact le_trans (ih hc') (le_max_right _ _)
  simp only [Heap.read, Option.map_eq_none', List.find?_eq_none, decide_eq_true_eq]
  intro c hc heq
  have hlt : c.1 < bumpAlloc ⟨cells⟩ := Nat.lt_succ_of_le (hle c hc)
  exact absurd heq (Nat.ne_of_lt hlt)

theorem TimerManager.exampleState_wellFormed :
    TimerManager.WellFormed TimerManager.exampleState := by decide

theorem TimerManager.exampleState_consistent :
    TimerManager.Consistent TimerManager.exampleState :=
  TimerManager.consistent_of_check _ (by decide)

/-! ## The claims -/

open TimerManager

/-- In a consistent state a timer is in `timers_` under the key `(t.expiration, t)`
exactly when `(t, t.sequence)` is in `activeTimers_`. -/
theorem TimerManager.Consistent.mem_iff {s : TimerManager} (hc : Consistent s)
    (p : TimerPtr) (t : Timer) (ht : s.heap.read p = some t) :
    (⟨t.expiration, p⟩ : Entry) ∈ s.timers ↔ (⟨p, t.sequence⟩ : ActiveTimer) ∈ s.activeTimers := by
  constructor
  · intro h
    obtain ⟨t', r, _, m⟩ := hc.2.1 _ h
    rw [ht] at r
    cases r
    exact m
  · intro h
    obtain ⟨t', r, _, m⟩ := hc.2.2 _ h
    rw [ht] at r
    cases r
    exact m

/-- C1: index consistency is an invariant of TimerManager. From a state whose sets
are well-formed and whose indices are consistent (same size, every entry of one index
is the key of an allocated timer that is in the other index under its key), the state
is again so after `insert` of an allocated timer that is in neither index, after
`cancelInLoop` of any TimerId, after `getExpired` for any `now`, and after a whole
firing pass `handleRead` whatever the callbacks do. -/
theorem C1_index_consistency (alloc : Heap → TimerPtr) (hal : AllocFresh alloc)
    (s : TimerManager) (hwf : WellFormed s) (hc : Consistent s) :
    (∀ p t, s.heap.read p = some t → Absent s p →
      WellFormed (TimerManager.insert p s).2 ∧ Consistent (TimerManager.insert p s).2) ∧
    (∀ timerId, WellFormed (cancelInLoop timerId s) ∧ Consistent (cancelInLoop timerId s)) ∧
    (∀ now, WellFormed (getExpired now s).2 ∧ Consistent (getExpired now s).2) ∧
    (∀ cb now, WellFormed (handleRead alloc cb now s) ∧
      Consistent (handleRead alloc cb now s)) := by
  refine ⟨fun p t ht _ => ⟨insert_wellFormed p s hwf, insert_consistent p s t hwf hc ht⟩,
    fun timerId => ⟨cancelInLoop_wellFormed timerId s hwf,
      cancelInLoop_consistent timerId s hwf hc⟩,
    fun now => ⟨getExpired_wellFormed now s hwf, getExpired_consistent now s hwf hc⟩,
    fun cb now => ?_⟩
  have h := handleRead_spec alloc hal cb now s hwf hc
  exact ⟨h.1, h.2.1⟩

/-- C1 at the example state: inserting the pending timer, cancelling timer 3, the
sweep at 1000, and a pass at 1000 in which timer 2 cancels itself. -/
theorem C1_index_consistency_witness :
    AllocFresh bumpAlloc ∧ WellFormed exampleState ∧ Consistent exampleState ∧
    exampleState.heap.read 4 = some ⟨900, 0, 4⟩ ∧ Absent exampleState 4 ∧
    Consistent (TimerManager.insert 4 exampleState).2 ∧
    Consistent (cancelInLoop ⟨3, 3⟩ exampleState) ∧
    Consistent (getExpired 1000 exampleState).2 ∧
    Consistent (handleRead bumpAlloc selfCancelCallbacks 1000 exampleState) :=
  have h := C1_index_consistency bumpAlloc bumpAlloc_fresh exampleState
    exampleState_wellFormed exampleState_consistent
  ⟨bumpAlloc_fresh, exampleState_wellFormed, exampleState_consistent, by decide, by decide,
    (h.1 4 ⟨900, 0, 4⟩ (by decide) (by decide)).2, (h.2.1 ⟨3, 3⟩).2, (h.2.2.1 1000).2,
    (h.2.2.2 selfCancelCallbacks 1000).2⟩

/-- C2: for a well-formed consistent state whose timer addresses are valid and every
`now`, `getExpired(now)` returns exactly the entries of `timers_` with expiration
`<= now`; afterwards none of the returned timers is in either index, `timers_` holds
exactly the entries that were not returned, `activeTimers_` holds exactly the entries
of the timers that were not returned, and no Timer object has changed. -/
theorem C2_getExpired_exact (now : Timestamp) (s : TimerManager) (hwf : WellFormed s)
    (hc : Consistent s) (hv : ValidPtrs s) :
    (∀ e, e ∈ (getExpired now s).1 ↔ e ∈ s.timers ∧ e.first ≤ now) ∧
    (∀ e ∈ (getExpired now s).1, Absent (getExpired now s).2 e.second) ∧
    (∀ e, e ∈ (getExpired now s).2.timers ↔ e ∈ s.timers ∧ e ∉ (getExpired now s).1) ∧
    (∀ a, a ∈ (getExpired now s).2.activeTimers ↔
      a ∈ s.activeTimers ∧ ∀ it ∈ (getExpired now s).1, a.first ≠ it.second) ∧
    (getExpired now s).2.heap = s.heap := by
  have hlt : ∀ e ∈ s.timers, (e < (⟨now, UINTPTR_MAX⟩ : Entry) ↔ e.first ≤ now) := by
    intro e he
    rw [Entry.lt_iff]
    have := hv e he
    constructor
    · rintro (h | h)
      · exact le_of_lt h
      · exact le_of_eq h.1
    · intro h
      rcases lt_or_eq_of_le h with h1 | h1
      · exact Or.inl h1
      · exact Or.inr ⟨h1, this⟩
  have hexp : ∀ e, e ∈ (getExpired now s).1 ↔ e ∈ s.timers ∧ e.first ≤ now := by
    intro e
    rw [getExpired_fst, StdSet.mem_beforeLowerBound _ _ _ hwf.1]
    constructor
    · rintro ⟨h1, h2⟩
      exact ⟨h1, (hlt e h1).mp h2⟩
    · rintro ⟨h1, h2⟩
      exact ⟨h1, (hlt e h1).mpr h2⟩
  refine ⟨hexp, fun e he => getExpired_absent now s hwf hc he, fun e => ?_, fun a => ?_,
    getExpired_heap now s⟩
  · rw [getExpired_timers, StdSet.mem_fromLowerBound _ _ _ hwf.1, getExpired_fst,
      StdSet.mem_beforeLowerBound _ _ _ hwf.1]
    tauto
  · rw [mem_getExpired_activeTimers]
    constructor
    · rintro ⟨h1, h2⟩
      refine ⟨h1, fun it hit heq => ?_⟩
      obtain ⟨t, r, _⟩ := hc.2.1 it (mem_timers_of_mem_getExpired hit)
      apply h2 it hit
      rw [hc.active_eq h1 (heq ▸ r), heq, deref_of_read r]
    · rintro ⟨h1, h2⟩
      exact ⟨h1, fun it hit heq => h2 it hit (congrArg ActiveTimer.first heq)⟩

/-- C2 at the example state, swept at 700: the timers due at 500 and at 700 are
returned, the one due at 2000 stays. -/
theorem C2_getExpired_exact_witness :
    WellFormed exampleState ∧ Consistent exampleState ∧ ValidPtrs exampleState ∧
    ((⟨700, 2⟩ : Entry) ∈ (getExpired 700 exampleState).1 ↔
      (⟨700, 2⟩ : Entry) ∈ exampleState.timers ∧ (700 : Timestamp) ≤ 700) ∧
    (getExpired 700 exampleState).1 = [⟨500, 1⟩, ⟨700, 2⟩] ∧
    (getExpired 700 exampleState).2.timers = [⟨2000, 3⟩] ∧
    (getExpired 700 exampleState).2.activeTimers = [⟨3, 3⟩] :=
  ⟨exampleState_wellFormed, exampleState_consistent, by decide,
    (C2_getExpired_exact 700 exampleState exampleState_wellFormed exampleState_consistent
      (by decide)).1 ⟨700, 2⟩,
    by decide, by decide, by decide⟩

/-- C3: self-cancellation. If a timer, repeating or not, is among the expired entries
of a firing pass and its own callback issues `cancel` with its own TimerId, then after
the pass the timer has not been rescheduled: it is in neither `timers_` nor
`activeTimers_`, and it has been deleted. -/
theorem C3_self_cancel_not_rescheduled (alloc : Heap → TimerPtr) (hal : AllocFresh alloc)
    (cb : TimerPtr → List Action) (now : Timestamp) (s : TimerManager)
    (hwf : WellFormed s) (hc : Consistent s) (it : Entry) (t : Timer)
    (hit : it ∈ (getExpired now s).1) (ht : s.heap.read it.second = some t)
    (hself : Action.cancel ⟨it.second, t.sequence⟩ ∈ cb it.second) :
    Absent (handleRead alloc cb now s) it.second ∧
      (handleRead alloc cb now s).heap.read it.second = none := by
  obtain ⟨_, _, _, _, hrec, _, hfin⟩ := handleRead_spec alloc hal cb now s hwf hc
  have hm := hrec it hit t.sequence ⟨it, hit, hself⟩
  exact (hfin it hit t ht).2 (fun hcond => hcond.2 hm)

/-- C3 at the example state: timer 2 (repeating, due at 700) cancels itself in the
pass at 1000. -/
theorem C3_self_cancel_not_rescheduled_witness :
    AllocFresh bumpAlloc ∧ WellFormed exampleState ∧ Consistent exampleState ∧
    (⟨700, 2⟩ : Entry) ∈ (getExpired 1000 exampleState).1 ∧
    exampleState.heap.read 2 = some ⟨700, 250, 2⟩ ∧
    (⟨700, 250, 2⟩ : Timer).repeat_ = true ∧
    Action.cancel ⟨2, 2⟩ ∈ selfCancelCallbacks 2 ∧
    Absent (handleRead bumpAlloc selfCancelCallbacks 1000 exampleState) 2 ∧
    (handleRead bumpAlloc selfCancelCallbacks 1000 exampleState).heap.read 2 = none :=
  ⟨bumpAlloc_fresh, exampleState_wellFormed, exampleState_consistent, by decide, by decide,
    by decide, by decide,
    C3_self_cancel_not_rescheduled bumpAlloc bumpAlloc_fresh selfCancelCallbacks 1000
      exampleState exampleState_wellFormed exampleState_consistent ⟨700, 2⟩ ⟨700, 250, 2⟩
      (by decide) (by decide) (by decide)⟩

/-- C4: a repeating timer with interval `i` that is among the expired entries of a
pass at time `now`. If no callback of the pass issues a cancel for its TimerId, then
after the pass it is in `timers_` under `(now + i, t)` and in `activeTimers_`, its
expiration is `now + i`, and it has no other entry in `timers_`; if some callback of
the pass issues a cancel for its TimerId, it is in neither index afterwards. -/
theorem C4_repeating_rescheduled (alloc : Heap → TimerPtr) (hal : AllocFresh alloc)
    (cb : TimerPtr → List Action) (now : Timestamp) (s : TimerManager)
    (hwf : WellFormed s) (hc : Consistent s) (it : Entry) (t : Timer)
    (hit : it ∈ (getExpired now s).1) (ht : s.heap.read it.second = some t)
    (hrep : t.repeat_ = true) :
    ((∀ it' ∈ (getExpired now s).1,
        Action.cancel ⟨it.second, t.sequence⟩ ∉ cb it'.second) →
      (⟨now + t.interval, it.second⟩ : Entry) ∈ (handleRead alloc cb now s).timers ∧
      (⟨it.second, t.sequence⟩ : ActiveTimer) ∈ (handleRead alloc cb now s).activeTimers ∧
      (handleRead alloc cb now s).heap.read it.second
        = some ⟨now + t.interval, t.interval, t.sequence⟩ ∧
      (∀ e ∈ (handleRead alloc cb now s).timers,
        e.second = it.second → e.first = now + t.interval)) ∧
    ((∃ it' ∈ (getExpired now s).1,
        Action.cancel ⟨it.second, t.sequence⟩ ∈ cb it'.second) →
      Absent (handleRead alloc cb now s) it.second) := by
  obtain ⟨_, hc', _, hcanc, hrec, _, hfin⟩ := handleRead_spec alloc hal cb now s hwf hc
  constructor
  · intro hno
    have hnm : (⟨it.second, t.sequence⟩ : ActiveTimer)
        ∉ (runExpired alloc cb now s).cancelingTimers := by
      intro hm
      obtain ⟨it', hit', hact⟩ := hcanc _ hm
      exact hno it' hit' hact
    have hp := (hfin it hit t ht).1 ⟨hrep, hnm⟩
    refine ⟨hp.2.1, hp.2.2, hp.1, fun e he hes => ?_⟩
    have := hc'.entry_eq he (hes ▸ hp.1)
    rw [this]
    rfl
  · intro hex
    have hm := hrec it hit t.sequence hex
    exact ((hfin it hit t ht).2 (fun hcond => hcond.2 hm)).1

/-- C4 at the example state: timer 2 (interval 250, due at 700) fires in the pass at
1000 with callbacks that cancel nothing, and is rescheduled for 1250, not 950. -/
theorem C4_repeating_rescheduled_witness :
    AllocFresh bumpAlloc ∧ WellFormed exampleState ∧ Consistent exampleState ∧
    (⟨700, 2⟩ : Entry) ∈ (getExpired 1000 exampleState).1 ∧
    exampleState.heap.read 2 = some ⟨700, 250, 2⟩ ∧
    (⟨700, 250, 2⟩ : Timer).repeat_ = true ∧
    (∀ it' ∈ (getExpired 1000 exampleState).1,
      Action.cancel ⟨2, 2⟩ ∉ quietCallbacks it'.second) ∧
    (⟨1250, 2⟩ : Entry) ∈ (handleRead bumpAlloc quietCallbacks 1000 exampleState).timers ∧
    (⟨2, 2⟩ : ActiveTimer)
      ∈ (handleRead bumpAlloc quietCallbacks 1000 exampleState).activeTimers :=
  have h := (C4_repeating_rescheduled bumpAlloc bumpAlloc_fresh quietCallbacks 1000
    exampleState exampleState_wellFormed exampleState_consistent ⟨700, 2⟩ ⟨700, 250, 2⟩
    (by decide) (by decide) (by decide)).1 (by decide)
  ⟨bumpAlloc_fresh, exampleState_wellFormed, exampleState_consistent, by decide, by decide,
    by decide, by decide, h.1, h.2.1⟩

/-- An assert of a condition that cannot make `assertOk` false leaves the state as it is. -/
theorem TimerManager.check_eq_self (s : TimerManager) (c : Bool)
    (h : (s.assertOk && c) = s.assertOk) : s.check c = s := by
  cases s
  simp only [check] at h ⊢
  rw [h]

/-- The state after `cancelInLoop` has passed the size assert at its end. -/
theorem TimerManager.cancelInLoop_assertOk (timerId : TimerId) (s : TimerManager) :
    ((cancelInLoop timerId s).assertOk && (cancelInLoop timerId s).sizesAgree)
      = (cancelInLoop timerId s).assertOk := by
  unfold cancelInLoop
  simp only
  generalize (if (⟨timerId.timer_, timerId.sequence_⟩ : ActiveTimer)
      ∈ (s.check s.sizesAgree).activeTimers then _ else _) = s1
  show ((s1.assertOk && s1.sizesAgree) && s1.sizesAgree) = (s1.assertOk && s1.sizesAgree)
  cases s1.assertOk <;> cases s1.sizesAgree <;> rfl

/-- After `cancelInLoop`, the TimerId is not in `activeTimers_`. -/
theorem TimerManager.not_mem_after_cancelInLoop (timerId : TimerId) (s : TimerManager) :
    (⟨timerId.timer_, timerId.sequence_⟩ : ActiveTimer)
      ∉ (cancelInLoop timerId s).activeTimers := by
  by_cases h : (⟨timerId.timer_, timerId.sequence_⟩ : ActiveTimer) ∈ s.activeTimers
  · rw [(cancelInLoop_found timerId s h).2.1, StdSet.mem_erase]
    exact fun hm => hm.2 rfl
  · rw [(cancelInLoop_not_found timerId s h).2.1]
    exact h

/-- A cancel that finds nothing, outside a pass, in a state that passes the size
assert, changes nothing at all. -/
theorem TimerManager.cancelInLoop_eq_self (timerId : TimerId) (s : TimerManager)
    (h : (⟨timerId.timer_, timerId.sequence_⟩ : ActiveTimer) ∉ s.activeTimers)
    (hcall : s.callingExpiredTimers = false)
    (hok : (s.assertOk && s.sizesAgree) = s.assertOk) : cancelInLoop timerId s = s := by
  have h0 : s.check s.sizesAgree = s := check_eq_self s _ hok
  unfold cancelInLoop
  simp only [h0, h, hcall, if_false, Bool.false_eq_true]

/-- C5: a one-shot timer (interval 0) due at `T` that is in both indices when a firing
pass runs at `now >= T`: the pass calls `run()` on the expired timers, this one among
them exactly once; after the pass the timer is in neither index (and deleted); and a
later pass on the resulting state, whatever its time and callbacks, does not call
`run()` on it. -/
theorem C5_one_shot_fires_once (alloc : Heap → TimerPtr) (hal : AllocFresh alloc)
    (cb : TimerPtr → List Action) (now : Timestamp) (s : TimerManager)
    (hwf : WellFormed s) (hc : Consistent s) (p : TimerPtr) (t : Timer)
    (hp : Present s p t) (hv : p < UINTPTR_MAX) (hint : t.interval = 0)
    (hdue : t.expiration ≤ now) :
    (∃ ran, (handleRead alloc cb now s).runLog = s.runLog ++ ran ∧ ran.count p = 1) ∧
    Absent (handleRead alloc cb now s) p ∧
    (handleRead alloc cb now s).heap.read p = none ∧
    (∀ cb' now', ∃ ran,
      (handleRead alloc cb' now' (handleRead alloc cb now s)).runLog
        = (handleRead alloc cb now s).runLog ++ ran ∧ p ∉ ran) := by
  obtain ⟨hwf', hc', hlog, _, _, _, hfin⟩ := handleRead_spec alloc hal cb now s hwf hc
  have hmem : (⟨t.expiration, p⟩ : Entry) ∈ (getExpired now s).1 := by
    rw [getExpired_fst, StdSet.mem_beforeLowerBound _ _ _ hwf.1, Entry.lt_iff]
    refine ⟨hp.2.1, ?_⟩
    rcases lt_or_eq_of_le hdue with h | h
    · exact Or.inl h
    · exact Or.inr ⟨h, hv⟩
  have hnot : ¬ (t.repeat_ = true ∧ (⟨p, t.sequence⟩ : ActiveTimer)
      ∉ (runExpired alloc cb now s).cancelingTimers) := by
    rintro ⟨h, _⟩
    simp [Timer.repeat_, hint] at h
  have habs := (hfin _ hmem t hp.1).2 hnot
  refine ⟨⟨_, hlog, ?_⟩, habs.1, habs.2, fun cb' now' => ?_⟩
  · exact List.count_eq_one_of_mem (getExpired_nodup now s hwf hc)
      (List.mem_map_of_mem (fun it => it.second) hmem)
  · obtain ⟨_, _, hlog', _⟩ := handleRead_spec alloc hal cb' now' _ hwf' hc'
    refine ⟨_, hlog', fun hm => ?_⟩
    obtain ⟨it, hit, hip⟩ := List.mem_map.mp hm
    exact habs.1.1 it (mem_timers_of_mem_getExpired hit) hip

/-- C5 at the example state: timer 1 (one-shot, due at 500) in the pass at 1000. -/
theorem C5_one_shot_fires_once_witness :
    AllocFresh bumpAlloc ∧ WellFormed exampleState ∧ Consistent exampleState ∧
    Present exampleState 1 ⟨500, 0, 1⟩ ∧ 1 < UINTPTR_MAX ∧
    (⟨500, 0, 1⟩ : Timer).interval = 0 ∧ (⟨500, 0, 1⟩ : Timer).expiration ≤ 1000 ∧
    (handleRead bumpAlloc quietCallbacks 1000 exampleState).runLog = [1, 2] ∧
    Absent (handleRead bumpAlloc quietCallbacks 1000 exampleState) 1 :=
  ⟨bumpAlloc_fresh, exampleState_wellFormed, exampleState_consistent, by decide, by decide,
    by decide, by decide, by decide,
    (C5_one_shot_fires_once bumpAlloc bumpAlloc_fresh quietCallbacks 1000 exampleState
      exampleState_wellFormed exampleState_consistent 1 ⟨500, 0, 1⟩ (by decide) (by decide)
      (by decide) (by decide)).2.1⟩

/-- C6: in a well-formed consistent state, `cancelInLoop` of a TimerId that is in
`activeTimers_` removes exactly that timer from both indices: afterwards it is in
neither index (and deleted), each index has one element fewer, and the entries and the
Timer objects of all other timers are as before. -/
theorem C6_cancel_removes_exactly (timerId : TimerId) (s : TimerManager)
    (hwf : WellFormed s) (hc : Consistent s)
    (h : (⟨timerId.timer_, timerId.sequence_⟩ : ActiveTimer) ∈ s.activeTimers) :
    Absent (cancelInLoop timerId s) timerId.timer_ ∧
    (cancelInLoop timerId s).heap.read timerId.timer_ = none ∧
    (cancelInLoop timerId s).timers.length + 1 = s.timers.length ∧
    (cancelInLoop timerId s).activeTimers.length + 1 = s.activeTimers.length ∧
    (∀ e : Entry, e.second ≠ timerId.timer_ →
      (e ∈ (cancelInLoop timerId s).timers ↔ e ∈ s.timers)) ∧
    (∀ a : ActiveTimer, a.first ≠ timerId.timer_ →
      (a ∈ (cancelInLoop timerId s).activeTimers ↔ a ∈ s.activeTimers)) ∧
    (∀ q, q ≠ timerId.timer_ →
      (cancelInLoop timerId s).heap.read q = s.heap.read q) := by
  obtain ⟨h1, h2, h3, _⟩ := cancelInLoop_found timerId s h
  obtain ⟨t, r, _, m⟩ := hc.2.2 _ h
  simp only at r m
  refine ⟨cancelInLoop_found_absent timerId s hc h, ?_, ?_, ?_, cancelInLoop_sameExcept timerId s⟩
  · rw [h3]
    exact Heap.read_free_same _ _
  · rw [h1, deref_of_read r]
    exact StdSet.length_erase _ _ hwf.1 m
  · rw [h2]
    exact StdSet.length_erase _ _ hwf.2.1 h

/-- C6 at the example state: cancelling timer 3 leaves timers 1 and 2. -/
theorem C6_cancel_removes_exactly_witness :
    WellFormed exampleState ∧ Consistent exampleState ∧
    (⟨3, 3⟩ : ActiveTimer) ∈ exampleState.activeTimers ∧
    Absent (cancelInLoop ⟨3, 3⟩ exampleState) 3 ∧
    (cancelInLoop ⟨3, 3⟩ exampleState).timers = [⟨500, 1⟩, ⟨700, 2⟩] ∧
    (cancelInLoop ⟨3, 3⟩ exampleState).activeTimers = [⟨1, 1⟩, ⟨2, 2⟩] :=
  ⟨exampleState_wellFormed, exampleState_consistent, by decide,
    (C6_cancel_removes_exactly ⟨3, 3⟩ exampleState exampleState_wellFormed
      exampleState_consistent (by decide)).1,
    by decide, by decide⟩

/-- C7: cancelling a TimerId that is not in `activeTimers_` is a no-op: `timers_`,
`activeTimers_` and the Timer objects are unchanged; no assert trips when the two
indices have the same size on entry; outside a firing pass `cancelingTimers_` is
unchanged too, and then nothing at all changes. In particular the second of two
consecutive cancels of one TimerId finds nothing: it leaves `timers_`, `activeTimers_`,
the Timer objects and the assert record as the first cancel left them, and outside a
firing pass it leaves the whole state as it was. -/
theorem C7_cancel_unknown_is_noop (timerId : TimerId) (s : TimerManager) :
    ((⟨timerId.timer_, timerId.sequence_⟩ : ActiveTimer) ∉ s.activeTimers →
      (cancelInLoop timerId s).timers = s.timers ∧
      (cancelInLoop timerId s).activeTimers = s.activeTimers ∧
      (cancelInLoop timerId s).heap = s.heap ∧
      (s.timers.length = s.activeTimers.length →
        (cancelInLoop timerId s).assertOk = s.assertOk) ∧
      (s.callingExpiredTimers = false →
        (cancelInLoop timerId s).cancelingTimers = s.cancelingTimers) ∧
      (s.callingExpiredTimers = false → s.timers.length = s.activeTimers.length →
        cancelInLoop timerId s = s)) ∧
    ((cancelInLoop timerId (cancelInLoop timerId s)).timers
        = (cancelInLoop timerId s).timers ∧
      (cancelInLoop timerId (cancelInLoop timerId s)).activeTimers
        = (cancelInLoop timerId s).activeTimers ∧
      (cancelInLoop timerId (cancelInLoop timerId s)).heap = (cancelInLoop timerId s).heap ∧
      (cancelInLoop timerId (cancelInLoop timerId s)).assertOk
        = (cancelInLoop timerId s).assertOk ∧
      (s.callingExpiredTimers = false →
        cancelInLoop timerId (cancelInLoop timerId s) = cancelInLoop timerId s)) := by
  have hsz : ∀ S : TimerManager, S.timers.length = S.activeTimers.length →
      (S.assertOk && S.sizesAgree) = S.assertOk := by
    intro S hS
    simp [sizesAgree, hS]
  have hass : ∀ S : TimerManager,
      (⟨timerId.timer_, timerId.sequence_⟩ : ActiveTimer) ∉ S.activeTimers →
      (S.assertOk && S.sizesAgree) = S.assertOk →
      (cancelInLoop timerId S).assertOk = S.assertOk := by
    intro S hS hok
    have h0 : S.check S.sizesAgree = S := check_eq_self S _ hok
    unfold cancelInLoop
    simp only [h0, hS, if_false]
    split
    · exact hok
    · exact hok
  constructor
  · intro h
    obtain ⟨h1, h2, h3, h4⟩ := cancelInLoop_not_found timerId s h
    refine ⟨h1, h2, h3, fun hs => hass s h (hsz s hs), fun hcall => ?_, fun hcall hs =>
      cancelInLoop_eq_self timerId s h hcall (hsz s hs)⟩
    rw [h4, hcall]
    rfl
  · have hn := not_mem_after_cancelInLoop timerId s
    obtain ⟨h1, h2, h3, _⟩ := cancelInLoop_not_found timerId _ hn
    refine ⟨h1, h2, h3, hass _ hn (cancelInLoop_assertOk timerId s), fun hcall => ?_⟩
    exact cancelInLoop_eq_self timerId _ hn
      ((cancelInLoop_calling timerId s).trans hcall) (cancelInLoop_assertOk timerId s)

/-- C7 at the example state: a handle of timer 3 with another sequence number is not
in `activeTimers_` and cancelling it changes nothing; cancelling timer 3 twice, the
second cancel changes nothing. -/
theorem C7_cancel_unknown_is_noop_witness :
    (⟨3, 7⟩ : ActiveTimer) ∉ exampleState.activeTimers ∧
    exampleState.callingExpiredTimers = false ∧
    exampleState.timers.length = exampleState.activeTimers.length ∧
    cancelInLoop ⟨3, 7⟩ exampleState = exampleState ∧
    cancelInLoop ⟨3, 3⟩ (cancelInLoop ⟨3, 3⟩ exampleState)
      = cancelInLoop ⟨3, 3⟩ exampleState :=
  ⟨by decide, by decide, by decide,
    ((C7_cancel_unknown_is_noop ⟨3, 7⟩ exampleState).1 (by decide)).2.2.2.2.2
      (by decide) (by decide),
    (C7_cancel_unknown_is_noop ⟨3, 3⟩ exampleState).2.2.2.2.2 (by decide)⟩

/-- The first entry of a `std::set` of entries has the earliest expiration. -/
theorem TimerManager.head_earliest {l : List Entry} (h : l.Sorted (· < ·)) {e : Entry}
    {rest : List Entry} (hl : l = e :: rest) : ∀ e' ∈ l, e.first ≤ e'.first := by
  subst hl
  intro e' he'
  rcases List.mem_cons.mp he' with rfl | hm
  · exact le_refl _
  · have := (List.sorted_cons.mp h).1 e' hm
    rw [Entry.lt_iff] at this
    rcases this with h1 | h1
    · exact le_of_lt h1
    · exact le_of_eq h1.1

/-- The state after the callbacks of a pass satisfies the invariant of the pass. -/
theorem TimerManager.runExpired_passInv (alloc : Heap → TimerPtr) (hal : AllocFresh alloc)
    (cb : TimerPtr → List Action) (now : Timestamp) (s : TimerManager)
    (hwf : WellFormed s) (hc : Consistent s) :
    PassInv (getExpired now s).1 s.heap (runExpired alloc cb now s) :=
  (foldl_run_spec alloc hal cb (getExpired now s).1 s.heap (getExpired now s).1 _
    (passInv_start now s hwf hc)).1

/-- C8: the sequence number tells a live timer from a stale handle with the same
address. For a timer `t` at `p` and a TimerId `(p, sq)` with `sq` other than
`t.sequence`: if `t` is in both indices, `cancelInLoop (p, sq)` leaves both indices as
they are, with `t` in them; the cancel never records `(p, t.sequence)` in
`cancelingTimers_`; and if `t` is repeating and expires in a pass during which no
cancel is issued with `(p, t.sequence)` itself (so every cancel issued for the address
`p` carries another sequence number), `reset` reschedules `t`: after the pass it is in
both indices, due at `now + interval`. -/
theorem C8_stale_sequence_does_not_cancel (alloc : Heap → TimerPtr) (hal : AllocFresh alloc)
    (s : TimerManager) (hwf : WellFormed s) (hc : Consistent s) (p : TimerPtr) (t : Timer)
    (sq : Int) (hsq : sq ≠ t.sequence) :
    (Present s p t →
      Present (cancelInLoop ⟨p, sq⟩ s) p t ∧
      (cancelInLoop ⟨p, sq⟩ s).timers = s.timers ∧
      (cancelInLoop ⟨p, sq⟩ s).activeTimers = s.activeTimers) ∧
    ((⟨p, t.sequence⟩ : ActiveTimer) ∈ (cancelInLoop ⟨p, sq⟩ s).cancelingTimers ↔
      (⟨p, t.sequence⟩ : ActiveTimer) ∈ s.cancelingTimers) ∧
    (∀ cb now, (⟨t.expiration, p⟩ : Entry) ∈ (getExpired now s).1 →
      s.heap.read p = some t → t.repeat_ = true →
      (∀ it' ∈ (getExpired now s).1, Action.cancel ⟨p, t.sequence⟩ ∉ cb it'.second) →
      Present (handleRead alloc cb now s) p (t.restart now)) := by
  refine ⟨fun hp => ?_, ?_, fun cb now hit ht hrep hstale => ?_⟩
  · have hnf : (⟨p, sq⟩ : ActiveTimer) ∉ s.activeTimers := by
      intro hm
      have := hc.active_eq hm hp.1
      simp only [ActiveTimer.mk.injEq, true_and] at this
      exact hsq this
    obtain ⟨h1, h2, h3, _⟩ := cancelInLoop_not_found ⟨p, sq⟩ s hnf
    refine ⟨⟨?_, ?_, ?_⟩, h1, h2⟩
    · rw [h3]; exact hp.1
    · rw [h1]; exact hp.2.1
    · rw [h2]; exact hp.2.2
  · by_cases hf : (⟨p, sq⟩ : ActiveTimer) ∈ s.activeTimers
    · rw [(cancelInLoop_found ⟨p, sq⟩ s hf).2.2.2]
    · rw [(cancelInLoop_not_found ⟨p, sq⟩ s hf).2.2.2]
      split
      · rw [StdSet.mem_insert]
        constructor
        · rintro (h | h)
          · simp only [ActiveTimer.mk.injEq, true_and] at h
            exact absurd h.symm hsq
          · exact h
        · exact Or.inr
      · exact Iff.rfl
  · obtain ⟨_, _, _, hcanc, _, _, hfin⟩ := handleRead_spec alloc hal cb now s hwf hc
    have hnm : (⟨p, t.sequence⟩ : ActiveTimer)
        ∉ (runExpired alloc cb now s).cancelingTimers := by
      intro hm
      obtain ⟨it', hit', hact⟩ := hcanc _ hm
      exact hstale it' hit' hact
    exact (hfin _ hit t ht).1 ⟨hrep, hnm⟩

/-- C8 at the example state: a handle of timer 2 with the sequence number 1 does not
cancel it, and issued by the callback of timer 1 in the pass at 1000 it does not stop
timer 2 from being rescheduled for 1250. -/
theorem C8_stale_sequence_does_not_cancel_witness :
    AllocFresh bumpAlloc ∧ WellFormed exampleState ∧ Consistent exampleState ∧
    (1 : Int) ≠ (⟨700, 250, 2⟩ : Timer).sequence ∧
    Present exampleState 2 ⟨700, 250, 2⟩ ∧
    Present (cancelInLoop ⟨2, 1⟩ exampleState) 2 ⟨700, 250, 2⟩ ∧
    Action.cancel ⟨2, 1⟩ ∈ staleCancelCallbacks 1 ∧
    Present (handleRead bumpAlloc staleCancelCallbacks 1000 exampleState) 2
      ⟨1250, 250, 2⟩ :=
  have h := C8_stale_sequence_does_not_cancel bumpAlloc bumpAlloc_fresh exampleState
    exampleState_wellFormed exampleState_consistent 2 ⟨700, 250, 2⟩ 1 (by decide)
  ⟨bumpAlloc_fresh, exampleState_wellFormed, exampleState_consistent, by decide, by decide,
    (h.1 (by decide)).1, by decide,
    h.2.2 staleCancelCallbacks 1000 (by decide) (by decide) (by decide) (by decide)⟩

/-- C9: in a well-formed state (consistent or not), `addTimerInLoop` of an allocated
timer `t` that is in neither index puts `t` into both indices under its keys, each index growing
by one and all other entries staying; it calls `resetTimerfd` if and only if `timers_`
was empty or `t.expiration` is strictly earlier than every expiration that was in
`timers_`, and then the expiration it passes is `t.expiration`, which is the least
expiration in `timers_` afterwards. -/
theorem C9_addTimerInLoop_reprograms_iff_earliest (s : TimerManager) (hwf : WellFormed s)
    (p : TimerPtr) (t : Timer) (ht : s.heap.read p = some t)
    (hab : Absent s p) :
    Present (addTimerInLoop p s) p t ∧
    (addTimerInLoop p s).timers.length = s.timers.length + 1 ∧
    (addTimerInLoop p s).activeTimers.length = s.activeTimers.length + 1 ∧
    (∀ e : Entry, e.second ≠ p → (e ∈ (addTimerInLoop p s).timers ↔ e ∈ s.timers)) ∧
    (∀ a : ActiveTimer, a.first ≠ p →
      (a ∈ (addTimerInLoop p s).activeTimers ↔ a ∈ s.activeTimers)) ∧
    ((s.timers = [] ∨ ∀ e ∈ s.timers, t.expiration < e.first) →
      (addTimerInLoop p s).timerfdLog = s.timerfdLog ++ [t.expiration] ∧
      ∀ e ∈ (addTimerInLoop p s).timers, t.expiration ≤ e.first) ∧
    (¬ (s.timers = [] ∨ ∀ e ∈ s.timers, t.expiration < e.first) →
      (addTimerInLoop p s).timerfdLog = s.timerfdLog) := by
  have hse := addTimerInLoop_sameExcept p s
  have hch : (TimerManager.insert p s).1 = true ↔
      (s.timers = [] ∨ ∀ e ∈ s.timers, t.expiration < e.first) := by
    have h1 : (TimerManager.insert p s).1 = (match s.timers.head? with
        | none => true
        | some it => decide ((s.deref p).expiration < it.first)) := rfl
    rw [h1, deref_of_read ht]
    cases hl : s.timers with
    | nil => simp
    | cons e0 rest =>
      simp only [List.head?_cons, decide_eq_true_eq, reduceCtorEq, false_or]
      constructor
      · intro h e he
        have := head_earliest hwf.1 hl e (hl ▸ he)
        exact lt_of_lt_of_le h this
      · intro h
        exact h e0 (List.mem_cons_self _ _)
  have hnt : (⟨t.expiration, p⟩ : Entry) ∉ s.timers := fun hm => hab.1 _ hm rfl
  have hna : (⟨p, t.sequence⟩ : ActiveTimer) ∉ s.activeTimers := fun hm => hab.2 _ hm rfl
  refine ⟨addTimerInLoop_present p s t ht, ?_, ?_, hse.1, hse.2.1, fun hcond => ?_,
    fun hcond => ?_⟩
  · rw [addTimerInLoop_timers, insert_timers, deref_of_read ht]
    exact StdSet.length_insert _ _ hnt
  · rw [addTimerInLoop_activeTimers, insert_activeTimers, deref_of_read ht]
    exact StdSet.length_insert _ _ hna
  · have hi := hch.mpr hcond
    constructor
    · unfold addTimerInLoop
      simp only [hi, if_true]
      show s.timerfdLog ++ [((TimerManager.insert p s).2.deref p).expiration] = _
      have : (TimerManager.insert p s).2.deref p = s.deref p := rfl
      rw [this, deref_of_read ht]
    · intro e he
      rw [addTimerInLoop_timers, insert_timers, deref_of_read ht, StdSet.mem_insert] at he
      rcases he with rfl | he
      · exact le_refl _
      · rcases hcond with h | h
        · rw [h] at he
          simp at he
        · exact le_of_lt (h e he)
  · have hi : (TimerManager.insert p s).1 = false := by
      cases hb : (TimerManager.insert p s).1
      · rfl
      · exact absurd (hch.mp hb) hcond
    unfold addTimerInLoop
    simp only [hi, Bool.false_eq_true, if_false]
    rfl

/-- C9 at the example state: the pending timer 4, due at 900, is not earlier than the
earliest (500), so the descriptor is left alone; after the sweep at 1000 only the
timer due at 2000 remains and inserting timer 4 reprograms the descriptor for 900. -/
theorem C9_addTimerInLoop_reprograms_iff_earliest_witness :
    WellFormed (getExpired 1000 exampleState).2 ∧
    (getExpired 1000 exampleState).2.heap.read 4 = some ⟨900, 0, 4⟩ ∧
    Absent (getExpired 1000 exampleState).2 4 ∧
    (∀ e ∈ (getExpired 1000 exampleState).2.timers, (900 : Timestamp) < e.first) ∧
    Present (addTimerInLoop 4 (getExpired 1000 exampleState).2) 4 ⟨900, 0, 4⟩ ∧
    (addTimerInLoop 4 (getExpired 1000 exampleState).2).timerfdLog = [500, 900] ∧
    (addTimerInLoop 4 exampleState).timerfdLog = [500] :=
  have hwf := getExpired_wellFormed 1000 exampleState exampleState_wellFormed
  have h := C9_addTimerInLoop_reprograms_iff_earliest (getExpired 1000 exampleState).2 hwf
    4 ⟨900, 0, 4⟩ (by decide) (by decide)
  ⟨hwf, by decide, by decide, by decide, h.1, (h.2.2.2.2.2.1 (Or.inr (by decide))).1,
    by decide⟩

/-- C10, as stated, fails: in the pass at 1000 on the example state, the callback of
timer 1 adds a timer whose expiration is the default Timestamp 0. After the reschedule
loop `timers_` is not empty, its earliest entry is that timer, and `reset` does not
call `resetTimerfd`: the log of `timerfd_settime` calls is the one the callbacks left. -/
theorem C10_reset_skips_invalid_earliest :
    (handleRead bumpAlloc addInvalidCallbacks 1000 exampleState).timers
      = [⟨0, 5⟩, ⟨1250, 2⟩, ⟨2000, 3⟩] ∧
    (runExpired bumpAlloc addInvalidCallbacks 1000 exampleState).timerfdLog = [500, 0] ∧
    (reset (getExpired 1000 exampleState).1 1000
      (runExpired bumpAlloc addInvalidCallbacks 1000 exampleState)).timerfdLog = [500, 0] ∧
    (handleRead bumpAlloc addInvalidCallbacks 1000 exampleState).timerfdLog
      = (runExpired bumpAlloc addInvalidCallbacks 1000 exampleState).timerfdLog := by
  decide

/-- C10, amended: at the end of a firing pass from a well-formed consistent state, if
a timer remains in `timers_` and the expiration of the first entry, which is the
earliest expiration in `timers_`, is valid (positive), `reset` calls `resetTimerfd`
once, with that expiration; if the earliest expiration is not valid, or no timer
remains, `reset` does not call `resetTimerfd`. -/
theorem C10_reset_reprograms_valid_earliest (alloc : Heap → TimerPtr)
    (hal : AllocFresh alloc) (cb : TimerPtr → List Action) (now : Timestamp)
    (s : TimerManager) (hwf : WellFormed s) (hc : Consistent s) :
    (∀ e rest, (handleRead alloc cb now s).timers = e :: rest →
      (∀ e' ∈ (handleRead alloc cb now s).timers, e.first ≤ e'.first) ∧
      (0 < e.first → (handleRead alloc cb now s).timerfdLog
        = (runExpired alloc cb now s).timerfdLog ++ [e.first]) ∧
      (e.first ≤ 0 → (handleRead alloc cb now s).timerfdLog
        = (runExpired alloc cb now s).timerfdLog)) ∧
    ((handleRead alloc cb now s).timers = [] →
      (handleRead alloc cb now s).timerfdLog = (runExpired alloc cb now s).timerfdLog) := by
  have hp := runExpired_passInv alloc hal cb now s hwf hc
  obtain ⟨l1, l2, _, l4, _⟩ := resetLoop_spec now s.heap (getExpired now s).1
    (runExpired alloc cb now s) hp.1 hp.2.1 (getExpired_nodup now s hwf hc) hp.2.2
  have ht : (handleRead alloc cb now s).timers
      = (resetLoop (getExpired now s).1 now (runExpired alloc cb now s)).timers :=
    reset_timers _ _ _
  have hdef : handleRead alloc cb now s
      = if Timestamp.valid
            (nextExpired (resetLoop (getExpired now s).1 now (runExpired alloc cb now s)))
          then resetTimerfd
            (nextExpired (resetLoop (getExpired now s).1 now (runExpired alloc cb now s)))
            (resetLoop (getExpired now s).1 now (runExpired alloc cb now s))
          else resetLoop (getExpired now s).1 now (runExpired alloc cb now s) := rfl
  constructor
  · intro e rest hl
    rw [ht] at hl
    have hne : nextExpired (resetLoop (getExpired now s).1 now (runExpired alloc cb now s))
        = e.first := by
      obtain ⟨t, r, e1, _⟩ := l2.2.1 e (hl ▸ List.mem_cons_self _ _)
      simp only [nextExpired, hl, List.head?_cons, deref_of_read r, e1]
    refine ⟨fun e' he' => head_earliest l1.1 hl e' (ht ▸ he'), fun hpos => ?_, fun hnp => ?_⟩
    · have hv : Timestamp.valid e.first = true := by simpa [Timestamp.valid] using hpos
      rw [hdef, hne, if_pos hv]
      show (resetLoop (getExpired now s).1 now (runExpired alloc cb now s)).timerfdLog
        ++ [e.first] = _
      rw [l4]
    · have hv : ¬ Timestamp.valid e.first = true := by
        simp only [Timestamp.valid, decide_eq_true_eq, not_lt]
        exact hnp
      rw [hdef, hne, if_neg hv, l4]
  · intro hl
    rw [ht] at hl
    have hne : nextExpired (resetLoop (getExpired now s).1 now (runExpired alloc cb now s))
        = Timestamp.default := by
      simp only [nextExpired, hl, List.head?_nil]
    have hv : ¬ Timestamp.valid Timestamp.default = true := by decide
    rw [hdef, hne, if_neg hv, l4]

/-- C10 amended, at the example state: after the pass at 1000 with callbacks that do
nothing, timer 2 is the earliest again, due at 1250, and the descriptor is programmed
for 1250. -/
theorem C10_reset_reprograms_valid_earliest_witness :
    AllocFresh bumpAlloc ∧ WellFormed exampleState ∧ Consistent exampleState ∧
    (handleRead bumpAlloc quietCallbacks 1000 exampleState).timers
      = [⟨1250, 2⟩, ⟨2000, 3⟩] ∧
    (handleRead bumpAlloc quietCallbacks 1000 exampleState).timerfdLog
      = (runExpired bumpAlloc quietCallbacks 1000 exampleState).timerfdLog ++ [1250] :=
  ⟨bumpAlloc_fresh, exampleState_wellFormed, exampleState_consistent, by decide,
    ((C10_reset_reprograms_valid_earliest bumpAlloc bumpAlloc_fresh quietCallbacks 1000
      exampleState exampleState_wellFormed exampleState_consistent).1 ⟨1250, 2⟩ [⟨2000, 3⟩]
      (by decide)).2.1 (by decide)⟩

/-! ## Buffer: lemmas -/

namespace Buffer

theorem length_writeAt (s : List Byte) (i : Nat) (data : List Byte)
    (h : i + data.length ≤ s.length) : (writeAt s i data).length = s.length := by
  simp only [writeAt, List.length_append, List.length_take, List.length_drop]
  omega

theorem length_writeAt_ge (s : List Byte) (i : Nat) (data : List Byte) (h : i ≤ s.length) :
    i + data.length ≤ (writeAt s i data).length := by
  simp only [writeAt, List.length_append, List.length_take, List.length_drop]
  omega

theorem writeAt_nil (s : List Byte) (i : Nat) : writeAt s i [] = s := by
  simp [writeAt]

/-- The bytes from `r` up to the end of a copy made at `w`. -/
theorem take_drop_writeAt (s : List Byte) (r w : Nat) (data : List Byte) (hr : r ≤ w)
    (hw : w ≤ s.length) :
    ((writeAt s w data).drop r).take (w + data.length - r)
      = (s.drop r).take (w - r) ++ data := by
  have h1 : (s.take w).length = w := by simp [List.length_take, hw]
  have h2 : ((s.take w).drop r).length = w - r := by simp [List.length_drop, h1]
  have h3 : w + data.length - r = ((s.take w).drop r).length + data.length := by
    rw [h2]; omega
  simp only [writeAt, List.append_assoc]
  rw [List.drop_append_of_le_length (by rw [h1]; exact hr), h3, List.take_append,
    List.take_left, List.drop_take]

theorem length_readable (b : Buffer) (hb : WellFormed b) :
    b.readable.length = b.readableBytes := by
  simp only [readable, readableBytes, List.length_take, List.length_drop]
  have := hb.1
  have := hb.2
  simp only [capacity] at this
  omega

theorem copyIn_spec (b : Buffer) (data : List Byte) (hb : WellFormed b) :
    (b.copyIn data).readable = b.readable ++ data ∧ WellFormed (b.copyIn data) ∧
    (b.copyIn data).read_index = b.read_index ∧
    (b.copyIn data).write_index = b.write_index + data.length := by
  refine ⟨?_, ⟨?_, ?_⟩, rfl, rfl⟩
  · simp only [readable, copyIn]
    have : b.write_index + data.length - b.read_index
        = b.write_index + data.length - b.read_index := rfl
    exact take_drop_writeAt b.storage b.read_index b.write_index data hb.1 hb.2
  · show b.read_index ≤ b.write_index + data.length
    have := hb.1
    omega
  · show b.write_index + data.length ≤ (writeAt b.storage b.write_index data).length
    exact length_writeAt_ge _ _ _ hb.2

theorem makeSpace_spec (b : Buffer) (len : Nat) (hb : WellFormed b) :
    (b.makeSpace len).readable = b.readable ∧ WellFormed (b.makeSpace len) ∧
    (b.makeSpace len).readableBytes = b.readableBytes := by
  have hr := hb.1
  have hw : b.write_index ≤ b.storage.length := hb.2
  unfold makeSpace
  split
  · rename_i hcond
    simp only [writeableBytes, prependableBytes, capacity, kCheapPrependSize] at hcond
    have h8 : 8 ≤ b.storage.length := by omega
    have hlen := length_readable b hb
    simp only [readableBytes] at hlen
    refine ⟨?_, ⟨?_, ?_⟩, ?_⟩
    · have := take_drop_writeAt b.storage 8 8 b.readable (le_refl _) h8
      rw [hlen] at this
      show List.take (kCheapPrependSize + b.readableBytes - kCheapPrependSize)
        (List.drop kCheapPrependSize (writeAt b.storage kCheapPrependSize b.readable))
          = b.readable
      simp only [kCheapPrependSize, readableBytes]
      rw [this]
      simp
    · show kCheapPrependSize ≤ kCheapPrependSize + b.readableBytes
      omega
    · show kCheapPrependSize + b.readableBytes ≤ (writeAt b.storage kCheapPrependSize b.readable).length
      have := length_writeAt_ge b.storage 8 b.readable h8
      simp only [kCheapPrependSize, readableBytes]
      rw [hlen] at this
      exact this
    · simp [readableBytes]
  · refine ⟨?_, ⟨hr, ?_⟩, rfl⟩
    · simp only [readable]
      rw [List.drop_append_of_le_length (le_trans hr hw), List.take_append_of_le_length]
      simp only [List.length_drop]
      omega
    · show b.write_index ≤ (b.storage ++ _).length
      simp only [List.length_append]
      omega

/-- The round trip of `append`: the readable bytes afterwards are the old ones followed
by the data, and they fit in the storage. -/
theorem append_spec (b : Buffer) (data : List Byte) (hb : WellFormed b) :
    (b.append data).readable = b.readable ++ data ∧ WellFormed (b.append data) ∧
    (b.append data).readableBytes = b.readableBytes + data.length := by
  unfold append
  split
  · obtain ⟨m1, m2, m3⟩ := makeSpace_spec b data.length hb
    obtain ⟨c1, c2, c3, c4⟩ := copyIn_spec (b.makeSpace data.length) data m2
    refine ⟨by rw [c1, m1], c2, ?_⟩
    simp only [readableBytes] at m3 ⊢
    rw [c3, c4]
    have := m2.1
    omega
  · obtain ⟨c1, c2, c3, c4⟩ := copyIn_spec b data hb
    refine ⟨c1, c2, ?_⟩
    simp only [readableBytes]
    rw [c3, c4]
    have := hb.1
    omega

end Buffer

namespace Buffer

theorem sum_iovecs (b : Buffer) :
    b.iovecs.sum
      = if b.writeableBytes < extrabufSize then b.writeableBytes + extrabufSize
        else b.writeableBytes := by
  unfold iovecs
  simp only
  split <;> simp

/-- A failed `readv`: the value and `errno` are handed on, the buffer is as it was. -/
theorem readFd_failed (readv : List Nat → ReadvOutcome) (b : Buffer) (savedErrno : Int)
    (hn : (readv b.iovecs).n < 0) (hd : (readv b.iovecs).data = []) :
    readFd readv b savedErrno = ⟨(readv b.iovecs).n, (readv b.iovecs).errno, b⟩ := by
  unfold readFd
  simp only [hn, if_true, hd, List.take_nil, writeAt_nil]

/-- A successful `readv` of the bytes `d`: they are copied in at the write index, the
part that did not fit in the writable tail through `append`. -/
theorem readFd_delivered (readv : List Nat → ReadvOutcome) (b : Buffer) (savedErrno : Int)
    (hb : WellFormed b) (hn : (readv b.iovecs).n = (readv b.iovecs).data.length)
    (hd : (readv b.iovecs).data.length ≤ b.iovecs.sum) :
    readFd readv b savedErrno
      = ⟨(readv b.iovecs).data.length, savedErrno,
          if (readv b.iovecs).data.length ≤ b.writeableBytes then
            b.copyIn (readv b.iovecs).data
          else
            (b.copyIn ((readv b.iovecs).data.take b.writeableBytes)).append
              ((readv b.iovecs).data.drop b.writeableBytes)⟩ := by
  have hw : b.write_index ≤ b.storage.length := hb.2
  have hnn : ¬ (readv b.iovecs).n < 0 := by
    rw [hn]
    exact not_lt.mpr (Int.ofNat_nonneg _)
  have htn : (readv b.iovecs).n.toNat = (readv b.iovecs).data.length := by
    rw [hn]
    exact Int.toNat_ofNat _
  unfold readFd
  simp only [hnn, if_false, htn]
  rw [hn]
  by_cases hle : (readv b.iovecs).data.length ≤ b.writeableBytes
  · simp only [hle, if_true, List.take_of_length_le hle]
    rfl
  · simp only [hle, if_false]
    have hlt : b.writeableBytes < (readv b.iovecs).data.length := not_le.mp hle
    have hsum := sum_iovecs b
    have hx : b.writeableBytes < extrabufSize := by
      by_contra hc
      rw [if_neg hc] at hsum
      omega
    rw [if_pos hx] at hsum
    have htl : ((readv b.iovecs).data.take b.writeableBytes).length = b.writeableBytes := by
      rw [List.length_take]
      omega
    have hcap : (writeAt b.storage b.write_index
        ((readv b.iovecs).data.take b.writeableBytes)).length
          = b.write_index + ((readv b.iovecs).data.take b.writeableBytes).length := by
      rw [length_writeAt, htl]
      · simp only [writeableBytes, capacity]
        omega
      · rw [htl]
        simp only [writeableBytes, capacity]
        omega
    have hex : List.take ((readv b.iovecs).data.length - b.writeableBytes)
        (List.take extrabufSize
          (List.drop b.writeableBytes (readv b.iovecs).data ++ List.replicate extrabufSize 0))
        = List.drop b.writeableBytes (readv b.iovecs).data := by
      rw [List.take_take]
      have hmin : min ((readv b.iovecs).data.length - b.writeableBytes) extrabufSize
          = (List.drop b.writeableBytes (readv b.iovecs).data).length := by
        rw [List.length_drop]
        omega
      rw [hmin, List.take_left]
    rw [hex]
    congr 2
    simp only [copyIn, capacity]
    rw [hcap]

/-- The value `readFd` returns is at most the total length of the iovecs it offers. -/
theorem readFd_ret_le (readv : List Nat → ReadvOutcome) (hk : ReadvOk readv) (b : Buffer)
    (savedErrno : Int) :
    (readFd readv b savedErrno).ret
      ≤ (if b.writeableBytes < extrabufSize then b.writeableBytes + extrabufSize
          else b.writeableBytes : Nat) := by
  have hret : (readFd readv b savedErrno).ret = (readv b.iovecs).n := by
    unfold readFd
    simp only
    split
    · rfl
    · split <;> rfl
  rw [hret]
  rcases hk b.iovecs with ⟨h, _⟩ | ⟨h1, h2⟩
  · exact le_trans (le_of_lt h) (Int.ofNat_nonneg _)
  · rw [h1, ← sum_iovecs]
    exact Int.ofNat_le.mpr h2

theorem socketReadv_n (avail : List Byte) (iov : List Nat) :
    (socketReadv avail iov).n = (socketReadv avail iov).data.length := rfl

theorem socketReadv_data (avail : List Byte) (iov : List Nat) :
    (socketReadv avail iov).data = avail.take iov.sum := rfl

theorem socketReadv_ok (avail : List Byte) : ReadvOk (socketReadv avail) := by
  intro iov
  refine Or.inr ⟨rfl, ?_⟩
  simp only [socketReadv, List.length_take]
  exact min_le_left _ _

theorem failingReadv_ok (errno : Int) : ReadvOk (failingReadv errno) := by
  intro iov
  exact Or.inl ⟨show (-1 : Int) < 0 by decide, rfl⟩

theorem init_wellFormed : WellFormed init := by
  simp only [WellFormed, init, capacity, List.length_replicate, kCheapPrependSize,
    kInitialSize]
  omega

theorem init_writeableBytes : init.writeableBytes = 1024 := by
  simp only [writeableBytes, init, capacity, List.length_replicate, kCheapPrependSize,
    kInitialSize]

theorem init_iovecs_sum : init.iovecs.sum = 66560 := by
  rw [sum_iovecs, init_writeableBytes]
  simp only [extrabufSize]
  norm_num

/-- A socket with at least 66560 bytes ready delivers 66560 of them to `readFd` on a
fresh buffer. -/
theorem socketReadv_init_length (avail : List Byte) (h : 66560 ≤ avail.length) :
    ((socketReadv avail) init.iovecs).data.length = 66560 := by
  rw [socketReadv_data, init_iovecs_sum, List.length_take]
  omega

end Buffer

/-- C11, as stated, fails: a fresh buffer has 1,024 writable bytes, so `readFd` offers
`readv` 1,024 + 65,536 = 66,560 bytes of room; from a socket with 70,000 bytes ready it
returns 66,560, and no `readv` that keeps its contract makes it return 70,000. -/
theorem C11_readFd_returns_66560 :
    Buffer.init.writeableBytes = 1024 ∧
    (Buffer.readFd (Buffer.socketReadv (List.replicate 70000 0)) Buffer.init 0).ret = 66560 ∧
    ¬ ∃ readv, Buffer.ReadvOk readv ∧ (Buffer.readFd readv Buffer.init 0).ret = 70000 := by
  have hlen : ((Buffer.socketReadv (List.replicate 70000 0)) Buffer.init.iovecs).data.length
      = 66560 :=
    Buffer.socketReadv_init_length _ (by rw [List.length_replicate]; norm_num)
  refine ⟨Buffer.init_writeableBytes, ?_, ?_⟩
  · rw [Buffer.readFd_delivered _ _ _ Buffer.init_wellFormed (Buffer.socketReadv_n _ _)
      (by rw [hlen, Buffer.init_iovecs_sum]), hlen]
    rfl
  · rintro ⟨readv, hk, h⟩
    have := Buffer.readFd_ret_le readv hk Buffer.init 0
    rw [h, Buffer.init_writeableBytes] at this
    simp only [Buffer.extrabufSize] at this
    norm_num at this

/-- C11, amended: for a buffer with 1,024 bytes of writable tail and a socket that has
70,000 bytes ready, a single `readFd` call returns 66,560 = 1,024 + 65,536, the room of
the writable tail and of `extrabuf`; the readable region afterwards is the old one
followed by the first 66,560 bytes of the socket, `readableBytes()` has grown by
66,560, and the capacity holds all of them. -/
theorem C11_scatter_read_66560 (b : Buffer) (avail : List Byte) (savedErrno : Int)
    (hb : Buffer.WellFormed b) (hw : b.writeableBytes = 1024)
    (ha : avail.length = 70000) :
    (Buffer.readFd (Buffer.socketReadv avail) b savedErrno).ret = 66560 ∧
    (Buffer.readFd (Buffer.socketReadv avail) b savedErrno).buffer.readable
      = b.readable ++ avail.take 66560 ∧
    (Buffer.readFd (Buffer.socketReadv avail) b savedErrno).buffer.readableBytes
      = b.readableBytes + 66560 ∧
    Buffer.WellFormed (Buffer.readFd (Buffer.socketReadv avail) b savedErrno).buffer := by
  have hsum : b.iovecs.sum = 66560 := by
    rw [Buffer.sum_iovecs, hw]
    simp only [Buffer.extrabufSize]
    norm_num
  have hdata : (Buffer.socketReadv avail b.iovecs).data = avail.take 66560 := by
    rw [Buffer.socketReadv_data, hsum]
  have hlen : (Buffer.socketReadv avail b.iovecs).data.length = 66560 := by
    rw [hdata, List.length_take, ha]
    norm_num
  rw [Buffer.readFd_delivered _ _ _ hb (Buffer.socketReadv_n _ _) (by rw [hlen, hsum])]
  have hnle : ¬ (Buffer.socketReadv avail b.iovecs).data.length ≤ b.writeableBytes := by
    rw [hlen, hw]
    norm_num
  rw [if_neg hnle]
  obtain ⟨c1, c2, _, _⟩ := Buffer.copyIn_spec b
    ((Buffer.socketReadv avail b.iovecs).data.take b.writeableBytes) hb
  obtain ⟨a1, a2, a3⟩ := Buffer.append_spec _
    ((Buffer.socketReadv avail b.iovecs).data.drop b.writeableBytes) c2
  refine ⟨by rw [hlen]; rfl, ?_, ?_, a2⟩
  · rw [a1, c1, List.append_assoc, List.take_append_drop, hdata]
  · have h1 := Buffer.length_readable _ a2
    have h2 := Buffer.length_readable b hb
    rw [← h1, a1, c1, List.append_assoc, List.take_append_drop, List.length_append, hlen, h2]

/-- C11 amended, at the fresh buffer and a socket with 70,000 zero bytes. -/
theorem C11_scatter_read_66560_witness :
    Buffer.WellFormed Buffer.init ∧ Buffer.init.writeableBytes = 1024 ∧
    (List.replicate 70000 (0 : Byte)).length = 70000 ∧
    (Buffer.readFd (Buffer.socketReadv (List.replicate 70000 0)) Buffer.init 0).buffer.readableBytes
      = Buffer.init.readableBytes + 66560 :=
  ⟨Buffer.init_wellFormed, Buffer.init_writeableBytes, List.length_replicate _ _,
    (C11_scatter_read_66560 Buffer.init (List.replicate 70000 0) 0 Buffer.init_wellFormed
      Buffer.init_writeableBytes (List.length_replicate _ _)).2.2.1⟩

/-- C12: for a buffer whose indices are in order and a `readv` that keeps its contract
and succeeds, delivering the `n` bytes `d`: `readFd` returns `n`, leaves `*savedErrno`
alone, the readable region afterwards is the old readable bytes followed by `d`,
`readableBytes` has grown by `n`, and the indices are in order again. When
`n <= writableBytes`, the bytes are in the tail, the write index has advanced by `n`,
and the read index and the capacity are unchanged; when `n > writableBytes`, the first
`writableBytes` bytes of `d` have filled the tail (write index = capacity) and the
remaining `n - writableBytes` bytes have been added by `append`. -/
theorem C12_readFd_appends_delivered (readv : List Nat → Buffer.ReadvOutcome) (b : Buffer)
    (savedErrno : Int) (hb : Buffer.WellFormed b) (hk : Buffer.ReadvOk readv)
    (hs : 0 ≤ (readv b.iovecs).n) :
    (Buffer.readFd readv b savedErrno).ret = (readv b.iovecs).data.length ∧
    (Buffer.readFd readv b savedErrno).savedErrno = savedErrno ∧
    (Buffer.readFd readv b savedErrno).buffer.readable = b.readable ++ (readv b.iovecs).data ∧
    (Buffer.readFd readv b savedErrno).buffer.readableBytes
      = b.readableBytes + (readv b.iovecs).data.length ∧
    Buffer.WellFormed (Buffer.readFd readv b savedErrno).buffer ∧
    ((readv b.iovecs).data.length ≤ b.writeableBytes →
      (Buffer.readFd readv b savedErrno).buffer.write_index
        = b.write_index + (readv b.iovecs).data.length ∧
      (Buffer.readFd readv b savedErrno).buffer.read_index = b.read_index ∧
      (Buffer.readFd readv b savedErrno).buffer.capacity = b.capacity ∧
      (Buffer.readFd readv b savedErrno).buffer.storage
        = Buffer.writeAt b.storage b.write_index (readv b.iovecs).data) ∧
    (b.writeableBytes < (readv b.iovecs).data.length →
      (Buffer.readFd readv b savedErrno).buffer
        = ({ b with
              storage := Buffer.writeAt b.storage b.write_index
                ((readv b.iovecs).data.take b.writeableBytes),
              write_index := b.capacity } : Buffer).append
            ((readv b.iovecs).data.drop b.writeableBytes)) := by
  obtain ⟨hn, hd⟩ : (readv b.iovecs).n = (readv b.iovecs).data.length ∧
      (readv b.iovecs).data.length ≤ b.iovecs.sum := by
    rcases hk b.iovecs with ⟨h, _⟩ | h
    · exact absurd hs (not_le.mpr h)
    · exact h
  have hw : b.write_index ≤ b.storage.length := hb.2
  rw [Buffer.readFd_delivered readv b savedErrno hb hn hd]
  by_cases hle : (readv b.iovecs).data.length ≤ b.writeableBytes
  · rw [if_pos hle]
    obtain ⟨c1, c2, c3, c4⟩ := Buffer.copyIn_spec b (readv b.iovecs).data hb
    refine ⟨rfl, rfl, c1, ?_, c2, fun _ => ⟨c4, c3, ?_, rfl⟩,
      fun h => absurd hle (not_le.mpr h)⟩
    · have h1 := Buffer.length_readable _ c2
      have h2 := Buffer.length_readable b hb
      rw [← h1, c1, List.length_append, h2]
    · show (Buffer.writeAt b.storage b.write_index (readv b.iovecs).data).length
        = b.storage.length
      apply Buffer.length_writeAt
      simp only [Buffer.writeableBytes, Buffer.capacity] at hle
      omega
  · rw [if_neg hle]
    have hlt : b.writeableBytes < (readv b.iovecs).data.length := not_le.mp hle
    obtain ⟨c1, c2, _, _⟩ := Buffer.copyIn_spec b
      ((readv b.iovecs).data.take b.writeableBytes) hb
    obtain ⟨a1, a2, _⟩ := Buffer.append_spec _
      ((readv b.iovecs).data.drop b.writeableBytes) c2
    refine ⟨rfl, rfl, ?_, ?_, a2, fun h => absurd h hle, fun _ => ?_⟩
    · rw [a1, c1, List.append_assoc, List.take_append_drop]
    · have h1 := Buffer.length_readable _ a2
      have h2 := Buffer.length_readable b hb
      rw [← h1, a1, c1, List.append_assoc, List.take_append_drop, List.length_append, h2]
    · have htl : ((readv b.iovecs).data.take b.writeableBytes).length = b.writeableBytes := by
        rw [List.length_take]
        omega
      have hcap : b.write_index + b.writeableBytes = b.capacity := by
        simp only [Buffer.writeableBytes, Buffer.capacity]
        omega
      simp only [Buffer.copyIn]
      rw [htl, hcap]

/-- C12 at the small buffer (readable `[2, 3]`, three writable bytes): two bytes land
in the tail, five bytes fill the tail and grow the buffer. -/
theorem C12_readFd_appends_delivered_witness :
    Buffer.WellFormed Buffer.smallBuffer ∧ Buffer.ReadvOk (Buffer.socketReadv [7, 8, 9, 10, 11]) ∧
    0 ≤ (Buffer.socketReadv [7, 8, 9, 10, 11] Buffer.smallBuffer.iovecs).n ∧
    (Buffer.readFd (Buffer.socketReadv [7, 8, 9, 10, 11]) Buffer.smallBuffer 0).ret = 5 ∧
    (Buffer.readFd (Buffer.socketReadv [7, 8, 9, 10, 11]) Buffer.smallBuffer 0).buffer.readable
      = [2, 3, 7, 8, 9, 10, 11] ∧
    (Buffer.readFd (Buffer.socketReadv [7, 8]) Buffer.smallBuffer 0).buffer
      = { storage := [0, 0, 0, 0, 0, 0, 0, 0, 1, 2, 3, 7, 8, 0], read_index := 9,
          write_index := 13 } :=
  have h := C12_readFd_appends_delivered (Buffer.socketReadv [7, 8, 9, 10, 11])
    Buffer.smallBuffer 0 (by decide) (Buffer.socketReadv_ok _) (by decide)
  ⟨by decide, Buffer.socketReadv_ok _, by decide, by decide, h.2.2.1, by decide⟩

/-- C13: when `readv` fails (returns `n < 0`, nothing transferred), `readFd` returns
that `n`, stores `errno` in `*savedErrno`, and leaves the buffer as it was: read index,
write index, capacity and readable bytes. When `readv` does not fail, `*savedErrno`
keeps the value it had. -/
theorem C13_readFd_failure (readv : List Nat → Buffer.ReadvOutcome) (b : Buffer)
    (savedErrno : Int) (hk : Buffer.ReadvOk readv) :
    ((readv b.iovecs).n < 0 →
      (Buffer.readFd readv b savedErrno).ret = (readv b.iovecs).n ∧
      (Buffer.readFd readv b savedErrno).savedErrno = (readv b.iovecs).errno ∧
      (Buffer.readFd readv b savedErrno).buffer = b ∧
      (Buffer.readFd readv b savedErrno).buffer.read_index = b.read_index ∧
      (Buffer.readFd readv b savedErrno).buffer.write_index = b.write_index ∧
      (Buffer.readFd readv b savedErrno).buffer.capacity = b.capacity ∧
      (Buffer.readFd readv b savedErrno).buffer.readable = b.readable) ∧
    (0 ≤ (readv b.iovecs).n → (Buffer.readFd readv b savedErrno).savedErrno = savedErrno) := by
  constructor
  · intro hn
    have hd : (readv b.iovecs).data = [] := by
      rcases hk b.iovecs with ⟨_, h⟩ | ⟨h, _⟩
      · exact h
      · rw [h] at hn
        exact absurd hn (not_lt.mpr (Int.ofNat_nonneg _))
    rw [Buffer.readFd_failed readv b savedErrno hn hd]
    exact ⟨rfl, rfl, rfl, rfl, rfl, rfl, rfl⟩
  · intro hs
    have hnn : ¬ (readv b.iovecs).n < 0 := not_lt.mpr hs
    unfold Buffer.readFd
    simp only [hnn, if_false]
    split <;> rfl

/-- C13 at the small buffer: `readv` fails with `errno` 11. -/
theorem C13_readFd_failure_witness :
    Buffer.ReadvOk (Buffer.failingReadv 11) ∧
    (Buffer.failingReadv 11 Buffer.smallBuffer.iovecs).n < 0 ∧
    Buffer.readFd (Buffer.failingReadv 11) Buffer.smallBuffer 0
      = ⟨-1, 11, Buffer.smallBuffer⟩ ∧
    (Buffer.readFd (Buffer.failingReadv 11) Buffer.smallBuffer 0).buffer = Buffer.smallBuffer :=
  ⟨Buffer.failingReadv_ok 11, by decide, by decide,
    ((C13_readFd_failure (Buffer.failingReadv 11) Buffer.smallBuffer 0
      (Buffer.failingReadv_ok 11)).1 (by decide)).2.2.1⟩

/-- C15, as stated, fails: a fresh buffer has 1,024 writable bytes, fewer than 65,536,
so `extrabuf` is used; from a socket with 66,560 bytes ready one `readFd` call reads
all 66,560 bytes, more than 64K. -/
theorem C15_readFd_reads_more_than_64K :
    Buffer.init.writeableBytes < Buffer.extrabufSize ∧
    Buffer.init.iovecs = [1024, 65536] ∧
    (Buffer.readFd (Buffer.socketReadv (List.replicate 66560 1)) Buffer.init 0).ret = 66560 ∧
    (65536 : Int) < (Buffer.readFd (Buffer.socketReadv (List.replicate 66560 1)) Buffer.init 0).ret := by
  have hlen : ((Buffer.socketReadv (List.replicate 66560 1)) Buffer.init.iovecs).data.length
      = 66560 :=
    Buffer.socketReadv_init_length _ (by rw [List.length_replicate])
  have hret : (Buffer.readFd (Buffer.socketReadv (List.replicate 66560 1)) Buffer.init 0).ret
      = 66560 := by
    rw [Buffer.readFd_delivered _ _ _ Buffer.init_wellFormed (Buffer.socketReadv_n _ _)
      (by rw [hlen, Buffer.init_iovecs_sum]), hlen]
    rfl
  refine ⟨?_, ?_, hret, ?_⟩
  · rw [Buffer.init_writeableBytes]
    simp only [Buffer.extrabufSize]
    norm_num
  · unfold Buffer.iovecs
    simp only [Buffer.init_writeableBytes, Buffer.extrabufSize]
    rfl
  · rw [hret]
    norm_num

/-- C15, amended: when `extrabuf` is used (`writableBytes < 65536`, two iovecs: the
writable tail and the 65,536 bytes of `extrabuf`), a single `readFd` call reads at most
`writableBytes + 65536` bytes, which is at most 131,071; when the buffer has at least
65,536 writable bytes, only its own tail is offered, no byte is read into `extrabuf`,
and the result is at most `writableBytes`. -/
theorem C15_readFd_bound (readv : List Nat → Buffer.ReadvOutcome)
    (hk : Buffer.ReadvOk readv) (b : Buffer) (savedErrno : Int) :
    (b.writeableBytes < 65536 →
      b.iovecs = [b.writeableBytes, 65536] ∧
      (Buffer.readFd readv b savedErrno).ret ≤ b.writeableBytes + 65536 ∧
      (Buffer.readFd readv b savedErrno).ret ≤ 131071) ∧
    (65536 ≤ b.writeableBytes →
      b.iovecs = [b.writeableBytes] ∧
      (readv b.iovecs).data.drop b.writeableBytes = [] ∧
      (Buffer.readFd readv b savedErrno).ret ≤ b.writeableBytes) := by
  have hle := Buffer.readFd_ret_le readv hk b savedErrno
  simp only [Buffer.extrabufSize] at hle
  constructor
  · intro h
    rw [if_pos h] at hle
    refine ⟨?_, by exact_mod_cast hle, ?_⟩
    · unfold Buffer.iovecs
      simp only [Buffer.extrabufSize]
      rw [if_pos h]
      rfl
    · have h2 : ((b.writeableBytes + 65536 : Nat) : Int) ≤ 131071 := by omega
      exact le_trans hle h2
  · intro h
    have hn : ¬ b.writeableBytes < 65536 := by omega
    rw [if_neg hn] at hle
    have hio : b.iovecs = [b.writeableBytes] := by
      unfold Buffer.iovecs
      simp only [Buffer.extrabufSize]
      rw [if_neg hn]
      rfl
    refine ⟨hio, ?_, hle⟩
    rcases hk b.iovecs with ⟨_, h0⟩ | ⟨_, h2⟩
    · rw [h0]
      exact List.drop_nil
    · rw [hio] at h2
      simp only [List.sum_cons, List.sum_nil, Nat.add_zero] at h2
      rw [hio]
      exact List.drop_eq_nil_of_le h2

/-- C15 amended, at the small buffer (three writable bytes) and a socket with five
bytes ready: both iovecs are offered, and all five bytes are read. -/
theorem C15_readFd_bound_witness :
    Buffer.ReadvOk (Buffer.socketReadv [7, 8, 9, 10, 11]) ∧
    Buffer.smallBuffer.writeableBytes < 65536 ∧
    Buffer.smallBuffer.iovecs = [3, 65536] ∧
    (Buffer.readFd (Buffer.socketReadv [7, 8, 9, 10, 11]) Buffer.smallBuffer 0).ret = 5 ∧
    (Buffer.readFd (Buffer.socketReadv [7, 8, 9, 10, 11]) Buffer.smallBuffer 0).ret
      ≤ Buffer.smallBuffer.writeableBytes + 65536 :=
  ⟨Buffer.socketReadv_ok _, by decide, by decide, by decide,
    ((C15_readFd_bound (Buffer.socketReadv [7, 8, 9, 10, 11]) (Buffer.socketReadv_ok _)
      Buffer.smallBuffer 0).1 (by decide)).2.1⟩
/-! ## More on the firing pass -/

namespace TimerManager

theorem foldl_exec_runLog (alloc : Heap → TimerPtr) (acts : List Action) (s : TimerManager) :
    (acts.foldl (exec alloc) s).runLog = s.runLog := by
  induction acts generalizing s with
  | nil => rfl
  | cons act acts ih =>
    rw [List.foldl_cons, ih]
    exact exec_runLog alloc s act

theorem foldl_run_runLog (alloc : Heap → TimerPtr) (cb : TimerPtr → List Action)
    (L : List Entry) (s : TimerManager) :
    (L.foldl (run alloc cb) s).runLog = s.runLog ++ L.map (fun it => it.second) := by
  induction L generalizing s with
  | nil => simp
  | cons x L ih =>
    rw [List.foldl_cons, ih]
    have : (run alloc cb s x).runLog = s.runLog ++ [x.second] := foldl_exec_runLog alloc _ _
    rw [this]
    simp

theorem resetStep_runLog (now : Timestamp) (st : TimerManager) (it : Entry) :
    (resetStep now st it).runLog = st.runLog := by
  unfold resetStep
  simp only
  split <;> rfl

theorem resetLoop_runLog (E : List Entry) (now : Timestamp) (s : TimerManager) :
    (resetLoop E now s).runLog = s.runLog := by
  unfold resetLoop
  induction E generalizing s with
  | nil => rfl
  | cons x E ih =>
    rw [List.foldl_cons, ih]
    exact resetStep_runLog now s x

/-- A pass calls `run()` on the expired entries, in the order of the vector. -/
theorem handleRead_runLog (alloc : Heap → TimerPtr) (cb : TimerPtr → List Action)
    (now : Timestamp) (s : TimerManager) :
    (handleRead alloc cb now s).runLog
      = s.runLog ++ (getExpired now s).1.map (fun it => it.second) := by
  have h1 : (handleRead alloc cb now s).runLog
      = (resetLoop (getExpired now s).1 now (runExpired alloc cb now s)).runLog :=
    reset_runLog _ _ _
  have h2 : (runExpired alloc cb now s).runLog
      = (getExpired now s).2.runLog ++ (getExpired now s).1.map (fun it => it.second) :=
    foldl_run_runLog alloc cb _ _
  rw [h1, resetLoop_runLog, h2, getExpired_runLog]

/-- The set `cancelingTimers_` a pass starts from does not matter. -/
theorem getExpired_with_cancelingTimers (now : Timestamp) (s : TimerManager)
    (c : List ActiveTimer) :
    getExpired now { s with cancelingTimers := c }
      = ((getExpired now s).1, { (getExpired now s).2 with cancelingTimers := c }) := by
  have hfold : ∀ (E : List Entry) (st : TimerManager),
      E.foldl getExpiredStep { st with cancelingTimers := c }
        = { E.foldl getExpiredStep st with cancelingTimers := c } := by
    intro E
    induction E with
    | nil => intro st; rfl
    | cons x E ih =>
      intro st
      rw [List.foldl_cons, List.foldl_cons, ← ih]
      rfl
  unfold getExpired
  simp only
  rw [← hfold]
  rfl

theorem handleRead_with_cancelingTimers (alloc : Heap → TimerPtr)
    (cb : TimerPtr → List Action) (now : Timestamp) (s : TimerManager)
    (c : List ActiveTimer) :
    handleRead alloc cb now { s with cancelingTimers := c } = handleRead alloc cb now s := by
  unfold handleRead runExpired
  simp only [getExpired_with_cancelingTimers]

end TimerManager

/-- C14: in a firing pass the callbacks of the expired timers run in ascending order
of (expiration, timer address). The vector `getExpired` returns is strictly ascending
in the order of `std::pair`, hence without duplicates; `handleRead` calls `run()` on
its entries in vector order, once per entry; and in a consistent state the entries
are different timers, so each expired timer runs exactly once. -/
theorem C14_callbacks_in_key_order (alloc : Heap → TimerPtr) (cb : TimerPtr → List Action)
    (now : Timestamp) (s : TimerManager) (hwf : WellFormed s) :
    (getExpired now s).1.Sorted (· < ·) ∧
    (getExpired now s).1.Pairwise (fun x y =>
      x.first < y.first ∨ (x.first = y.first ∧ x.second < y.second)) ∧
    (getExpired now s).1.Nodup ∧
    (handleRead alloc cb now s).runLog
      = s.runLog ++ (getExpired now s).1.map (fun it => it.second) ∧
    (Consistent s → ((getExpired now s).1.map (fun it => it.second)).Nodup) := by
  have hs : (getExpired now s).1.Sorted (· < ·) := by
    rw [getExpired_fst]
    exact StdSet.sorted_beforeLowerBound _ _ hwf.1
  refine ⟨hs, ?_, hs.nodup, handleRead_runLog alloc cb now s,
    fun hc => getExpired_nodup now s hwf hc⟩
  exact List.Pairwise.imp (fun {x y} h => (Entry.lt_iff x y).mp h) hs

/-- C14 at the example state: in the pass at 1000 the timers due at 500 and at 700 run,
in this order. -/
theorem C14_callbacks_in_key_order_witness :
    WellFormed exampleState ∧
    (getExpired 1000 exampleState).1 = [⟨500, 1⟩, ⟨700, 2⟩] ∧
    (getExpired 1000 exampleState).1.Sorted (· < ·) ∧
    (handleRead bumpAlloc quietCallbacks 1000 exampleState).runLog
      = exampleState.runLog ++ (getExpired 1000 exampleState).1.map (fun it => it.second) :=
  have h := C14_callbacks_in_key_order bumpAlloc quietCallbacks 1000 exampleState
    exampleState_wellFormed
  ⟨exampleState_wellFormed, by decide, h.1, h.2.2.2.1⟩

/-- C18: cancelling a sibling inside a pass. If `a` and `b` both expire in a pass, `a`
before `b` in the order of `timers_`, and the callback of `a` cancels the TimerId of
`b`, then `run()` is still called on `b`, after `a`, in that pass; the cancel has only
recorded `b` in `cancelingTimers_` (the Timer of `b` is still allocated when the
callbacks are done); and after the pass `b` is in neither index and deleted, repeating
or not. And `handleRead` clears `cancelingTimers_` before the callbacks: whatever the
set holds when a pass starts, the pass ends in the same state. -/
theorem C18_sibling_cancel (alloc : Heap → TimerPtr) (hal : AllocFresh alloc)
    (cb : TimerPtr → List Action) (now : Timestamp) (s : TimerManager)
    (hwf : WellFormed s) (hc : Consistent s) (a b : Entry) (tb : Timer)
    (ha : a ∈ (getExpired now s).1) (hb : b ∈ (getExpired now s).1) (hab : a < b)
    (htb : s.heap.read b.second = some tb)
    (hcancel : Action.cancel ⟨b.second, tb.sequence⟩ ∈ cb a.second) :
    (handleRead alloc cb now s).runLog
      = s.runLog ++ (getExpired now s).1.map (fun it => it.second) ∧
    List.Sublist [a.second, b.second] ((getExpired now s).1.map (fun it => it.second)) ∧
    (⟨b.second, tb.sequence⟩ : ActiveTimer) ∈ (runExpired alloc cb now s).cancelingTimers ∧
    (runExpired alloc cb now s).heap.read b.second = some tb ∧
    Absent (handleRead alloc cb now s) b.second ∧
    (handleRead alloc cb now s).heap.read b.second = none ∧
    (∀ c, handleRead alloc cb now { s with cancelingTimers := c }
      = handleRead alloc cb now s) := by
  obtain ⟨_, _, hlog, _, hrec, _, hfin⟩ := handleRead_spec alloc hal cb now s hwf hc
  have hs : (getExpired now s).1.Sorted (· < ·) := by
    rw [getExpired_fst]
    exact StdSet.sorted_beforeLowerBound _ _ hwf.1
  have hsub : List.Sublist [a, b] (getExpired now s).1 := by
    apply List.sublist_of_subperm_of_sorted _ _ hs
    · apply List.subperm_of_subset
      · exact List.nodup_cons.mpr ⟨by simpa using ne_of_lt hab, List.nodup_singleton b⟩
      · intro x hx
        simp only [List.mem_cons, List.mem_singleton, List.not_mem_nil, or_false] at hx
        rcases hx with rfl | rfl
        · exact ha
        · exact hb
    · exact List.sorted_cons.mpr ⟨by simpa using hab, List.sorted_singleton b⟩
  have hm := hrec b hb tb.sequence ⟨a, ha, hcancel⟩
  have hp := runExpired_passInv alloc hal cb now s hwf hc
  have habs := (hfin b hb tb htb).2 (fun hcond => hcond.2 hm)
  have hsub2 : List.Sublist [a.second, b.second]
      ((getExpired now s).1.map (fun it => it.second)) :=
    hsub.map (fun it : Entry => it.second)
  refine ⟨hlog, hsub2, hm, ?_, habs.1, habs.2,
    fun c => handleRead_with_cancelingTimers alloc cb now s c⟩
  rw [(hp.2.2 b hb).1, htb]

/-- C18 at the example state, in the pass at 1000: the callback of timer 1 (due at
500) cancels timer 2 (repeating, due at 700); timer 2 still runs, and is not
rescheduled. -/
theorem C18_sibling_cancel_witness :
    AllocFresh bumpAlloc ∧ WellFormed exampleState ∧ Consistent exampleState ∧
    (⟨500, 1⟩ : Entry) ∈ (getExpired 1000 exampleState).1 ∧
    (⟨700, 2⟩ : Entry) ∈ (getExpired 1000 exampleState).1 ∧
    (⟨500, 1⟩ : Entry) < ⟨700, 2⟩ ∧
    Action.cancel ⟨2, 2⟩ ∈ siblingCancelCallbacks 1 ∧
    (handleRead bumpAlloc siblingCancelCallbacks 1000 exampleState).runLog = [1, 2] ∧
    Absent (handleRead bumpAlloc siblingCancelCallbacks 1000 exampleState) 2 :=
  have h := C18_sibling_cancel bumpAlloc bumpAlloc_fresh siblingCancelCallbacks 1000
    exampleState exampleState_wellFormed exampleState_consistent ⟨500, 1⟩ ⟨700, 2⟩
    ⟨700, 250, 2⟩ (by decide) (by decide) (by decide) (by decide) (by decide)
  ⟨bumpAlloc_fresh, exampleState_wellFormed, exampleState_consistent, by decide, by decide,
    by decide, by decide, by decide, h.2.2.2.2.1⟩

/-! ## The asserts of the index operations -/

namespace TimerManager

theorem sizesAgree_of_consistent {s : TimerManager} (hc : Consistent s) :
    s.sizesAgree = true := by
  simp [sizesAgree, hc.1]

theorem insert_assertOk (p : TimerPtr) (s : TimerManager) (t : Timer)
    (hwf : WellFormed s) (hc : Consistent s) (ht : s.heap.read p = some t)
    (hab : Absent s p) (hok : s.assertOk = true) :
    (TimerManager.insert p s).2.assertOk = true ∧
    (StdSet.insert (⟨t.expiration, p⟩ : Entry) s.timers).2 = true ∧
    (StdSet.insert (⟨p, t.sequence⟩ : ActiveTimer) s.activeTimers).2 = true := by
  have h1 : (StdSet.insert (⟨t.expiration, p⟩ : Entry) s.timers).2 = true :=
    (StdSet.insert_new _ _).mpr (fun hm => hab.1 _ hm rfl)
  have h2 : (StdSet.insert (⟨p, t.sequence⟩ : ActiveTimer) s.activeTimers).2 = true :=
    (StdSet.insert_new _ _).mpr (fun hm => hab.2 _ hm rfl)
  have h3 : (TimerManager.insert p s).2.sizesAgree = true :=
    sizesAgree_of_consistent (insert_consistent p s t hwf hc ht)
  refine ⟨?_, h1, h2⟩
  have hexp : (TimerManager.insert p s).2.assertOk
      = ((((s.assertOk && s.sizesAgree)
          && (StdSet.insert (⟨(s.deref p).expiration, p⟩ : Entry) s.timers).2)
          && (StdSet.insert (⟨p, (s.deref p).sequence⟩ : ActiveTimer) s.activeTimers).2)
          && (TimerManager.insert p s).2.sizesAgree) := rfl
  rw [hexp, deref_of_read ht, hok, sizesAgree_of_consistent hc, h1, h2, h3]
  rfl

theorem cancelInLoop_assertOk_of_consistent (timerId : TimerId) (s : TimerManager)
    (hwf : WellFormed s) (hc : Consistent s) (hok : s.assertOk = true) :
    (cancelInLoop timerId s).assertOk = true ∧
    ((⟨timerId.timer_, timerId.sequence_⟩ : ActiveTimer) ∈ s.activeTimers →
      (StdSet.erase (⟨(s.deref timerId.timer_).expiration, timerId.timer_⟩ : Entry)
        s.timers).2 = 1) := by
  have hs := sizesAgree_of_consistent hc
  have hs' := sizesAgree_of_consistent (cancelInLoop_consistent timerId s hwf hc)
  have h0 : s.check s.sizesAgree = s := check_eq_self s _ (by rw [hok, hs]; rfl)
  have hcount : (⟨timerId.timer_, timerId.sequence_⟩ : ActiveTimer) ∈ s.activeTimers →
      (StdSet.erase (⟨(s.deref timerId.timer_).expiration, timerId.timer_⟩ : Entry)
        s.timers).2 = 1 := by
    intro hf
    obtain ⟨t, r, _, m⟩ := hc.2.2 _ hf
    simp only at r m
    rw [deref_of_read r]
    exact StdSet.erase_count _ _ hwf.1 m
  refine ⟨?_, hcount⟩
  by_cases hf : (⟨timerId.timer_, timerId.sequence_⟩ : ActiveTimer) ∈ s.activeTimers
  · have hdef : (cancelInLoop timerId s).assertOk
        = ((s.assertOk
            && ((StdSet.erase (⟨(s.deref timerId.timer_).expiration, timerId.timer_⟩ : Entry)
                s.timers).2 == 1))
            && (cancelInLoop timerId s).sizesAgree) := by
      unfold cancelInLoop
      simp only [h0, hf, if_true]
      rfl
    rw [hdef, hok, hcount hf, hs']
    rfl
  · have hdef : (cancelInLoop timerId s).assertOk
        = (s.assertOk && (cancelInLoop timerId s).sizesAgree) := by
      unfold cancelInLoop
      simp only [h0, hf, if_false]
      split <;> rfl
    rw [hdef, hok, hs']
    rfl

/-- The second loop of `getExpired`: every `erase` removes one element. -/
theorem foldl_getExpiredStep_assertOk (E : List Entry) (st : TimerManager)
    (hs : st.activeTimers.Sorted (· < ·))
    (hnd : (E.map (fun it => it.second)).Nodup)
    (hE : ∀ it ∈ E, (⟨it.second, (st.deref it.second).sequence⟩ : ActiveTimer)
      ∈ st.activeTimers) :
    (E.foldl getExpiredStep st).assertOk = st.assertOk := by
  induction E generalizing st with
  | nil => rfl
  | cons x E ih =>
    have hnd' := List.nodup_cons.mp
      (by simpa using hnd : (x.second :: E.map (fun it => it.second)).Nodup)
    have hx := hE x (List.mem_cons_self _ _)
    have hcnt : (StdSet.erase (⟨x.second, (st.deref x.second).sequence⟩ : ActiveTimer)
        st.activeTimers).2 = 1 := StdSet.erase_count _ _ hs hx
    have hstep : (getExpiredStep st x).assertOk = st.assertOk := by
      show (st.assertOk && ((StdSet.erase (⟨x.second, (st.deref x.second).sequence⟩ :
        ActiveTimer) st.activeTimers).2 == 1)) = st.assertOk
      rw [hcnt]
      simp
    rw [List.foldl_cons, ih (getExpiredStep st x) (StdSet.sorted_erase _ _ hs) hnd'.2, hstep]
    intro it hit
    have hne : it.second ≠ x.second := by
      intro heq
      exact hnd'.1 (heq ▸ List.mem_map_of_mem (fun it => it.second) hit)
    have hd : (getExpiredStep st x).deref it.second = st.deref it.second := rfl
    rw [hd]
    show _ ∈ (StdSet.erase _ st.activeTimers).1
    rw [StdSet.mem_erase]
    exact ⟨hE it (List.mem_cons_of_mem _ hit),
      fun heq => hne (congrArg ActiveTimer.first heq)⟩

theorem getExpired_assertOk (now : Timestamp) (s : TimerManager) (hwf : WellFormed s)
    (hc : Consistent s) (hv : ValidPtrs s) (hok : s.assertOk = true) :
    (getExpired now s).2.assertOk = true ∧
    (match (getExpired now s).2.timers.head? with
      | none => True
      | some e => now < e.first) := by
  have hbound : ∀ e ∈ StdSet.fromLowerBound (⟨now, UINTPTR_MAX⟩ : Entry) s.timers,
      now < e.first := by
    intro e he
    rw [StdSet.mem_fromLowerBound _ _ _ hwf.1, Entry.lt_iff] at he
    have hp := hv e he.1
    by_contra hnot
    apply he.2
    rcases lt_or_eq_of_le (not_lt.mp hnot) with h | h
    · exact Or.inl h
    · exact Or.inr ⟨h, hp⟩
  have hhead : (match (StdSet.fromLowerBound (⟨now, UINTPTR_MAX⟩ : Entry) s.timers).head? with
      | none => true
      | some e => decide (now < e.first)) = true := by
    cases hl : StdSet.fromLowerBound (⟨now, UINTPTR_MAX⟩ : Entry) s.timers with
    | nil => rfl
    | cons e rest =>
      simp only [List.head?_cons, decide_eq_true_eq]
      exact hbound e (hl ▸ List.mem_cons_self _ _)
  constructor
  · have hfold := foldl_getExpiredStep_assertOk (getExpired now s).1
      { (s.check s.sizesAgree).check (match
          (StdSet.fromLowerBound (⟨now, UINTPTR_MAX⟩ : Entry) s.timers).head? with
          | none => true
          | some e => decide (now < e.first)) with
        timers := StdSet.fromLowerBound (⟨now, UINTPTR_MAX⟩ : Entry) s.timers }
      hwf.2.1 (getExpired_nodup now s hwf hc) (by
        intro it hit
        obtain ⟨t, r, _, m⟩ := hc.2.1 it (mem_timers_of_mem_getExpired hit)
        show (⟨it.second, (s.deref it.second).sequence⟩ : ActiveTimer) ∈ s.activeTimers
        rw [deref_of_read r]
        exact m)
    have hdef : (getExpired now s).2.assertOk = _ := hfold
    rw [hdef]
    show ((s.assertOk && s.sizesAgree) && _) = true
    rw [hok, sizesAgree_of_consistent hc, hhead]
    rfl
  · rw [getExpired_timers]
    cases hl : StdSet.fromLowerBound (⟨now, UINTPTR_MAX⟩ : Entry) s.timers with
    | nil => trivial
    | cons e rest => exact hbound e (hl ▸ List.mem_cons_self _ _)

end TimerManager

/-- C19: from a well-formed consistent state with valid timer addresses in which no
assert has tripped, every assert of the index operations holds. In `insert` of an
allocated timer that is in neither index both insertions report a new element; in
`cancelInLoop` `timers_.erase` removes exactly 1 entry when the TimerId is found; in
`getExpired` every `activeTimers_.erase` removes exactly 1 entry and the entry at the
sweep bound, if there is one, has an expiration strictly greater than `now`; and the
size asserts hold: the assert record stays true through each operation. -/
theorem C19_asserts_hold (s : TimerManager) (hwf : WellFormed s) (hc : Consistent s)
    (hv : ValidPtrs s) (hok : s.assertOk = true) :
    (∀ p t, s.heap.read p = some t → Absent s p →
      (TimerManager.insert p s).2.assertOk = true ∧
      (StdSet.insert (⟨t.expiration, p⟩ : Entry) s.timers).2 = true ∧
      (StdSet.insert (⟨p, t.sequence⟩ : ActiveTimer) s.activeTimers).2 = true) ∧
    (∀ timerId, (cancelInLoop timerId s).assertOk = true ∧
      ((⟨timerId.timer_, timerId.sequence_⟩ : ActiveTimer) ∈ s.activeTimers →
        (StdSet.erase (⟨(s.deref timerId.timer_).expiration, timerId.timer_⟩ : Entry)
          s.timers).2 = 1)) ∧
    (∀ now, (getExpired now s).2.assertOk = true ∧
      (match (getExpired now s).2.timers.head? with
        | none => True
        | some e => now < e.first)) :=
  ⟨fun p t ht hab => insert_assertOk p s t hwf hc ht hab hok,
    fun timerId => cancelInLoop_assertOk_of_consistent timerId s hwf hc hok,
    fun now => getExpired_assertOk now s hwf hc hv hok⟩

/-- C19 at the example state: inserting the pending timer 4, cancelling timer 3, and
the sweep at 700 trip no assert. -/
theorem C19_asserts_hold_witness :
    WellFormed exampleState ∧ Consistent exampleState ∧ ValidPtrs exampleState ∧
    exampleState.assertOk = true ∧
    exampleState.heap.read 4 = some ⟨900, 0, 4⟩ ∧ Absent exampleState 4 ∧
    (TimerManager.insert 4 exampleState).2.assertOk = true ∧
    (cancelInLoop ⟨3, 3⟩ exampleState).assertOk = true ∧
    (getExpired 700 exampleState).2.assertOk = true :=
  have h := C19_asserts_hold exampleState exampleState_wellFormed exampleState_consistent
    (by decide) (by decide)
  ⟨exampleState_wellFormed, exampleState_consistent, by decide, by decide, by decide,
    by decide, (h.1 4 ⟨900, 0, 4⟩ (by decide) (by decide)).1, (h.2.1 ⟨3, 3⟩).1,
    (h.2.2 700).1⟩

/-! ## LogFile and howMuchTimeFromNow -/

theorem wrapInt32_of_range (x : Int) (h1 : -2 ^ 31 ≤ x) (h2 : x < 2 ^ 31) :
    wrapInt32 x = x := by
  unfold wrapInt32
  omega

theorem wrapInt64_of_range (x : Int) (h1 : -2 ^ 63 ≤ x) (h2 : x < 2 ^ 63) :
    wrapInt64 x = x := by
  unfold wrapInt64
  omega

namespace LogFile

/-- One `append_unlocked` with the counter below `N`. -/
theorem append_unlocked_step (s : LogFile) (logline : List Byte)
    (h1 : 0 ≤ s.count) (h2 : s.count < s.flushEveryN) (h3 : s.flushEveryN < 2 ^ 31) :
    append_unlocked s logline
      = if s.count + 1 = s.flushEveryN then
          { s with count := 0,
                   file := s.file ++ [FileEvent.append logline, FileEvent.flush] }
        else
          { s with count := s.count + 1, file := s.file ++ [FileEvent.append logline] } := by
  have hw : wrapInt32 (s.count + 1) = s.count + 1 :=
    wrapInt32_of_range _ (by omega) (by omega)
  unfold append_unlocked
  simp only [hw]
  by_cases h : s.count + 1 = s.flushEveryN
  · have hge : s.count + 1 ≥ s.flushEveryN := by omega
    rw [if_pos hge, if_pos h]
    simp only [List.append_assoc, List.singleton_append]
  · have hge : ¬ s.count + 1 ≥ s.flushEveryN := by omega
    rw [if_neg hge, if_neg h]

theorem foldl_append_unlocked (N : Int) (h1 : 1 ≤ N) (h2 : N < 2 ^ 31)
    (lines : List (List Byte)) (k : Nat) (s : LogFile) (hN : s.flushEveryN = N)
    (hk : s.count = (k : Int) % N) :
    (lines.foldl append_unlocked s).file = s.file ++ flushEveryNPolicy N k lines ∧
    (lines.foldl append_unlocked s).count = ((k + lines.length : Nat) : Int) % N ∧
    (lines.foldl append_unlocked s).flushEveryN = N := by
  induction lines generalizing k s with
  | nil => simp [flushEveryNPolicy, hk, hN]
  | cons logline rest ih =>
    have hpos : (0 : Int) < N := by omega
    have hc0 : 0 ≤ s.count := hk ▸ Int.emod_nonneg _ (ne_of_gt hpos)
    have hcN : s.count < N := hk ▸ Int.emod_lt_of_pos _ hpos
    have hmod : ((k : Int) + 1) % N = (s.count + 1) % N := by
      rw [hk, Int.emod_add_cancel_right]
      exact (Int.emod_emod_of_dvd _ (dvd_refl N)).symm
    rw [List.foldl_cons, append_unlocked_step s logline hc0 (hN ▸ hcN) (hN ▸ h2)]
    by_cases h : s.count + 1 = s.flushEveryN
    · have hz : ((k : Int) + 1) % N = 0 := by
        rw [hmod, h, hN, Int.emod_self]
      rw [if_pos h]
      obtain ⟨i1, i2, i3⟩ := ih (k + 1)
        { s with count := 0,
                 file := s.file ++ [FileEvent.append logline, FileEvent.flush] } hN
        (by simpa using hz.symm)
      refine ⟨?_, ?_, i3⟩
      · rw [i1]
        simp only [flushEveryNPolicy, hz, if_true, List.append_assoc]
      · rw [i2]
        congr 2
        simp only [List.length_cons]
        omega
    · have hlt : s.count + 1 < N := by
        rw [hN] at h
        omega
      have hnz : ((k : Int) + 1) % N = s.count + 1 := by
        rw [hmod]
        exact Int.emod_eq_of_lt (by omega) hlt
      have hne : ¬ ((k : Int) + 1) % N = 0 := by
        rw [hnz]
        omega
      rw [if_neg h]
      obtain ⟨i1, i2, i3⟩ := ih (k + 1)
        { s with count := s.count + 1, file := s.file ++ [FileEvent.append logline] } hN
        (by simpa using hnz.symm)
      refine ⟨?_, ?_, i3⟩
      · rw [i1]
        simp only [flushEveryNPolicy, hne, if_false, List.append_assoc]
      · rw [i2]
        congr 2
        simp only [List.length_cons]
        omega

theorem appended_policy (N : Int) (lines : List (List Byte)) (k : Nat) :
    appended (flushEveryNPolicy N k lines) = lines := by
  induction lines generalizing k with
  | nil => rfl
  | cons logline rest ih =>
    by_cases h : ((k : Int) + 1) % N = 0
    · have : flushEveryNPolicy N k (logline :: rest)
          = FileEvent.append logline :: FileEvent.flush :: flushEveryNPolicy N (k + 1) rest := by
        simp only [flushEveryNPolicy, h, if_true, List.cons_append, List.nil_append]
      rw [this]
      simp only [appended, ih]
    · have : flushEveryNPolicy N k (logline :: rest)
          = FileEvent.append logline :: flushEveryNPolicy N (k + 1) rest := by
        simp only [flushEveryNPolicy, h, if_false, List.cons_append, List.nil_append]
      rw [this]
      simp only [appended, ih]

end LogFile

/-- C16: the flush-every-N policy of LogFile. From a fresh LogFile with
`flushEveryN = N`, `1 <= N` (an `int`), after any sequence of `append_unlocked` calls
the calls made on the file are those of the policy: every line appended once, in
order, and a flush right after the append number `j` exactly when `N` divides `j`; and
the counter is the number of appends modulo `N`, so `0 <= count < N`. -/
theorem C16_flush_every_N (N : Int) (h1 : 1 ≤ N) (h2 : N < 2 ^ 31)
    (lines : List (List Byte)) :
    (lines.foldl LogFile.append_unlocked (LogFile.create N)).file
      = LogFile.flushEveryNPolicy N 0 lines ∧
    LogFile.appended (lines.foldl LogFile.append_unlocked (LogFile.create N)).file = lines ∧
    (lines.foldl LogFile.append_unlocked (LogFile.create N)).count
      = (lines.length : Int) % N ∧
    0 ≤ (lines.foldl LogFile.append_unlocked (LogFile.create N)).count ∧
    (lines.foldl LogFile.append_unlocked (LogFile.create N)).count < N := by
  obtain ⟨f1, f2, _⟩ := LogFile.foldl_append_unlocked N h1 h2 lines 0 (LogFile.create N) rfl
    (by simp [LogFile.create])
  have hpos : (0 : Int) < N := by omega
  have hf : (lines.foldl LogFile.append_unlocked (LogFile.create N)).file
      = LogFile.flushEveryNPolicy N 0 lines := by
    rw [f1]
    rfl
  have hcnt : (lines.foldl LogFile.append_unlocked (LogFile.create N)).count
      = (lines.length : Int) % N := by
    rw [f2]
    simp
  refine ⟨hf, ?_, hcnt, ?_, ?_⟩
  · rw [hf]
    exact LogFile.appended_policy N lines 0
  · rw [hcnt]
    exact Int.emod_nonneg _ (ne_of_gt hpos)
  · rw [hcnt]
    exact Int.emod_lt_of_pos _ hpos

/-- C16 with `N = 2` and five lines: the file is flushed after the second and after
the fourth append, and the counter ends at 1. -/
theorem C16_flush_every_N_witness :
    (1 : Int) ≤ 2 ∧ (2 : Int) < 2 ^ 31 ∧
    (([[1], [2], [3], [4], [5]] : List (List Byte)).foldl LogFile.append_unlocked
        (LogFile.create 2)).file
      = [FileEvent.append [1], FileEvent.append [2], FileEvent.flush, FileEvent.append [3],
          FileEvent.append [4], FileEvent.flush, FileEvent.append [5]] ∧
    (([[1], [2], [3], [4], [5]] : List (List Byte)).foldl LogFile.append_unlocked
        (LogFile.create 2)).count = 1 :=
  have h := C16_flush_every_N 2 (by decide) (by decide) [[1], [2], [3], [4], [5]]
  ⟨by decide, by decide, h.1.trans (by decide), h.2.2.1.trans (by decide)⟩

/-- C20: the arithmetic of `howMuchTimeFromNow`. For an expiration `when` and a
current time `now` in microseconds whose difference is an `int64_t`, with
`d = max(100, when - now)`: `tv_sec = d / 1,000,000`,
`tv_nsec = (d % 1,000,000) * 1000`, `0 <= tv_nsec < 1,000,000,000`,
`tv_sec * 1,000,000 + tv_nsec / 1000 = d`, and `d >= 100`: the delay programmed is
never less than 100 microseconds, so the `it_value` that `resetTimerfd` passes is never
zero, also when the expiration is in the past. -/
theorem C20_howMuchTimeFromNow_arithmetic (when now : Int)
    (h1 : -2 ^ 63 ≤ when - now) (h2 : when - now < 2 ^ 63) :
    (howMuchTimeFromNow when now).tv_sec = max 100 (when - now) / 1000000 ∧
    (howMuchTimeFromNow when now).tv_nsec = max 100 (when - now) % 1000000 * 1000 ∧
    0 ≤ (howMuchTimeFromNow when now).tv_nsec ∧
    (howMuchTimeFromNow when now).tv_nsec < 1000000000 ∧
    (howMuchTimeFromNow when now).tv_sec * 1000000
      + (howMuchTimeFromNow when now).tv_nsec / 1000 = max 100 (when - now) ∧
    100 ≤ max 100 (when - now) ∧
    (resetTimerfdValue when now).it_value ≠ ⟨0, 0⟩ ∧
    (resetTimerfdValue when now).it_interval = ⟨0, 0⟩ := by
  have hw := wrapInt64_of_range (when - now) h1 h2
  have hm : (if wrapInt64 (when - now) < 100 then 100 else wrapInt64 (when - now))
      = max 100 (when - now) := by
    rw [hw]
    by_cases hc : when - now < 100
    · rw [if_pos hc, max_eq_left (show when - now ≤ 100 by omega)]
    · rw [if_neg hc, max_eq_right (show 100 ≤ when - now by omega)]
  have hd : (100 : Int) ≤ max 100 (when - now) := le_max_left _ _
  have hlt : max 100 (when - now) < 2 ^ 63 := max_lt (by norm_num) h2
  have hsec : (howMuchTimeFromNow when now).tv_sec = max 100 (when - now) / 1000000 := by
    show (if wrapInt64 (when - now) < 100 then 100 else wrapInt64 (when - now)).tdiv
      KMicroSecondsPerSecond = _
    rw [hm, Int.tdiv_eq_ediv (by omega) (by decide)]
    rfl
  have hns : (howMuchTimeFromNow when now).tv_nsec
      = max 100 (when - now) % 1000000 * 1000 := by
    show wrapInt64 ((if wrapInt64 (when - now) < 100 then 100
      else wrapInt64 (when - now)).tmod KMicroSecondsPerSecond * 1000) = _
    rw [hm, Int.tmod_eq_emod (by omega) (by decide)]
    have he : max 100 (when - now) % KMicroSecondsPerSecond
        = max 100 (when - now) % 1000000 := rfl
    rw [he]
    apply wrapInt64_of_range <;> omega
  refine ⟨hsec, hns, ?_, ?_, ?_, hd, ?_, rfl⟩
  · rw [hns]; omega
  · rw [hns]; omega
  · rw [hsec, hns]; omega
  · intro h
    have h3 : (howMuchTimeFromNow when now).tv_sec = 0 := congrArg Timespec.tv_sec h
    have h4 : (howMuchTimeFromNow when now).tv_nsec = 0 := congrArg Timespec.tv_nsec h
    rw [hsec] at h3
    rw [hns] at h4
    omega

/-- C20 for an expiration 2.5 seconds ahead and for one 300 microseconds in the past. -/
theorem C20_howMuchTimeFromNow_arithmetic_witness :
    (-2 ^ 63 : Int) ≤ 3500000 - 1000000 ∧ (3500000 - 1000000 : Int) < 2 ^ 63 ∧
    howMuchTimeFromNow 3500000 1000000 = ⟨2, 500000000⟩ ∧
    howMuchTimeFromNow 700 1000 = ⟨0, 100000⟩ ∧
    (howMuchTimeFromNow 3500000 1000000).tv_sec * 1000000
      + (howMuchTimeFromNow 3500000 1000000).tv_nsec / 1000 = max 100 (3500000 - 1000000) :=
  ⟨by decide, by decide, by decide, by decide,
    (C20_howMuchTimeFromNow_arithmetic 3500000 1000000 (by decide) (by decide)).2.2.2.2.1⟩

/-! ## The timer descriptor and the earliest expiration -/

namespace TimerManager

theorem cancelInLoop_timers_subset (timerId : TimerId) (s : TimerManager) (e : Entry)
    (he : e ∈ (cancelInLoop timerId s).timers) : e ∈ s.timers := by
  by_cases hf : (⟨timerId.timer_, timerId.sequence_⟩ : ActiveTimer) ∈ s.activeTimers
  · rw [(cancelInLoop_found timerId s hf).1, StdSet.mem_erase] at he
    exact he.1
  · rw [(cancelInLoop_not_found timerId s hf).1] at he
    exact he

theorem insert_fst (p : TimerPtr) (s : TimerManager) :
    (TimerManager.insert p s).1
      = (match s.timers.head? with
          | none => true
          | some it => decide ((s.deref p).expiration < it.first)) := rfl

/-- The calls `addTimerInLoop` makes on the descriptor. -/
theorem addTimerInLoop_timerfdLog (p : TimerPtr) (s : TimerManager) :
    (addTimerInLoop p s).timerfdLog
      = if (TimerManager.insert p s).1 = true then s.timerfdLog ++ [(s.deref p).expiration]
        else s.timerfdLog := by
  unfold addTimerInLoop
  simp only
  split <;> rfl

/-- The entries of `timers_` after `addTimer` on the loop thread. -/
theorem mem_addTimer_timers (alloc : Heap → TimerPtr) (w : Timestamp) (i : Int)
    (s : TimerManager) (e : Entry) :
    e ∈ (addTimer alloc w i s).2.timers ↔ e = ⟨w, alloc s.heap⟩ ∨ e ∈ s.timers := by
  have hd : (({ s with numCreated := s.numCreated + 1 } : TimerManager).write (alloc s.heap)
      ⟨w, i, s.numCreated + 1⟩).deref (alloc s.heap) = ⟨w, i, s.numCreated + 1⟩ :=
    deref_of_read (Heap.read_write_same _ _ _)
  show e ∈ (addTimerInLoop (alloc s.heap) _).timers ↔ _
  rw [addTimerInLoop_timers, insert_timers, StdSet.mem_insert, hd]
  exact Iff.rfl

/-- The calls `addTimer` on the loop thread makes on the descriptor: one, for the new
expiration, if `timers_` was empty or the new expiration is earlier than that of the
first entry; none otherwise. -/
theorem addTimer_timerfdLog (alloc : Heap → TimerPtr) (w : Timestamp) (i : Int)
    (s : TimerManager) :
    (addTimer alloc w i s).2.timerfdLog
      = if (match s.timers.head? with
            | none => true
            | some it => decide (w < it.first)) = true
        then s.timerfdLog ++ [w] else s.timerfdLog := by
  have hd : (({ s with numCreated := s.numCreated + 1 } : TimerManager).write (alloc s.heap)
      ⟨w, i, s.numCreated + 1⟩).deref (alloc s.heap) = ⟨w, i, s.numCreated + 1⟩ :=
    deref_of_read (Heap.read_write_same _ _ _)
  show (addTimerInLoop (alloc s.heap) _).timerfdLog = _
  rw [addTimerInLoop_timerfdLog, insert_fst, hd]
  rfl

end TimerManager

namespace Reactor

open TimerManager

theorem programmed_same (before after : TimerManager) (clock : Timestamp)
    (armed : Option Armed) (h : after.timerfdLog = before.timerfdLog) :
    programmed before after clock armed = armed := by
  simp [programmed, h]

theorem programmed_last (before after : TimerManager) (clock : Timestamp)
    (armed : Option Armed) (l : List Timestamp) (d : Timestamp)
    (hl : before.timerfdLog.length ≤ l.length) (h : after.timerfdLog = l ++ [d]) :
    programmed before after clock armed = some ⟨d, clock⟩ := by
  unfold programmed
  rw [h, List.drop_append_of_le_length hl, List.getLast?_append]
  simp

/-- The delay `resetTimerfd` asks for, in microseconds, when the difference of the
expiration and the clock is an `int64_t`. -/
theorem microseconds_resetTimerfdValue (expiration clock : Int)
    (h1 : -2 ^ 63 ≤ expiration - clock) (h2 : expiration - clock < 2 ^ 63) :
    (resetTimerfdValue expiration clock).it_value.microseconds
      = max 100 (expiration - clock) := by
  have hw := wrapInt64_of_range (expiration - clock) h1 h2
  have hm : (if wrapInt64 (expiration - clock) < 100 then 100
      else wrapInt64 (expiration - clock)) = max 100 (expiration - clock) := by
    rw [hw]
    by_cases hc : expiration - clock < 100
    · rw [if_pos hc, max_eq_left (show expiration - clock ≤ 100 by omega)]
    · rw [if_neg hc, max_eq_right (show 100 ≤ expiration - clock by omega)]
  have hd : (100 : Int) ≤ max 100 (expiration - clock) := le_max_left _ _
  have hlt : max 100 (expiration - clock) < 2 ^ 63 := max_lt (by norm_num) h2
  have hsec : (howMuchTimeFromNow expiration clock).tv_sec
      = max 100 (expiration - clock) / 1000000 := by
    show (if wrapInt64 (expiration - clock) < 100 then 100
      else wrapInt64 (expiration - clock)).tdiv KMicroSecondsPerSecond = _
    rw [hm, Int.tdiv_eq_ediv (by omega) (by decide)]
    rfl
  have hns : (howMuchTimeFromNow expiration clock).tv_nsec
      = max 100 (expiration - clock) % 1000000 * 1000 := by
    show wrapInt64 ((if wrapInt64 (expiration - clock) < 100 then 100
      else wrapInt64 (expiration - clock)).tmod KMicroSecondsPerSecond * 1000) = _
    rw [hm, Int.tmod_eq_emod (by omega) (by decide)]
    have he : max 100 (expiration - clock) % KMicroSecondsPerSecond
        = max 100 (expiration - clock) % 1000000 := rfl
    rw [he]
    apply wrapInt64_of_range <;> omega
  show (howMuchTimeFromNow expiration clock).tv_sec * 1000000
    + (howMuchTimeFromNow expiration clock).tv_nsec / 1000 = _
  rw [hsec, hns]
  omega

theorem add_max_delay (x c : Int) : c + max 100 (x - c) = max x (c + 100) := by
  rcases le_total (100 : Int) (x - c) with h | h
  · rw [max_eq_right h, max_eq_left (show c + 100 ≤ x by omega)]
    omega
  · rw [max_eq_left h, max_eq_right (show x ≤ c + 100 by omega)]

/-- The time at which an armed descriptor expires: the expiration asked for, or 100
microseconds after the call if that is later. -/
theorem deadline_eq (a : Armed) (h1 : -2 ^ 63 ≤ a.expiration - a.clock)
    (h2 : a.expiration - a.clock < 2 ^ 63) :
    a.deadline = max a.expiration (a.clock + 100) := by
  unfold Armed.deadline
  rw [microseconds_resetTimerfdValue a.expiration a.clock h1 h2]
  exact add_max_delay a.expiration a.clock

/-- An action of a callback that adds only valid timers keeps all timers valid, and
never shortens the log of the descriptor. -/
theorem exec_valid (alloc : Heap → TimerPtr) (s : TimerManager) (act : Action)
    (ha : ActionValid act) (hv : AllValid s) :
    AllValid (exec alloc s act) ∧
    s.timerfdLog.length ≤ (exec alloc s act).timerfdLog.length := by
  cases act with
  | cancel timerId =>
    refine ⟨fun e he => hv e (cancelInLoop_timers_subset timerId s e he), ?_⟩
    show _ ≤ (cancelInLoop timerId s).timerfdLog.length
    rw [cancelInLoop_timerfdLog]
  | addTimer w i =>
    constructor
    · intro e he
      rcases (mem_addTimer_timers alloc w i s e).mp he with rfl | h
      · exact ha
      · exact hv e h
    · show _ ≤ (addTimer alloc w i s).2.timerfdLog.length
      rw [addTimer_timerfdLog]
      split
      · simp
      · exact le_refl _

theorem foldl_exec_valid (alloc : Heap → TimerPtr) (acts : List Action) (s : TimerManager)
    (ha : ∀ act ∈ acts, ActionValid act) (hv : AllValid s) :
    AllValid (acts.foldl (exec alloc) s) ∧
    s.timerfdLog.length ≤ (acts.foldl (exec alloc) s).timerfdLog.length := by
  induction acts generalizing s with
  | nil => exact ⟨hv, le_refl _⟩
  | cons act acts ih =>
    obtain ⟨e1, e2⟩ := exec_valid alloc s act (ha act (List.mem_cons_self _ _)) hv
    obtain ⟨i1, i2⟩ := ih (exec alloc s act)
      (fun a h => ha a (List.mem_cons_of_mem _ h)) e1
    exact ⟨i1, le_trans e2 i2⟩

theorem foldl_run_valid (alloc : Heap → TimerPtr) (cb : TimerPtr → List Action)
    (hcb : ∀ p, ∀ act ∈ cb p, ActionValid act) (L : List Entry) (s : TimerManager)
    (hv : AllValid s) :
    AllValid (L.foldl (run alloc cb) s) ∧
    s.timerfdLog.length ≤ (L.foldl (run alloc cb) s).timerfdLog.length := by
  induction L generalizing s with
  | nil => exact ⟨hv, le_refl _⟩
  | cons x L ih =>
    have h0 : AllValid { s with runLog := s.runLog ++ [x.second] } := hv
    obtain ⟨e1, e2⟩ := foldl_exec_valid alloc (cb x.second) _ (hcb x.second) h0
    obtain ⟨i1, i2⟩ := ih (run alloc cb s x) e1
    exact ⟨i1, le_trans e2 i2⟩

/-- The state after the callbacks of a pass: all timers valid, the log not shorter. -/
theorem runExpired_valid (alloc : Heap → TimerPtr) (cb : TimerPtr → List Action)
    (hcb : ∀ p, ∀ act ∈ cb p, ActionValid act) (now : Timestamp) (s : TimerManager)
    (hv : AllValid s) :
    AllValid (runExpired alloc cb now s) ∧
    s.timerfdLog.length ≤ (runExpired alloc cb now s).timerfdLog.length := by
  obtain ⟨f1, f2⟩ := foldl_run_valid alloc cb hcb (getExpired now s).1
    ({ (getExpired now s).2 with callingExpiredTimers := true, cancelingTimers := [] })
    (fun e he => hv e (mem_timers_of_mem_rest he))
  refine ⟨f1, ?_⟩
  have : (getExpired now s).2.timerfdLog.length ≤ (runExpired alloc cb now s).timerfdLog.length :=
    f2
  rw [getExpired_timerfdLog] at this
  exact this

/-- The call `reset` makes on the descriptor at the end of a pass. -/
theorem handleRead_timerfdLog (alloc : Heap → TimerPtr) (hal : AllocFresh alloc)
    (cb : TimerPtr → List Action) (now : Timestamp) (s : TimerManager)
    (hwf : WellFormed s) (hc : Consistent s) (e : Entry) (rest : List Entry)
    (hl : (handleRead alloc cb now s).timers = e :: rest) (hpos : 0 < e.first) :
    (handleRead alloc cb now s).timerfdLog
      = (runExpired alloc cb now s).timerfdLog ++ [e.first] := by
  have hp := runExpired_passInv alloc hal cb now s hwf hc
  obtain ⟨_, l2, _, l4, _⟩ := resetLoop_spec now s.heap (getExpired now s).1
    (runExpired alloc cb now s) hp.1 hp.2.1 (getExpired_nodup now s hwf hc) hp.2.2
  have ht : (handleRead alloc cb now s).timers
      = (resetLoop (getExpired now s).1 now (runExpired alloc cb now s)).timers :=
    reset_timers _ _ _
  have hdef : handleRead alloc cb now s
      = if Timestamp.valid
            (nextExpired (resetLoop (getExpired now s).1 now (runExpired alloc cb now s)))
          then resetTimerfd
            (nextExpired (resetLoop (getExpired now s).1 now (runExpired alloc cb now s)))
            (resetLoop (getExpired now s).1 now (runExpired alloc cb now s))
          else resetLoop (getExpired now s).1 now (runExpired alloc cb now s) := rfl
  rw [ht] at hl
  have hne : nextExpired (resetLoop (getExpired now s).1 now (runExpired alloc cb now s))
      = e.first := by
    obtain ⟨t, r, e1, _⟩ := l2.2.1 e (hl ▸ List.mem_cons_self _ _)
    simp only [nextExpired, hl, List.head?_cons, deref_of_read r, e1]
  have hv : Timestamp.valid e.first = true := by simpa [Timestamp.valid] using hpos
  rw [hdef, hne, if_pos hv]
  show (resetLoop (getExpired now s).1 now (runExpired alloc cb now s)).timerfdLog
    ++ [e.first] = _
  rw [l4]

/-- All timers are valid after a pass whose callbacks add only valid timers. -/
theorem handleRead_valid (alloc : Heap → TimerPtr) (hal : AllocFresh alloc)
    (cb : TimerPtr → List Action) (hcb : ∀ p, ∀ act ∈ cb p, ActionValid act)
    (now : Timestamp) (s : TimerManager) (hwf : WellFormed s) (hc : Consistent s)
    (hv : AllValid s) : AllValid (handleRead alloc cb now s) := by
  obtain ⟨_, hc', _, _, _, hsame, hfin⟩ := handleRead_spec alloc hal cb now s hwf hc
  have hrv := (runExpired_valid alloc cb hcb now s hv).1
  intro e he
  by_cases hex : ∃ it ∈ (getExpired now s).1, it.second = e.second
  · obtain ⟨it, hit, hp⟩ := hex
    have hmem := mem_timers_of_mem_getExpired hit
    obtain ⟨t, r, e1, _⟩ := hc.2.1 it hmem
    have hle : it.first ≤ now := by
      have hlt : it < (⟨now, UINTPTR_MAX⟩ : Entry) := by
        have := hit
        rw [getExpired_fst, StdSet.mem_beforeLowerBound _ _ _ hwf.1] at this
        exact this.2
      rw [Entry.lt_iff] at hlt
      rcases hlt with h | h
      · exact le_of_lt h
      · exact le_of_eq h.1
    by_cases hcond : t.repeat_ = true ∧ (⟨it.second, t.sequence⟩ : ActiveTimer)
        ∉ (runExpired alloc cb now s).cancelingTimers
    · have hpr := (hfin it hit t r).1 hcond
      have heq := hc'.entry_eq he (hp ▸ hpr.1)
      have hint : 0 < t.interval := by simpa [Timer.repeat_] using hcond.1
      have h0 : 0 < it.first := hv it hmem
      have hval : e.first = now + t.interval := by
        rw [heq]
        rfl
      rw [hval]
      have h1 : (0 : Int) < now := lt_of_lt_of_le h0 hle
      exact add_pos h1 hint
    · exact absurd hp.symm (((hfin it hit t r).2 hcond).1.1 e he)
  · have hno : ∀ it ∈ (getExpired now s).1, it.second ≠ e.second :=
      fun it hit heq => hex ⟨it, hit, heq⟩
    exact hrv e (((hsame e.second hno).1 e rfl).mp he)

/-- The invariant of the reactor: the manager is well-formed and consistent, all its
timers are valid, and the descriptor has been asked for an expiration that is early
enough. -/
theorem step_invariant (alloc : Heap → TimerPtr) (hal : AllocFresh alloc) (r : Reactor)
    (op : Op) (hop : OpValid op) (hwf : WellFormed r.manager) (hc : Consistent r.manager)
    (hv : AllValid r.manager) (hd : RequestOk r) :
    WellFormed (step alloc r op).manager ∧ Consistent (step alloc r op).manager ∧
    AllValid (step alloc r op).manager ∧ RequestOk (step alloc r op) := by
  cases op with
  | addTimer w i clock =>
    have hpi : PassInv [] r.manager.heap r.manager := ⟨hwf, hc, fun it hit => by simp at hit⟩
    have hpi' := exec_passInv alloc hal [] r.manager.heap r.manager (Action.addTimer w i) hpi
    have hval := (exec_valid alloc r.manager (Action.addTimer w i) hop hv).1
    refine ⟨hpi'.1, hpi'.2.1, hval, ?_⟩
    intro _
    show ∃ a, programmed r.manager (addTimer alloc w i r.manager).2 clock r.armed = some a ∧
      ∀ e ∈ (addTimer alloc w i r.manager).2.timers, a.expiration ≤ e.first
    have hlog := addTimer_timerfdLog alloc w i r.manager
    cases hl : r.manager.timers with
    | nil =>
      rw [hl] at hlog
      refine ⟨⟨w, clock⟩,
        programmed_last _ _ _ _ r.manager.timerfdLog w (le_refl _) hlog, ?_⟩
      intro e he
      rcases (mem_addTimer_timers alloc w i r.manager e).mp he with rfl | h
      · exact le_refl _
      · rw [hl] at h
        simp at h
    | cons e0 rest =>
      rw [hl] at hlog
      simp only [List.head?_cons, decide_eq_true_eq] at hlog
      have hmin := head_earliest hwf.1 hl
      by_cases hlt : w < e0.first
      · rw [if_pos hlt] at hlog
        refine ⟨⟨w, clock⟩,
          programmed_last _ _ _ _ r.manager.timerfdLog w (le_refl _) hlog, ?_⟩
        intro e he
        rcases (mem_addTimer_timers alloc w i r.manager e).mp he with rfl | h
        · exact le_refl _
        · exact le_of_lt (lt_of_lt_of_le hlt (hmin e h))
      · rw [if_neg hlt] at hlog
        obtain ⟨d, hd1, hd2⟩ := hd (by rw [hl]; simp)
        refine ⟨d, by rw [programmed_same _ _ _ _ hlog]; exact hd1, ?_⟩
        intro e he
        rcases (mem_addTimer_timers alloc w i r.manager e).mp he with rfl | h
        · exact le_trans (hd2 e0 (hl ▸ List.mem_cons_self _ _)) (not_lt.mp hlt)
        · exact hd2 e h
  | cancel timerId =>
    refine ⟨cancelInLoop_wellFormed timerId r.manager hwf,
      cancelInLoop_consistent timerId r.manager hwf hc,
      fun e he => hv e (cancelInLoop_timers_subset timerId r.manager e he), ?_⟩
    intro hne
    show ∃ a, programmed r.manager (cancelInLoop timerId r.manager) 0 r.armed = some a ∧
      ∀ e ∈ (cancelInLoop timerId r.manager).timers, a.expiration ≤ e.first
    have hne' : r.manager.timers ≠ [] := by
      intro h
      apply hne
      cases hl : (cancelInLoop timerId r.manager).timers with
      | nil => exact hl
      | cons e rest =>
        have := cancelInLoop_timers_subset timerId r.manager e (hl ▸ List.mem_cons_self _ _)
        rw [h] at this
        simp at this
    obtain ⟨d, hd1, hd2⟩ := hd hne'
    refine ⟨d, ?_, fun e he => hd2 e (cancelInLoop_timers_subset timerId r.manager e he)⟩
    rw [programmed_same _ _ _ _ (cancelInLoop_timerfdLog timerId r.manager)]
    exact hd1
  | pass cb now clock =>
    obtain ⟨hwf', hc', _⟩ := handleRead_spec alloc hal cb now r.manager hwf hc
    have hval := handleRead_valid alloc hal cb hop now r.manager hwf hc hv
    refine ⟨hwf', hc', hval, ?_⟩
    intro hne
    show ∃ a, programmed r.manager (handleRead alloc cb now r.manager) clock none = some a ∧
      ∀ e ∈ (handleRead alloc cb now r.manager).timers, a.expiration ≤ e.first
    cases hl : (handleRead alloc cb now r.manager).timers with
    | nil => exact absurd hl hne
    | cons e0 rest =>
      have hpos : 0 < e0.first := hval e0 (hl ▸ List.mem_cons_self _ _)
      have hlog := handleRead_timerfdLog alloc hal cb now r.manager hwf hc e0 rest hl hpos
      have hlen := (runExpired_valid alloc cb hop now r.manager hv).2
      refine ⟨⟨e0.first, clock⟩, programmed_last _ _ _ _ _ _ hlen hlog, ?_⟩
      intro e he
      exact head_earliest hwf'.1 hl e (hl ▸ he)

theorem foldl_step_invariant (alloc : Heap → TimerPtr) (hal : AllocFresh alloc)
    (ops : List Op) (r : Reactor) (hops : ∀ op ∈ ops, OpValid op)
    (hwf : WellFormed r.manager) (hc : Consistent r.manager)
    (hv : AllValid r.manager) (hd : RequestOk r) :
    WellFormed (ops.foldl (step alloc) r).manager ∧
    Consistent (ops.foldl (step alloc) r).manager ∧
    AllValid (ops.foldl (step alloc) r).manager ∧ RequestOk (ops.foldl (step alloc) r) := by
  induction ops generalizing r with
  | nil => exact ⟨hwf, hc, hv, hd⟩
  | cons op ops ih =>
    obtain ⟨s1, s2, s3, s4⟩ := step_invariant alloc hal r op
      (hops op (List.mem_cons_self _ _)) hwf hc hv hd
    exact ih (step alloc r op) (fun o h => hops o (List.mem_cons_of_mem _ h)) s1 s2 s3 s4

end Reactor

/-- C17, as stated, fails: the descriptor is asked for a delay relative to the time of
the call, of 100 microseconds at least. A timer due at 1050 that is added at time 1000
is valid, and the descriptor is programmed for it with a delay of 100 microseconds: it
expires at 1100, later than the only expiration in `timers_`. -/
theorem C17_deadline_after_expiration :
    (∀ op ∈ nearOps, Reactor.OpValid op) ∧
    (nearOps.foldl (Reactor.step bumpAlloc) Reactor.init).manager.timers = [⟨1050, 1⟩] ∧
    (nearOps.foldl (Reactor.step bumpAlloc) Reactor.init).armed = some ⟨1050, 1000⟩ ∧
    (resetTimerfdValue 1050 1000).it_value = ⟨0, 100000⟩ ∧
    Armed.deadline ⟨1050, 1000⟩ = 1100 ∧
    ¬ Reactor.DeadlineOk (nearOps.foldl (Reactor.step bumpAlloc) Reactor.init) := by
  refine ⟨?_, by decide, by decide, by decide, by decide, by decide⟩
  intro op hop
  simp only [nearOps, List.mem_singleton] at hop
  subst hop
  show (0 : Int) < 1050
  decide

/-- C17, amended. With an allocator that returns free addresses, after any sequence of
`addTimer` (on the loop thread: `new Timer` and `addTimerInLoop`), `cancelInLoop` and
complete firing passes from the start, in which every timer added, also by a callback,
has a valid (positive) expiration: all timers in `timers_` have a valid expiration, and
if `timers_` is not empty the descriptor is armed, the expiration last handed to
`resetTimerfd` being no later than any expiration in `timers_`. The descriptor expires
at that expiration, or 100 microseconds after the `resetTimerfd` call if that is later
(the difference of the expiration and the clock being an `int64_t`), so no later than the
later of the earliest expiration in `timers_` and 100 microseconds after that call. And
`cancelInLoop` makes no `timerfd_settime` call: it leaves the descriptor as it was. -/
theorem C17_descriptor_request_invariant (alloc : Heap → TimerPtr) (hal : AllocFresh alloc)
    (ops : List Op) (hops : ∀ op ∈ ops, Reactor.OpValid op) :
    Reactor.RequestOk (ops.foldl (Reactor.step alloc) Reactor.init) ∧
    Reactor.AllValid (ops.foldl (Reactor.step alloc) Reactor.init).manager ∧
    (∀ a, (ops.foldl (Reactor.step alloc) Reactor.init).armed = some a →
      -2 ^ 63 ≤ a.expiration - a.clock → a.expiration - a.clock < 2 ^ 63 →
      a.deadline = max a.expiration (a.clock + 100) ∧
      ∀ e ∈ (ops.foldl (Reactor.step alloc) Reactor.init).manager.timers,
        a.deadline ≤ max e.first (a.clock + 100)) ∧
    (∀ (r : Reactor) (timerId : TimerId),
      (Reactor.step alloc r (Op.cancel timerId)).armed = r.armed ∧
      (cancelInLoop timerId r.manager).timerfdLog = r.manager.timerfdLog) := by
  have hwf : WellFormed Reactor.init.manager := by decide
  have hc : Consistent Reactor.init.manager := consistent_of_check _ (by decide)
  have hv : Reactor.AllValid Reactor.init.manager := by
    intro e he
    exact absurd he (List.not_mem_nil e)
  have hd : Reactor.RequestOk Reactor.init := fun hne => absurd rfl hne
  obtain ⟨_, _, f3, f4⟩ := Reactor.foldl_step_invariant alloc hal ops Reactor.init hops
    hwf hc hv hd
  refine ⟨f4, f3, ?_, fun r timerId => ⟨?_, cancelInLoop_timerfdLog timerId r.manager⟩⟩
  · intro a ha h1 h2
    have hdl := Reactor.deadline_eq a h1 h2
    refine ⟨hdl, fun e he => ?_⟩
    obtain ⟨a', ha', hall⟩ := f4 (List.ne_nil_of_mem he)
    rw [ha] at ha'
    cases ha'
    rw [hdl]
    exact max_le_max (hall e he) (le_refl _)
  · exact Reactor.programmed_same _ _ _ _ (cancelInLoop_timerfdLog timerId r.manager)

/-- C17 amended, for the example operations: after the cancel of the timer due at 300
the descriptor is still programmed for 300 and the timer due at 500 remains; after the
pass at 350 the descriptor is programmed for 500, at time 352, and expires at 500. -/
theorem C17_descriptor_request_invariant_witness :
    AllocFresh bumpAlloc ∧ (∀ op ∈ exampleOps, Reactor.OpValid op) ∧
    Reactor.RequestOk (exampleOps.foldl (Reactor.step bumpAlloc) Reactor.init) ∧
    ((exampleOps.take 3).foldl (Reactor.step bumpAlloc) Reactor.init).armed
      = some ⟨300, 110⟩ ∧
    (exampleOps.foldl (Reactor.step bumpAlloc) Reactor.init).manager.timers = [⟨500, 1⟩] ∧
    (exampleOps.foldl (Reactor.step bumpAlloc) Reactor.init).armed = some ⟨500, 352⟩ ∧
    Armed.deadline ⟨500, 352⟩ = 500 :=
  have hops : ∀ op ∈ exampleOps, Reactor.OpValid op := by
    intro op hop
    simp only [exampleOps, List.mem_cons, List.mem_singleton, List.not_mem_nil,
      or_false] at hop
    rcases hop with rfl | rfl | rfl | rfl
    · show (0 : Int) < 500
      decide
    · show (0 : Int) < 300
      decide
    · trivial
    · intro p act hact
      exact absurd hact (List.not_mem_nil act)
  ⟨bumpAlloc_fresh, hops,
    (C17_descriptor_request_invariant bumpAlloc bumpAlloc_fresh exampleOps hops).1,
    by decide, by decide, by decide, by decide⟩

end ywl.net
